import Mathlib

/-! IEEE 802.3ad link aggregation, receive side (`aggr_recv.c`)

A shallow embedding of `usr/src/uts/common/io/aggr/aggr_recv.c`.

Messages (`mblk_t`) live in a heap indexed by address, address `0` being the
null pointer.  The receive callback unlinks messages from the incoming
`b_next` chain in place and hands them to external functions of the MAC layer
and of the LACP subsystem.  Those external functions are not part of the file;
each call to one of them is recorded, in order, together with the chain of
messages that is reachable from the pointer argument at the moment of the call.
-/

namespace Aggr

/-! ## Data model -/

/-- The null pointer. -/
abbrev NULL : Nat := 0

/-- A STREAMS message block, restricted to the fields read or written by the
receive path: the link `b_next` to the next message of the chain (an address,
`NULL` at the end) and the bytes of the first segment, from `b_rptr` up to
`b_wptr`. -/
structure mblk_t where
  b_next : Nat
  b_rptr : List Nat
deriving DecidableEq, Repr

/-- Kernel memory holding the messages: the message stored at each address. -/
abbrev Heap := Nat → mblk_t

/-- Modelled from the spec: the macro `MBLKL(mp)`, declared in `sys/strsun.h`
outside the sources at hand: the byte length of the first contiguous segment,
from `b_rptr` up to `b_wptr`. -/
def MBLKL (mp : mblk_t) : Nat := mp.b_rptr.length

/-- Modelled from the spec: the minimum header size `sizeof (struct
ether_header)`, declared in `sys/ethernet.h` outside the sources at hand: two
6-byte addresses and the 16-bit type field, 14 bytes. -/
def sizeof_ether_header : Nat := 14

/-- Modelled from the spec: the reserved slow-protocols ethertype
`ETHERTYPE_SLOW`, declared in `sys/ethernet.h` outside the sources at hand:
`0x8809`. -/
def ETHERTYPE_SLOW : Nat := 0x8809

/-- Modelled from the spec: the expression `ntohs(ehp->ether_type)` for `ehp =
(struct ether_header *)mp->b_rptr`, whose field offset and byte order are
declared outside the sources at hand: the 16-bit type field in network byte
order, the two bytes at offsets 12 and 13, most significant first. -/
def ntohs_ether_type (mp : mblk_t) : Nat :=
  (mp.b_rptr.getD 12 0 % 256) * 256 + mp.b_rptr.getD 13 0 % 256

/-- Modelled from the spec: the memory read made by `ntohs(ehp->ether_type)`,
with its bounds: the bytes at offsets 12 and 13 of the first segment, most
significant first, or nothing when one of them lies at or beyond `b_wptr`. -/
def read_ether_type (mp : mblk_t) : Option Nat :=
  match mp.b_rptr[12]?, mp.b_rptr[13]? with
  | some hi, some lo => some ((hi % 256) * 256 + lo % 256)
  | _, _ => none

/-- The values of `aggr_lacp_mode_t` (declared in `sys/aggr.h`). -/
inductive aggr_lacp_mode_t where
  | AGGR_LACP_OFF
  | AGGR_LACP_ACTIVE
  | AGGR_LACP_PASSIVE
deriving DecidableEq, Repr

/-- The fields of `aggr_grp_t` read by the receive path. -/
structure aggr_grp_t where
  lg_mh : Nat
  lg_lacp_mode : aggr_lacp_mode_t
deriving DecidableEq, Repr

/-- The fields of `aggr_port_t` read by the receive path. -/
structure aggr_port_t where
  lp_grp : aggr_grp_t
  lp_collector_enabled : Bool
deriving DecidableEq, Repr

/-- The fields of `aggr_pseudo_rx_ring_t` read by the receive path. -/
structure aggr_pseudo_rx_ring_t where
  arr_rh : Nat
  arr_gen : Nat
deriving DecidableEq, Repr

/-- A call to an external function.  The message argument `mp` of each call is
recorded as the list of addresses reachable from it through `b_next` when the
call is made (the empty list for `NULL`).  `mac_rx` is only ever called with a
null resource handle, which is not recorded; `aggr_lacp_rx_enqueue` records the
address of the port. -/
inductive Call where
  | mac_rx (lg_mh : Nat) (mp : List Nat)
  | mac_rx_ring (lg_mh : Nat) (arr_rh : Nat) (mp : List Nat) (arr_gen : Nat)
  | mac_aggr_promisc_dispatch (lg_mh : Nat) (mp : List Nat)
  | aggr_lacp_rx_enqueue (port : Nat) (mp : List Nat)
  | freemsg (mp : List Nat)
  | freemsgchain (mp : List Nat)
deriving DecidableEq, Repr

/-- Ways in which the execution of the receive path can go wrong: a write
through a null pointer, a failed `ASSERT`, a read beyond the end of the first
segment of a message, and running out of fuel. -/
inductive Fault where
  | null_deref
  | assert_failed
  | out_of_bounds
  | fuel_exhausted
deriving DecidableEq, Repr

deriving instance DecidableEq for Except

/-! ## Memory operations -/

/-- The chain of messages reachable from `mp` through `b_next`, cut off after
`fuel` messages. -/
def msgchain (h : Heap) : Nat → Nat → List Nat
  | 0, _ => []
  | fuel + 1, mp => if mp = NULL then [] else mp :: msgchain h fuel (h mp).b_next

/-- The assignment `mp->b_next = v`. -/
def set_b_next (h : Heap) (mp : Nat) (v : Nat) : Heap :=
  fun q => if q = mp then { h q with b_next := v } else h q

/-! ## The functions of `aggr_recv.c` -/

/-- The function `aggr_mac_rx`: the calls it makes, given memory `h`. -/
def aggr_mac_rx (fuel : Nat) (h : Heap) (lg_mh : Nat) (mrh : Option aggr_pseudo_rx_ring_t)
    (mp : Nat) (promisc_path : Bool) : List Call :=
  if promisc_path then
    [Call.mac_aggr_promisc_dispatch lg_mh (msgchain h fuel mp)]
  else
    match mrh with
    | none => [Call.mac_rx lg_mh (msgchain h fuel mp)]
    | some ring => [Call.mac_rx_ring lg_mh ring.arr_rh (msgchain h fuel mp) ring.arr_gen]

/-- The function `aggr_recv_lacp`: the calls it makes, given memory `h`.
`copymsg` is the outcome of the allocation made by `copymsg(mp)`: the address of
the copy, or `NULL` when the copy could not be made.  `arg` is the address of
`port`. -/
def aggr_recv_lacp (fuel : Nat) (copymsg : Nat → Nat) (h : Heap) (arg : Nat)
    (port : aggr_port_t) (_mrh : Option aggr_pseudo_rx_ring_t) (mp : Nat)
    (promisc_path : Bool) : List Call :=
  let grp := port.lp_grp
  if promisc_path then
    let nmp := copymsg mp
    if nmp ≠ NULL then
      [Call.mac_aggr_promisc_dispatch grp.lg_mh (msgchain h fuel mp)]
    else
      []
  else
    [Call.aggr_lacp_rx_enqueue arg (msgchain h fuel mp)]

/-- The variables of the filtering loop of `aggr_recv_path_cb`, the memory and
the external calls made so far. -/
structure loop_state where
  heap : Heap
  head : Nat
  cmp : Nat
  last : Nat
  calls : List Call

/-- One iteration of the `while (cmp != NULL)` loop of `aggr_recv_path_cb`,
entered with `cmp != NULL`.  `fuel` bounds the length of the recorded chains.
The read of the type field fails when it goes beyond the first segment. -/
def loop_body (fuel : Nat) (copymsg : Nat → Nat) (arg : Nat) (port : aggr_port_t)
    (mrh : Option aggr_pseudo_rx_ring_t) (promisc_path : Bool) (s : loop_state) :
    Except Fault loop_state :=
  if MBLKL (s.heap s.cmp) < sizeof_ether_header then
    -- packet too short
    if s.head = s.cmp then
      -- no packets accumulated
      let head := (s.heap s.cmp).b_next
      let h1 := set_b_next s.heap s.cmp NULL
      let calls := s.calls ++ [Call.freemsg (msgchain h1 fuel s.cmp)]
      .ok { heap := h1, head := head, cmp := head, last := s.last, calls := calls }
    else
      -- send up accumulated packets
      if s.last = NULL then .error Fault.null_deref else
      let h1 := set_b_next s.heap s.last NULL
      let calls := s.calls ++
        (if port.lp_collector_enabled then
          aggr_mac_rx fuel h1 port.lp_grp.lg_mh mrh s.head promisc_path
        else
          [Call.freemsgchain (msgchain h1 fuel s.head)])
      let head := (h1 s.cmp).b_next
      let h2 := set_b_next h1 s.cmp NULL
      let calls := calls ++ [Call.freemsg (msgchain h2 fuel s.cmp)]
      .ok { heap := h2, head := head, cmp := head, last := NULL, calls := calls }
  else
    -- the read of `ehp->ether_type`, at offsets 12 and 13 of `cmp->b_rptr`
    match read_ether_type (s.heap s.cmp) with
    | none => .error Fault.out_of_bounds
    | some sap =>
      if sap = ETHERTYPE_SLOW then
        -- LACP or Marker packet
        if s.head = s.cmp then
          -- first packet of chain
          if s.last ≠ NULL then .error Fault.assert_failed else
          let head := (s.heap s.cmp).b_next
          let h1 := set_b_next s.heap s.cmp NULL
          let calls := s.calls ++ aggr_recv_lacp fuel copymsg h1 arg port mrh s.cmp promisc_path
          .ok { heap := h1, head := head, cmp := head, last := s.last, calls := calls }
        else
          -- previously accumulated packets
          if s.last = NULL then .error Fault.assert_failed else
          let h1 := set_b_next s.heap s.last NULL
          -- send up non-LACP packets
          let calls := s.calls ++
            (if port.lp_collector_enabled then
              aggr_mac_rx fuel h1 port.lp_grp.lg_mh mrh s.head promisc_path
            else
              [Call.freemsgchain (msgchain h1 fuel s.head)])
          -- unlink and pass up LACP packets
          let head := (h1 s.cmp).b_next
          let h2 := set_b_next h1 s.cmp NULL
          let calls := calls ++ aggr_recv_lacp fuel copymsg h2 arg port mrh s.cmp promisc_path
          .ok { heap := h2, head := head, cmp := head, last := NULL, calls := calls }
      else
        .ok { s with last := s.cmp, cmp := (s.heap s.cmp).b_next }

/-- The loop `while (cmp != NULL)` of `aggr_recv_path_cb`, run for at most
`fuel` iterations. -/
def while_loop (n : Nat) (copymsg : Nat → Nat) (arg : Nat) (port : aggr_port_t)
    (mrh : Option aggr_pseudo_rx_ring_t) (promisc_path : Bool) :
    Nat → loop_state → Except Fault loop_state
  | 0, s => if s.cmp = NULL then .ok s else .error Fault.fuel_exhausted
  | fuel + 1, s =>
    if s.cmp = NULL then .ok s
    else
      match loop_body n copymsg arg port mrh promisc_path s with
      | .error e => .error e
      | .ok s1 => while_loop n copymsg arg port mrh promisc_path fuel s1

/-- The function `aggr_recv_path_cb`: the external calls it makes, in order,
when run on memory `h`.  `arg` is the address of `port`; `fuel` bounds the
number of loop iterations and the length of the recorded chains. -/
def aggr_recv_path_cb (fuel : Nat) (copymsg : Nat → Nat) (h : Heap) (arg : Nat)
    (port : aggr_port_t) (mrh : Option aggr_pseudo_rx_ring_t) (mp : Nat)
    (_loopback : Bool) (promisc_path : Bool) : Except Fault (List Call) :=
  let grp := port.lp_grp
  if grp.lg_lacp_mode = aggr_lacp_mode_t.AGGR_LACP_OFF then
    .ok (aggr_mac_rx fuel h grp.lg_mh mrh mp promisc_path)
  else
    -- filter out slow protocol packets (LACP & Marker)
    match while_loop fuel copymsg arg port mrh promisc_path fuel
        { heap := h, head := mp, cmp := mp, last := NULL, calls := [] } with
    | .error e => .error e
    | .ok s =>
      if s.head ≠ NULL then
        if port.lp_collector_enabled then
          .ok (s.calls ++ aggr_mac_rx fuel s.heap grp.lg_mh mrh s.head promisc_path)
        else
          .ok (s.calls ++ [Call.freemsgchain (msgchain s.heap fuel s.head)])
      else
        .ok s.calls

/-- The function `aggr_recv_cb`. -/
def aggr_recv_cb (fuel : Nat) (copymsg : Nat → Nat) (h : Heap) (arg : Nat)
    (port : aggr_port_t) (mrh : Option aggr_pseudo_rx_ring_t) (mp : Nat)
    (loopback : Bool) : Except Fault (List Call) :=
  aggr_recv_path_cb fuel copymsg h arg port mrh mp loopback false

/-- The function `aggr_recv_promisc_cb`. -/
def aggr_recv_promisc_cb (fuel : Nat) (copymsg : Nat → Nat) (h : Heap) (arg : Nat)
    (port : aggr_port_t) (mrh : Option aggr_pseudo_rx_ring_t) (mp : Nat)
    (loopback : Bool) : Except Fault (List Call) :=
  aggr_recv_path_cb fuel copymsg h arg port mrh mp loopback true

/-! ## Input chains -/

/-- Memory `h` holds at `mp` a null-terminated chain consisting of the messages
at the addresses `ps`, in this order. -/
def IsChain (h : Heap) : Nat → List Nat → Prop
  | mp, [] => mp = NULL
  | mp, p :: ps => mp = p ∧ p ≠ NULL ∧ IsChain h (h p).b_next ps

instance IsChain.decidable (h : Heap) : (mp : Nat) → (ps : List Nat) → Decidable (IsChain h mp ps)
  | mp, [] => inferInstanceAs (Decidable (mp = NULL))
  | mp, p :: ps =>
    have := IsChain.decidable h (h p).b_next ps
    inferInstanceAs (Decidable (mp = p ∧ p ≠ NULL ∧ IsChain h (h p).b_next ps))

/-- A data frame: 14 header bytes with ethertype `0x0800`. -/
def data_frame (next : Nat) : mblk_t :=
  { b_next := next, b_rptr := [0, 0, 0, 0, 0, 1, 0, 0, 0, 0, 0, 2, 0x08, 0x00] }

/-- A slow-protocols frame: 14 header bytes with ethertype `0x8809`. -/
def slow_frame (next : Nat) : mblk_t :=
  { b_next := next, b_rptr := [1, 0x80, 0xc2, 0, 0, 2, 0, 0, 0, 0, 0, 2, 0x88, 0x09] }

/-- A frame too short to hold an Ethernet header. -/
def short_frame (next : Nat) : mblk_t :=
  { b_next := next, b_rptr := [0, 0, 0, 0] }

/-- The chain of the scenarios: data 1, data 2, control 3, data 4, malformed 5,
data 6. -/
def scenario_heap : Heap := fun p =>
  match p with
  | 1 => data_frame 2
  | 2 => data_frame 3
  | 3 => slow_frame 4
  | 4 => data_frame 5
  | 5 => short_frame 6
  | 6 => data_frame NULL
  | _ => short_frame NULL

/-- A port of a group running LACP, with the collector `enabled` or not. -/
def lacp_port (enabled : Bool) : aggr_port_t :=
  { lp_grp := { lg_mh := 100, lg_lacp_mode := aggr_lacp_mode_t.AGGR_LACP_ACTIVE },
    lp_collector_enabled := enabled }

/-- A port of a group not running LACP, with the collector `enabled` or not. -/
def plain_port (enabled : Bool) : aggr_port_t :=
  { lp_grp := { lg_mh := 100, lg_lacp_mode := aggr_lacp_mode_t.AGGR_LACP_OFF },
    lp_collector_enabled := enabled }

/-! ## Classification and the trace of a chain -/

/-- The three outcomes of the tests made on a frame by the filtering loop. -/
inductive frame_class where
  | malformed
  | control
  | data
deriving DecidableEq, Repr

/-- The tests of the filtering loop on the message `mp`: too short for an
Ethernet header, else slow-protocols ethertype or not. -/
def classify (mp : mblk_t) : frame_class :=
  if MBLKL mp < sizeof_ether_header then frame_class.malformed
  else if ntohs_ether_type mp = ETHERTYPE_SLOW then frame_class.control
  else frame_class.data

/-- Memory `h` holds a path of `b_next` links that starts at `a`, runs through
the messages `ps` in this order, and arrives at `b`. -/
def IsSeg (h : Heap) : Nat → List Nat → Nat → Prop
  | a, [], b => a = b
  | a, p :: ps, b => a = p ∧ p ≠ NULL ∧ IsSeg h (h p).b_next ps b

/-- The calls recorded when a pending chain made of the frames `run` is sent
up: `aggr_mac_rx` when `lp_collector_enabled` is set, `freemsgchain` otherwise. -/
def run_calls (port : aggr_port_t) (mrh : Option aggr_pseudo_rx_ring_t) (promisc_path : Bool)
    (run : List Nat) : List Call :=
  if port.lp_collector_enabled then
    if promisc_path then [Call.mac_aggr_promisc_dispatch port.lp_grp.lg_mh run]
    else
      match mrh with
      | none => [Call.mac_rx port.lp_grp.lg_mh run]
      | some ring => [Call.mac_rx_ring port.lp_grp.lg_mh ring.arr_rh run ring.arr_gen]
  else [Call.freemsgchain run]

/-- The calls recorded for the frames accumulated so far: none when there are
none. -/
def pending_calls (port : aggr_port_t) (mrh : Option aggr_pseudo_rx_ring_t)
    (promisc_path : Bool) : List Nat → List Call
  | [] => []
  | p :: ps => run_calls port mrh promisc_path (p :: ps)

/-- The calls recorded by `aggr_recv_lacp` for the unlinked frame `f`. -/
def lacp_calls (copymsg : Nat → Nat) (arg : Nat) (port : aggr_port_t) (promisc_path : Bool)
    (f : Nat) : List Call :=
  if promisc_path then
    if copymsg f ≠ NULL then [Call.mac_aggr_promisc_dispatch port.lp_grp.lg_mh [f]] else []
  else [Call.aggr_lacp_rx_enqueue arg [f]]

/-- The calls made by the filtering loop and the final flush, as a function of
the frames `acc` accumulated so far and the frames still to be visited, each
frame `p` having class `cls p`. -/
def scan (cls : Nat → frame_class) (copymsg : Nat → Nat) (arg : Nat) (port : aggr_port_t)
    (mrh : Option aggr_pseudo_rx_ring_t) (promisc_path : Bool) :
    List Nat → List Nat → List Call
  | acc, [] => pending_calls port mrh promisc_path acc
  | acc, f :: fs =>
    match cls f with
    | frame_class.malformed =>
      pending_calls port mrh promisc_path acc ++
        Call.freemsg [f] :: scan cls copymsg arg port mrh promisc_path [] fs
    | frame_class.control =>
      pending_calls port mrh promisc_path acc ++
        (lacp_calls copymsg arg port promisc_path f ++
          scan cls copymsg arg port mrh promisc_path [] fs)
    | frame_class.data => scan cls copymsg arg port mrh promisc_path (acc ++ [f]) fs

/-- The invariant of the filtering loop: `acc` are the frames accumulated since
`head`, `rest` the frames from `cmp` on, and `h0` the memory on entry. -/
structure loop_inv (h0 : Heap) (s : loop_state) (acc rest : List Nat) : Prop where
  bytes : ∀ p, (s.heap p).b_rptr = (h0 p).b_rptr
  seg : IsSeg s.heap s.head acc s.cmp
  chain : IsChain s.heap s.cmp rest
  nodup : (acc ++ rest).Nodup
  last : s.last = acc.getLastD NULL
  data : ∀ p ∈ acc, classify (h0 p) = frame_class.data


/-! ## Observations on the recorded calls -/

/-- The messages handed over by a call. -/
def Call.frames : Call → List Nat
  | Call.mac_rx _ mp => mp
  | Call.mac_rx_ring _ _ mp _ => mp
  | Call.mac_aggr_promisc_dispatch _ mp => mp
  | Call.aggr_lacp_rx_enqueue _ mp => mp
  | Call.freemsg mp => mp
  | Call.freemsgchain mp => mp

/-- Calls to a delivery sink: `mac_rx`, `mac_rx_ring`, `mac_aggr_promisc_dispatch`. -/
def Call.is_delivery : Call → Bool
  | Call.mac_rx _ _ => true
  | Call.mac_rx_ring _ _ _ _ => true
  | Call.mac_aggr_promisc_dispatch _ _ => true
  | _ => false

/-- Calls to a sink of the normal receive path: `mac_rx`, `mac_rx_ring`. -/
def Call.is_normal_rx : Call → Bool
  | Call.mac_rx _ _ => true
  | Call.mac_rx_ring _ _ _ _ => true
  | _ => false

/-- Calls to `aggr_lacp_rx_enqueue`. -/
def Call.is_enqueue : Call → Bool
  | Call.aggr_lacp_rx_enqueue _ _ => true
  | _ => false

/-- Calls to `freemsg` or `freemsgchain`. -/
def Call.is_discard : Call → Bool
  | Call.freemsg _ => true
  | Call.freemsgchain _ => true
  | _ => false

/-- Calls to `freemsgchain`. -/
def Call.is_freemsgchain : Call → Bool
  | Call.freemsgchain _ => true
  | _ => false

/-- The frames handed to the delivery sinks, in call order. -/
def delivered (tr : List Call) : List Nat :=
  (tr.filter Call.is_delivery).flatMap Call.frames

/-- The frames handed to `aggr_lacp_rx_enqueue`, in call order. -/
def enqueued (tr : List Call) : List Nat :=
  (tr.filter Call.is_enqueue).flatMap Call.frames

/-- The frames handed to `freemsgchain`, in call order. -/
def chain_discarded (tr : List Call) : List Nat :=
  (tr.filter Call.is_freemsgchain).flatMap Call.frames

/-- Frame `p` is data-class. -/
def is_data (cls : Nat → frame_class) (p : Nat) : Bool := decide (cls p = frame_class.data)

/-- Frame `p` is control-class. -/
def is_control (cls : Nat → frame_class) (p : Nat) : Bool :=
  decide (cls p = frame_class.control)

/-- Frame `p` is malformed. -/
def is_malformed (cls : Nat → frame_class) (p : Nat) : Bool :=
  decide (cls p = frame_class.malformed)

/-- Two adjacent frames belong to one data run: both are data-class. -/
def both_data (cls : Nat → frame_class) (a b : Nat) : Bool := is_data cls a && is_data cls b

/-- Two adjacent frames belong to one same-class run. -/
def same_class (cls : Nat → frame_class) (a b : Nat) : Bool := decide (cls a = cls b)

/-- The maximal contiguous same-class runs of a chain. -/
def same_class_runs (cls : Nat → frame_class) (ps : List Nat) : List (List Nat) :=
  ps.splitBy (same_class cls)

/-- The number of maximal contiguous runs of data-class frames of a chain. -/
def data_runs (cls : Nat → frame_class) (ps : List Nat) : Nat :=
  (same_class_runs cls ps).countP (fun run => run.all (is_data cls))

/-- The calls made for one group of the chain: a maximal data run, a single
control-class frame or a single malformed frame. -/
def group_calls (cls : Nat → frame_class) (copymsg : Nat → Nat) (arg : Nat) (port : aggr_port_t)
    (mrh : Option aggr_pseudo_rx_ring_t) (promisc_path : Bool) : List Nat → List Call
  | [] => []
  | f :: fs =>
    match cls f with
    | frame_class.malformed => [Call.freemsg [f]]
    | frame_class.control => lacp_calls copymsg arg port promisc_path f
    | frame_class.data => run_calls port mrh promisc_path (f :: fs)

/-! ## The external interface as the specification names it -/

/-- The downstream calls of the specification: `deliverNormal`,
`deliverPromiscuous`, `enqueueControl` and `discard`. -/
inductive SpecCall where
  | deliverNormal (chain : List Nat)
  | deliverPromiscuous (chain : List Nat)
  | enqueueControl (frame : List Nat)
  | discard (chain : List Nat)
deriving DecidableEq, Repr

/-- The specification's name for each external call of the code. -/
def to_spec : Call → SpecCall
  | Call.mac_rx _ mp => SpecCall.deliverNormal mp
  | Call.mac_rx_ring _ _ mp _ => SpecCall.deliverNormal mp
  | Call.mac_aggr_promisc_dispatch _ mp => SpecCall.deliverPromiscuous mp
  | Call.aggr_lacp_rx_enqueue _ mp => SpecCall.enqueueControl mp
  | Call.freemsg mp => SpecCall.discard mp
  | Call.freemsgchain mp => SpecCall.discard mp

/-- The reference trace of the specification for normal mode with the gate
open: the chain is cut into its maximal contiguous runs of data-class frames,
every other frame standing alone, and in arrival order each data run gives one
`deliverNormal` of that run, each control-class frame one `enqueueControl` and
each malformed frame one single-frame `discard`. -/
def reference_trace (cls : Nat → frame_class) (ps : List Nat) : List SpecCall :=
  (ps.splitBy (both_data cls)).map fun run =>
    match run with
    | [] => SpecCall.discard []
    | f :: _ =>
      match cls f with
      | frame_class.data => SpecCall.deliverNormal run
      | frame_class.control => SpecCall.enqueueControl [f]
      | frame_class.malformed => SpecCall.discard [f]

/-- The replacement of every call to a sink of the normal receive path by a
`freemsgchain` of the same chain. -/
def discard_instead : Call → Call
  | Call.mac_rx _ mp => Call.freemsgchain mp
  | Call.mac_rx_ring _ _ mp _ => Call.freemsgchain mp
  | c => c

/-- A chain of two slow-protocols frames, at addresses 1 and 2. -/
def two_slow_heap : Heap := fun p =>
  match p with
  | 1 => slow_frame 2
  | 2 => slow_frame NULL
  | _ => short_frame NULL

/-- A chain of ten frames at addresses 1 to 10: five data frames, one
slow-protocols frame, four data frames. -/
def ten_frame_heap : Heap := fun p =>
  if p = 6 then slow_frame 7
  else if p = 10 then data_frame NULL
  else if 1 ≤ p ∧ p ≤ 9 then data_frame (p + 1)
  else short_frame NULL


/-! ## Further observations -/

/-- Calls to `mac_aggr_promisc_dispatch`. -/
def Call.is_promisc_dispatch : Call → Bool
  | Call.mac_aggr_promisc_dispatch _ _ => true
  | _ => false

/-- Calls to `freemsg`. -/
def Call.is_freemsg : Call → Bool
  | Call.freemsg _ => true
  | _ => false

/-- The states of the filtering loop of `aggr_recv_path_cb` each time its
condition `cmp != NULL` is evaluated, in order, for at most `fuel` iterations:
the list ends with the state in which the loop is left, or in which the body
fails or the fuel runs out. -/
def iterations (n : Nat) (copymsg : Nat → Nat) (arg : Nat) (port : aggr_port_t)
    (mrh : Option aggr_pseudo_rx_ring_t) (promisc_path : Bool) :
    Nat → loop_state → List loop_state
  | 0, s => [s]
  | fuel + 1, s =>
    if s.cmp = NULL then [s]
    else
      match loop_body n copymsg arg port mrh promisc_path s with
      | .error _ => [s]
      | .ok s1 => s :: iterations n copymsg arg port mrh promisc_path fuel s1

/-- The frames on which the body of the filtering loop is run, in order: the
values of `cmp` each time the condition holds. -/
def visited (n : Nat) (copymsg : Nat → Nat) (arg : Nat) (port : aggr_port_t)
    (mrh : Option aggr_pseudo_rx_ring_t) (promisc_path : Bool) (fuel : Nat)
    (s : loop_state) : List Nat :=
  ((iterations n copymsg arg port mrh promisc_path fuel s).map (fun t => t.cmp)).filter
    (fun p => decide (p ≠ NULL))

/-- The run `run` is a maximal contiguous run of data-class frames of the chain
`ps`: it is not empty, all its frames are data-class, it lies in `ps` between
some `pre` and `post`, and neither the frame just before it nor the frame just
after it is data-class. -/
def IsMaximalDataRun (cls : Nat → frame_class) (ps run : List Nat) : Prop :=
  run ≠ [] ∧ (∀ p ∈ run, cls p = frame_class.data) ∧
    ∃ pre post, ps = pre ++ run ++ post ∧
      (∀ p ∈ pre.getLast?, cls p ≠ frame_class.data) ∧
      (∀ p ∈ post.head?, cls p ≠ frame_class.data)

/-- The replacement of every call to a sink of the normal receive path by a
`mac_aggr_promisc_dispatch` of the same chain. -/
def promisc_instead : Call → Call
  | Call.mac_rx lg_mh mp => Call.mac_aggr_promisc_dispatch lg_mh mp
  | Call.mac_rx_ring lg_mh _ mp _ => Call.mac_aggr_promisc_dispatch lg_mh mp
  | c => c

/-- A data frame with the IPv6 ethertype `0x86dd`. -/
def ipv6_frame (next : Nat) : mblk_t :=
  { b_next := next, b_rptr := [0, 0, 0, 0, 0, 1, 0, 0, 0, 0, 0, 2, 0x86, 0xdd, 0x60] }

/-- The scenario chain with other bytes in its first data frame. -/
def scenario_heap_ipv6 : Heap := fun p =>
  if p = 1 then ipv6_frame 2 else scenario_heap p

/-- A chain of four frames at addresses 1 to 4: data, malformed,
slow-protocols, data. -/
def short_then_slow_heap : Heap := fun p =>
  match p with
  | 1 => data_frame 2
  | 2 => short_frame 3
  | 3 => slow_frame 4
  | 4 => data_frame NULL
  | _ => short_frame NULL

/-- The maximal contiguous runs of data-class frames of a chain, in arrival
order: the groups of data-class frames when the chain is cut wherever two
adjacent frames are not both data-class. -/
def data_run_list (cls : Nat → frame_class) (ps : List Nat) : List (List Nat) :=
  (ps.splitBy (both_data cls)).filter (fun run => run.all (is_data cls))

/-- The replacement of every call that delivers data-class frames only by a
`freemsgchain` of the same chain. -/
def discard_data_run (cls : Nat → frame_class) (e : Call) : Call :=
  if e.is_delivery && e.frames.all (is_data cls) then Call.freemsgchain e.frames else e

/-! ## Memory lemmas -/

theorem set_b_next_same (h : Heap) (p v : Nat) : (set_b_next h p v p).b_next = v := by
  simp [set_b_next]

theorem set_b_next_other (h : Heap) {p q : Nat} (v : Nat) (hq : q ≠ p) :
    set_b_next h p v q = h q := by
  simp [set_b_next, hq]

theorem set_b_next_bytes (h : Heap) (p v q : Nat) :
    (set_b_next h p v q).b_rptr = (h q).b_rptr := by
  unfold set_b_next
  split <;> rfl

theorem isChain_iff_isSeg (h : Heap) (a : Nat) (ps : List Nat) :
    IsChain h a ps ↔ IsSeg h a ps NULL := by
  induction ps generalizing a with
  | nil => simp [IsChain, IsSeg]
  | cons p ps ih => simp [IsChain, IsSeg, ih]

theorem isSeg_append (h : Heap) (a b : Nat) (xs ys : List Nat) :
    IsSeg h a (xs ++ ys) b ↔ ∃ m, IsSeg h a xs m ∧ IsSeg h m ys b := by
  induction xs generalizing a with
  | nil => simp [IsSeg]
  | cons x xs ih =>
    constructor
    · intro hs
      have hs1 : a = x ∧ x ≠ NULL ∧ IsSeg h (h x).b_next (xs ++ ys) b := hs
      obtain ⟨m, h3, h4⟩ := (ih (h x).b_next).mp hs1.2.2
      exact ⟨m, ⟨hs1.1, hs1.2.1, h3⟩, h4⟩
    · rintro ⟨m, ⟨h1, h2, h3⟩, h4⟩
      exact ⟨h1, h2, (ih (h x).b_next).mpr ⟨m, h3, h4⟩⟩

theorem isSeg_set_of_not_mem (h : Heap) (p v : Nat) (a b : Nat) (ps : List Nat)
    (hp : p ∉ ps) : IsSeg (set_b_next h p v) a ps b ↔ IsSeg h a ps b := by
  induction ps generalizing a with
  | nil => simp [IsSeg]
  | cons q qs ih =>
    have hq : q ≠ p := fun e => hp (by simp [e])
    have hqs : p ∉ qs := fun e => hp (by simp [e])
    simp only [IsSeg, set_b_next_other h v hq, ih _ hqs]

theorem isChain_set_of_not_mem (h : Heap) (p v : Nat) (a : Nat) (ps : List Nat)
    (hp : p ∉ ps) : IsChain (set_b_next h p v) a ps ↔ IsChain h a ps := by
  rw [isChain_iff_isSeg, isChain_iff_isSeg, isSeg_set_of_not_mem h p v a NULL ps hp]

theorem msgchain_of_isChain (h : Heap) (fuel : Nat) (a : Nat) (ps : List Nat)
    (hc : IsChain h a ps) (hf : ps.length ≤ fuel) : msgchain h fuel a = ps := by
  induction ps generalizing a fuel with
  | nil =>
    have ha : a = 0 := hc
    cases fuel <;> simp [msgchain, ha]
  | cons p ps ih =>
    obtain ⟨h1, h2, h3⟩ := hc
    cases fuel with
    | zero => simp at hf
    | succ k =>
      have hk : ps.length ≤ k := by simpa using hf
      have hp : p ≠ 0 := h2
      simp [msgchain, h1, hp, ih k _ h3 hk]

theorem isChain_unique (h : Heap) (a : Nat) (ps qs : List Nat)
    (hp : IsChain h a ps) (hq : IsChain h a qs) : ps = qs := by
  induction ps generalizing a qs with
  | nil =>
    cases qs with
    | nil => rfl
    | cons q qs =>
      have ha : a = NULL := hp
      exact absurd (hq.1.symm.trans ha) hq.2.1
  | cons p ps ih =>
    cases qs with
    | nil =>
      have ha : a = NULL := hq
      exact absurd (hp.1.symm.trans ha) hp.2.1
    | cons q qs =>
      have hpq : p = q := hp.1.symm.trans hq.1
      subst hpq
      rw [ih _ qs hp.2.2 hq.2.2]

theorem isChain_suffix (h : Heap) (a q : Nat) (l1 l2 : List Nat)
    (hc : IsChain h a (l1 ++ q :: l2)) : IsChain h q (q :: l2) := by
  induction l1 generalizing a with
  | nil => exact ⟨rfl, hc.2.1, hc.2.2⟩
  | cons x xs ih => exact ih _ hc.2.2

/-- A null-terminated chain visits no message twice. -/
theorem isChain_nodup (h : Heap) (a : Nat) (ps : List Nat) (hc : IsChain h a ps) :
    ps.Nodup := by
  induction ps generalizing a with
  | nil => exact List.nodup_nil
  | cons p ps ih =>
    refine List.nodup_cons.mpr ⟨?_, ih _ hc.2.2⟩
    intro hmem
    obtain ⟨l1, l2, rfl⟩ := List.append_of_mem hmem
    have h1 : IsChain h p (p :: l2) := isChain_suffix h _ p l1 l2 hc.2.2
    have h2 : IsChain h p (p :: (l1 ++ p :: l2)) := ⟨rfl, hc.2.1, hc.2.2⟩
    have h3 := congrArg List.length (isChain_unique h p _ _ h1 h2)
    simp at h3
    omega

theorem isChain_ne_null (h : Heap) (a : Nat) (ps : List Nat) (hc : IsChain h a ps) :
    ∀ p ∈ ps, p ≠ NULL := by
  induction ps generalizing a with
  | nil => simp
  | cons p ps ih =>
    intro q hq
    rcases List.mem_cons.mp hq with rfl | hq
    · exact hc.2.1
    · exact ih _ hc.2.2 q hq

theorem isChain_single (h : Heap) (f : Nat) (hf : f ≠ NULL) :
    IsChain (set_b_next h f NULL) f [f] :=
  ⟨rfl, hf, set_b_next_same h f NULL⟩

theorem classify_of_bytes {m m0 : mblk_t} (hb : m.b_rptr = m0.b_rptr) :
    MBLKL m = MBLKL m0 ∧ ntohs_ether_type m = ntohs_ether_type m0 := by
  simp [MBLKL, ntohs_ether_type, hb]

/-- Past the length test the type field lies inside the first segment. -/
theorem read_ether_type_of_long (mp : mblk_t) (hlen : ¬ MBLKL mp < sizeof_ether_header) :
    read_ether_type mp = some (ntohs_ether_type mp) := by
  have h14 : 14 ≤ mp.b_rptr.length := by
    simpa [MBLKL, sizeof_ether_header] using hlen
  have h12 : 12 < mp.b_rptr.length := by omega
  have h13 : 13 < mp.b_rptr.length := by omega
  simp [read_ether_type, ntohs_ether_type, List.getD, List.getElem?_eq_getElem h12,
    List.getElem?_eq_getElem h13]

theorem send_up_eq (n : Nat) (h : Heap) (port : aggr_port_t)
    (mrh : Option aggr_pseudo_rx_ring_t) (head : Nat) (promisc_path : Bool) (run : List Nat)
    (hc : IsChain h head run) (hn : run.length ≤ n) :
    (if port.lp_collector_enabled then aggr_mac_rx n h port.lp_grp.lg_mh mrh head promisc_path
      else [Call.freemsgchain (msgchain h n head)]) = run_calls port mrh promisc_path run := by
  unfold aggr_mac_rx run_calls
  rw [msgchain_of_isChain h n head run hc hn]

theorem aggr_recv_lacp_eq (n : Nat) (copymsg : Nat → Nat) (h : Heap) (arg : Nat)
    (port : aggr_port_t) (mrh : Option aggr_pseudo_rx_ring_t) (f : Nat) (promisc_path : Bool)
    (hc : IsChain h f [f]) (hn : 1 ≤ n) :
    aggr_recv_lacp n copymsg h arg port mrh f promisc_path =
      lacp_calls copymsg arg port promisc_path f := by
  unfold aggr_recv_lacp lacp_calls
  rw [msgchain_of_isChain h n f [f] hc (by simpa using hn)]

theorem pending_calls_ne_nil (port : aggr_port_t) (mrh : Option aggr_pseudo_rx_ring_t)
    (promisc_path : Bool) (acc : List Nat) (hacc : acc ≠ []) :
    pending_calls port mrh promisc_path acc = run_calls port mrh promisc_path acc := by
  cases acc with
  | nil => exact absurd rfl hacc
  | cons p ps => rfl

/-! ## The loop invariant -/

theorem loop_inv_init (h : Heap) (mp : Nat) (ps : List Nat) (hc : IsChain h mp ps) :
    loop_inv h { heap := h, head := mp, cmp := mp, last := NULL, calls := [] } [] ps where
  bytes := fun _ => rfl
  seg := rfl
  chain := hc
  nodup := isChain_nodup h mp ps hc
  last := rfl
  data := by simp

theorem loop_inv_cmp {h0 : Heap} {s : loop_state} {acc : List Nat} {f : Nat} {fs : List Nat}
    (hinv : loop_inv h0 s acc (f :: fs)) :
    s.cmp = f ∧ f ≠ NULL ∧ IsChain s.heap (s.heap f).b_next fs ∧ f ∉ fs ∧ f ∉ acc := by
  obtain ⟨h1, h2, h3⟩ := hinv.chain
  have hnd := hinv.nodup
  rw [List.nodup_append] at hnd
  obtain ⟨_, hnd2, hdis⟩ := hnd
  refine ⟨h1, h2, h3, (List.nodup_cons.mp hnd2).1, ?_⟩
  intro hmem
  exact hdis hmem (List.mem_cons_self f fs)

/-- With no frame accumulated, `head` and `cmp` coincide and `last` is null. -/
theorem loop_inv_nil {h0 : Heap} {s : loop_state} {rest : List Nat}
    (hinv : loop_inv h0 s [] rest) : s.head = s.cmp ∧ s.last = NULL :=
  ⟨hinv.seg, hinv.last⟩

/-- With frames accumulated, `head` and `cmp` differ, `last` is the last
accumulated frame, and cutting the chain after `last` leaves exactly the
accumulated frames at `head`. -/
theorem loop_inv_concat {h0 : Heap} {s : loop_state} {init : List Nat} {l : Nat}
    {rest : List Nat} (hinv : loop_inv h0 s (init ++ [l]) rest) :
    s.head ≠ s.cmp ∧ s.last = l ∧ l ≠ NULL ∧ (s.heap l).b_next = s.cmp ∧
      IsChain (set_b_next s.heap l NULL) s.head (init ++ [l]) := by
  have hseg := hinv.seg
  rw [isSeg_append] at hseg
  obtain ⟨m, hs1, hs2, hs3, hs4⟩ := hseg
  have hs4 : (s.heap l).b_next = s.cmp := hs4
  subst hs2
  have hnd := hinv.nodup
  have hl : s.last = m := by
    have := hinv.last
    simpa using this
  have hnd1 : (init ++ [m]).Nodup := (List.nodup_append.mp hnd).1
  have hm_init : m ∉ init := by
    intro hmem
    have := List.nodup_append.mp hnd1
    exact this.2.2 hmem (List.mem_singleton_self m)
  have hchain : IsChain (set_b_next s.heap m NULL) s.head (init ++ [m]) := by
    rw [isChain_iff_isSeg, isSeg_append]
    refine ⟨m, (isSeg_set_of_not_mem s.heap m NULL s.head m init hm_init).mpr hs1, ?_⟩
    exact ⟨rfl, hs3, set_b_next_same s.heap m NULL⟩
  refine ⟨?_, hl, hs3, hs4, hchain⟩
  intro heq
  -- `head` is the first accumulated frame, which is neither null nor in `rest`
  have hhead_mem : s.head ∈ init ++ [m] := by
    cases init with
    | nil =>
      have : s.head = m := hs1
      simp [this]
    | cons x xs =>
      have : s.head = x := hs1.1
      simp [this]
  have hhead_ne : s.head ≠ NULL := by
    cases init with
    | nil =>
      have : s.head = m := hs1
      rw [this]; exact hs3
    | cons x xs =>
      have h1 : s.head = x := hs1.1
      rw [h1]; exact hs1.2.1
  cases rest with
  | nil =>
    have : s.cmp = NULL := hinv.chain
    exact hhead_ne (heq.trans this)
  | cons r rs =>
    have hc : s.cmp = r := hinv.chain.1
    have hr : s.head ∈ r :: rs := by
      rw [heq.trans hc]
      exact List.mem_cons_self r rs
    exact (List.nodup_append.mp hnd).2.2 hhead_mem hr

/-- The invariant after the frame at `cmp` has been unlinked, with nothing
accumulated before it. -/
theorem loop_inv_detach_first {h0 : Heap} {s : loop_state} {f : Nat} {fs : List Nat}
    (hinv : loop_inv h0 s [] (f :: fs)) (calls : List Call) :
    loop_inv h0 { heap := set_b_next s.heap s.cmp NULL, head := (s.heap s.cmp).b_next,
                  cmp := (s.heap s.cmp).b_next, last := s.last, calls := calls } [] fs := by
  obtain ⟨hcmp, _, hnext, hf_fs, _⟩ := loop_inv_cmp hinv
  refine ⟨fun p => (set_b_next_bytes _ _ _ p).trans (hinv.bytes p), rfl, ?_, ?_, hinv.last, by simp⟩
  · show IsChain (set_b_next s.heap s.cmp NULL) (s.heap s.cmp).b_next fs
    rw [hcmp]
    exact (isChain_set_of_not_mem s.heap f NULL _ fs hf_fs).mpr hnext
  · have := hinv.nodup
    simp only [List.nil_append, List.nodup_cons] at this
    simpa using this.2

/-- The invariant after the accumulated frames have been cut off at `last` and
the frame at `cmp` has been unlinked. -/
theorem loop_inv_detach_after {h0 : Heap} {s : loop_state} {init : List Nat} {l f : Nat}
    {fs : List Nat} (hinv : loop_inv h0 s (init ++ [l]) (f :: fs)) (calls : List Call) :
    loop_inv h0 { heap := set_b_next (set_b_next s.heap s.last NULL) s.cmp NULL,
                  head := (set_b_next s.heap s.last NULL s.cmp).b_next,
                  cmp := (set_b_next s.heap s.last NULL s.cmp).b_next,
                  last := NULL, calls := calls } [] fs := by
  obtain ⟨hcmp, _, hnext, hf_fs, hf_acc⟩ := loop_inv_cmp hinv
  obtain ⟨_, hlast, _, _, _⟩ := loop_inv_concat hinv
  have hfl : f ≠ l := fun e => hf_acc (by simp [e])
  have hl_fs : l ∉ fs := by
    intro hmem
    exact (List.nodup_append.mp hinv.nodup).2.2 (by simp) (List.mem_cons_of_mem f hmem)
  refine ⟨fun p => ?_, rfl, ?_, ?_, rfl, by simp⟩
  · exact (set_b_next_bytes _ _ _ p).trans ((set_b_next_bytes _ _ _ p).trans (hinv.bytes p))
  · show IsChain (set_b_next (set_b_next s.heap s.last NULL) s.cmp NULL)
      (set_b_next s.heap s.last NULL s.cmp).b_next fs
    rw [hcmp, hlast, set_b_next_other s.heap NULL hfl]
    exact (isChain_set_of_not_mem _ f NULL _ fs hf_fs).mpr
      ((isChain_set_of_not_mem _ l NULL _ fs hl_fs).mpr hnext)
  · have := (List.nodup_append.mp hinv.nodup).2.1
    simpa using (List.nodup_cons.mp this).2

/-- The invariant after a data frame has been accumulated. -/
theorem loop_inv_accumulate {h0 : Heap} {s : loop_state} {acc : List Nat} {f : Nat}
    {fs : List Nat} (hinv : loop_inv h0 s acc (f :: fs))
    (hdata : classify (h0 f) = frame_class.data) :
    loop_inv h0 { s with last := s.cmp, cmp := (s.heap s.cmp).b_next } (acc ++ [f]) fs := by
  obtain ⟨hcmp, hfne, hnext, _, _⟩ := loop_inv_cmp hinv
  refine ⟨hinv.bytes, ?_, ?_, ?_, ?_, ?_⟩
  · show IsSeg s.heap s.head (acc ++ [f]) (s.heap s.cmp).b_next
    rw [isSeg_append]
    refine ⟨f, ?_, rfl, hfne, by rw [hcmp]; rfl⟩
    have := hinv.seg
    rwa [hcmp] at this
  · show IsChain s.heap (s.heap s.cmp).b_next fs
    rw [hcmp]; exact hnext
  · have := hinv.nodup
    simpa using this
  · show s.cmp = (acc ++ [f]).getLastD NULL
    simp [hcmp]
  · intro p hp
    rcases List.mem_append.mp hp with hp | hp
    · exact hinv.data p hp
    · rw [List.mem_singleton.mp hp]; exact hdata

/-- One iteration of the loop, started from a state in which `f` is the frame at
`cmp`: it succeeds, re-establishes the invariant for the frames after `f`, and
records the calls given by `scan`. -/
theorem loop_body_spec (h0 : Heap) (n : Nat) (copymsg : Nat → Nat) (arg : Nat)
    (port : aggr_port_t) (mrh : Option aggr_pseudo_rx_ring_t) (promisc_path : Bool)
    {s : loop_state} {acc : List Nat} {f : Nat} {fs : List Nat}
    (hinv : loop_inv h0 s acc (f :: fs)) (hn : (acc ++ f :: fs).length ≤ n) :
    ∃ s1 acc1, loop_body n copymsg arg port mrh promisc_path s = .ok s1 ∧
      loop_inv h0 s1 acc1 fs ∧ (acc1 ++ fs).length ≤ n ∧
      s1.calls ++ scan (fun p => classify (h0 p)) copymsg arg port mrh promisc_path acc1 fs =
        s.calls ++
          scan (fun p => classify (h0 p)) copymsg arg port mrh promisc_path acc (f :: fs) := by
  obtain ⟨hcmp, hfne, hnext, hf_fs, hf_acc⟩ := loop_inv_cmp hinv
  obtain ⟨hlen, htype⟩ := classify_of_bytes (hinv.bytes f)
  have hn1 : 1 ≤ n := by
    simp only [List.length_append, List.length_cons] at hn
    omega
  have hnfs : ([] ++ fs).length ≤ n := by
    simp only [List.length_append, List.length_cons, List.nil_append] at hn ⊢
    omega
  rcases hcl : classify (h0 f) with _ | _ | _
  · -- malformed
    have hshort : MBLKL (s.heap s.cmp) < sizeof_ether_header := by
      rw [hcmp, hlen]
      unfold classify at hcl
      by_contra hc
      rw [if_neg hc] at hcl
      split at hcl <;> cases hcl
    have hscan : scan (fun p => classify (h0 p)) copymsg arg port mrh promisc_path acc (f :: fs) =
        pending_calls port mrh promisc_path acc ++
          Call.freemsg [f] :: scan (fun p => classify (h0 p)) copymsg arg port mrh
            promisc_path [] fs := by
      simp only [scan, hcl]
    rcases List.eq_nil_or_concat' acc with rfl | ⟨init, l, rfl⟩
    · obtain ⟨hhead, _⟩ := loop_inv_nil hinv
      apply Exists.intro
      refine Exists.intro [] ⟨?heq, ?hinv1, hnfs, ?hcalls⟩
      case heq =>
        unfold loop_body
        rw [if_pos hshort, if_pos hhead]
      case hinv1 => exact loop_inv_detach_first hinv _
      case hcalls =>
        rw [hscan, hcmp, msgchain_of_isChain _ n f [f] (isChain_single s.heap f hfne)
          (by simpa using hn1)]
        simp [pending_calls]
    · obtain ⟨hhead, hlast, hlne, _, hchain⟩ := loop_inv_concat hinv
      have hacc : (init ++ [l]).length ≤ n := by
        simp only [List.length_append, List.length_cons] at hn ⊢
        omega
      apply Exists.intro
      refine Exists.intro [] ⟨?heq, ?hinv1, hnfs, ?hcalls⟩
      case heq =>
        unfold loop_body
        rw [if_pos hshort, if_neg hhead, if_neg (by rw [hlast]; exact hlne)]
      case hinv1 => exact loop_inv_detach_after hinv _
      case hcalls =>
        rw [hscan, hlast, send_up_eq n _ port mrh s.head promisc_path _ hchain hacc, hcmp,
          msgchain_of_isChain _ n f [f] (isChain_single _ f hfne) (by simpa using hn1),
          pending_calls_ne_nil port mrh promisc_path _ (by simp)]
        simp
  · -- control
    have hlong : ¬ MBLKL (s.heap s.cmp) < sizeof_ether_header := by
      rw [hcmp, hlen]
      unfold classify at hcl
      intro hc
      rw [if_pos hc] at hcl
      cases hcl
    have hslow : ntohs_ether_type (s.heap s.cmp) = ETHERTYPE_SLOW := by
      rw [hcmp, htype]
      unfold classify at hcl
      by_contra hc
      rw [if_neg hc] at hcl
      split at hcl <;> cases hcl
    have hscan : scan (fun p => classify (h0 p)) copymsg arg port mrh promisc_path acc (f :: fs) =
        pending_calls port mrh promisc_path acc ++
          (lacp_calls copymsg arg port promisc_path f ++
            scan (fun p => classify (h0 p)) copymsg arg port mrh promisc_path [] fs) := by
      simp only [scan, hcl]
    rcases List.eq_nil_or_concat' acc with rfl | ⟨init, l, rfl⟩
    · obtain ⟨hhead, hlast⟩ := loop_inv_nil hinv
      apply Exists.intro
      refine Exists.intro [] ⟨?heq, ?hinv1, hnfs, ?hcalls⟩
      case heq =>
        unfold loop_body
        rw [if_neg hlong]
        simp only [read_ether_type_of_long _ hlong]
        rw [if_pos hslow, if_pos hhead, if_neg (by rw [hlast]; simp)]
      case hinv1 => exact loop_inv_detach_first hinv _
      case hcalls =>
        rw [hscan, hcmp, aggr_recv_lacp_eq n copymsg _ arg port mrh f promisc_path
          (isChain_single s.heap f hfne) hn1]
        simp [pending_calls]
    · obtain ⟨hhead, hlast, hlne, _, hchain⟩ := loop_inv_concat hinv
      have hacc : (init ++ [l]).length ≤ n := by
        simp only [List.length_append, List.length_cons] at hn ⊢
        omega
      apply Exists.intro
      refine Exists.intro [] ⟨?heq, ?hinv1, hnfs, ?hcalls⟩
      case heq =>
        unfold loop_body
        rw [if_neg hlong]
        simp only [read_ether_type_of_long _ hlong]
        rw [if_pos hslow, if_neg hhead, if_neg (by rw [hlast]; exact hlne)]
      case hinv1 => exact loop_inv_detach_after hinv _
      case hcalls =>
        rw [hscan, hlast, send_up_eq n _ port mrh s.head promisc_path _ hchain hacc, hcmp,
          aggr_recv_lacp_eq n copymsg _ arg port mrh f promisc_path
            (isChain_single _ f hfne) hn1,
          pending_calls_ne_nil port mrh promisc_path _ (by simp)]
        simp
  · -- data
    have hlong : ¬ MBLKL (s.heap s.cmp) < sizeof_ether_header := by
      rw [hcmp, hlen]
      unfold classify at hcl
      intro hc
      rw [if_pos hc] at hcl
      cases hcl
    have hslow : ¬ ntohs_ether_type (s.heap s.cmp) = ETHERTYPE_SLOW := by
      rw [hcmp, htype]
      unfold classify at hcl
      intro hc
      rw [if_neg (by rw [← hlen, ← hcmp]; exact hlong), if_pos hc] at hcl
      cases hcl
    apply Exists.intro
    refine Exists.intro (acc ++ [f]) ⟨?heq, ?hinv1, ?hlen1, ?hcalls⟩
    case heq =>
      unfold loop_body
      rw [if_neg hlong]
      simp only [read_ether_type_of_long _ hlong]
      rw [if_neg hslow]
    case hinv1 => exact loop_inv_accumulate hinv hcl
    case hlen1 => simpa using hn
    case hcalls => simp only [scan, hcl]

/-- The loop runs to completion on a null-terminated chain, given one unit of
fuel for each frame still to be visited. -/
theorem while_loop_spec (h0 : Heap) (n : Nat) (copymsg : Nat → Nat) (arg : Nat)
    (port : aggr_port_t) (mrh : Option aggr_pseudo_rx_ring_t) (promisc_path : Bool)
    (rest : List Nat) :
    ∀ (fuel : Nat) (s : loop_state) (acc : List Nat),
      loop_inv h0 s acc rest → (acc ++ rest).length ≤ n → rest.length ≤ fuel →
      ∃ s1 acc1, while_loop n copymsg arg port mrh promisc_path fuel s = .ok s1 ∧
        loop_inv h0 s1 acc1 [] ∧ acc1.length ≤ n ∧
        s1.calls ++ pending_calls port mrh promisc_path acc1 =
          s.calls ++ scan (fun p => classify (h0 p)) copymsg arg port mrh promisc_path acc rest := by
  induction rest with
  | nil =>
    intro fuel s acc hinv hn _
    have hcmp : s.cmp = NULL := hinv.chain
    refine ⟨s, acc, ?_, hinv, by simpa using hn, by simp [scan]⟩
    cases fuel <;> simp [while_loop, hcmp]
  | cons f fs ih =>
    intro fuel s acc hinv hn hfuel
    obtain ⟨hcmp, hfne, _, _, _⟩ := loop_inv_cmp hinv
    obtain ⟨s1, acc1, hbody, hinv1, hn1, hcalls1⟩ :=
      loop_body_spec h0 n copymsg arg port mrh promisc_path hinv hn
    cases fuel with
    | zero => simp at hfuel
    | succ k =>
      have hk : fs.length ≤ k := by simpa using hfuel
      obtain ⟨s2, acc2, hloop, hinv2, hn2, hcalls2⟩ := ih k s1 acc1 hinv1 hn1 hk
      refine ⟨s2, acc2, ?_, hinv2, hn2, hcalls2.trans hcalls1⟩
      have hne : ¬ s.cmp = NULL := by rw [hcmp]; exact hfne
      simp only [while_loop, if_neg hne, hbody]
      exact hloop

/-- With LACP running, on a null-terminated chain `ps` and with enough fuel,
`aggr_recv_path_cb` returns, having made the calls given by `scan`. -/
theorem aggr_recv_path_cb_lacp (fuel : Nat) (copymsg : Nat → Nat) (h : Heap) (arg : Nat)
    (port : aggr_port_t) (mrh : Option aggr_pseudo_rx_ring_t) (mp : Nat)
    (loopback promisc_path : Bool) (ps : List Nat)
    (hmode : port.lp_grp.lg_lacp_mode ≠ aggr_lacp_mode_t.AGGR_LACP_OFF)
    (hc : IsChain h mp ps) (hfuel : ps.length ≤ fuel) :
    aggr_recv_path_cb fuel copymsg h arg port mrh mp loopback promisc_path =
      .ok (scan (fun p => classify (h p)) copymsg arg port mrh promisc_path [] ps) := by
  obtain ⟨s1, acc1, hloop, hinv1, hn1, hcalls1⟩ :=
    while_loop_spec h fuel copymsg arg port mrh promisc_path ps fuel _ []
      (loop_inv_init h mp ps hc) (by simpa using hfuel) hfuel
  have hchain : IsChain s1.heap s1.head acc1 := by
    rw [isChain_iff_isSeg]
    have hcmp : s1.cmp = NULL := hinv1.chain
    have := hinv1.seg
    rwa [hcmp] at this
  unfold aggr_recv_path_cb
  simp only [if_neg hmode, hloop]
  simp only [List.nil_append] at hcalls1
  rw [← hcalls1]
  cases acc1 with
  | nil =>
    have hhead : s1.head = NULL := hchain
    simp [hhead, pending_calls]
  | cons a as =>
    have hhead : s1.head ≠ NULL := by
      rw [hchain.1]; exact hchain.2.1
    have hsend := send_up_eq fuel s1.heap port mrh s1.head promisc_path _ hchain hn1
    rw [if_pos hhead]
    show _ = Except.ok (s1.calls ++ run_calls port mrh promisc_path (a :: as))
    rw [← hsend]
    cases port.lp_collector_enabled <;> rfl

/-- With LACP off, `aggr_recv_path_cb` passes the whole chain to `aggr_mac_rx`. -/
theorem aggr_recv_path_cb_off (fuel : Nat) (copymsg : Nat → Nat) (h : Heap) (arg : Nat)
    (port : aggr_port_t) (mrh : Option aggr_pseudo_rx_ring_t) (mp : Nat)
    (loopback promisc_path : Bool) (ps : List Nat)
    (hmode : port.lp_grp.lg_lacp_mode = aggr_lacp_mode_t.AGGR_LACP_OFF)
    (hc : IsChain h mp ps) (hfuel : ps.length ≤ fuel) :
    aggr_recv_path_cb fuel copymsg h arg port mrh mp loopback promisc_path =
      .ok (if promisc_path then [Call.mac_aggr_promisc_dispatch port.lp_grp.lg_mh ps]
        else
          match mrh with
          | none => [Call.mac_rx port.lp_grp.lg_mh ps]
          | some ring => [Call.mac_rx_ring port.lp_grp.lg_mh ring.arr_rh ps ring.arr_gen]) := by
  unfold aggr_recv_path_cb aggr_mac_rx
  simp only [if_pos hmode]
  rw [msgchain_of_isChain h fuel mp ps hc hfuel]

/-! ## Maximal runs -/

theorem splitBy_loop_acc {α : Type} (r : α → α → Bool) (l : List α) :
    ∀ (a : α) (g : List α) (gs : List (List α)),
      List.splitBy.loop r l a g gs = gs.reverse ++ List.splitBy.loop r l a g [] := by
  induction l with
  | nil => intro a g gs; simp [List.splitBy.loop]
  | cons b l ih =>
    intro a g gs
    simp only [List.splitBy.loop]
    cases r a b
    · simp only []
      rw [ih b [] ((a :: g).reverse :: gs), ih b [] [(a :: g).reverse]]
      simp
    · simp only []
      rw [ih b (a :: g) gs]

theorem splitBy_loop_group {α : Type} (r : α → α → Bool) (l : List α) :
    ∀ (a : α) (g : List α),
      ∃ x xs, List.splitBy.loop r l a [] [] = x :: xs ∧
        List.splitBy.loop r l a g [] = (g.reverse ++ x) :: xs := by
  induction l with
  | nil => intro a g; exact ⟨[a], [], by simp [List.splitBy.loop], by simp [List.splitBy.loop]⟩
  | cons b l ih =>
    intro a g
    simp only [List.splitBy.loop]
    cases r a b
    · simp only []
      refine ⟨[a], List.splitBy.loop r l b [] [], ?_, ?_⟩
      · rw [splitBy_loop_acc r l b [] [[a].reverse]]
        simp
      · rw [splitBy_loop_acc r l b [] [(a :: g).reverse]]
        simp
    · simp only []
      obtain ⟨x, xs, h1, h2⟩ := ih b [a]
      obtain ⟨y, ys, h3, h4⟩ := ih b (a :: g)
      rw [h3] at h1
      injection h1 with h5 h6
      subst h5 h6
      exact ⟨a :: y, ys, by rw [h2]; simp, by rw [h4]; simp⟩

/-- The first group of `splitBy`: when every element related to `a`, or to an
element satisfying `p`, is exactly one that satisfies `p`, the group of `a` is
`a` followed by the longest prefix satisfying `p`. -/
theorem splitBy_cons_eq {α : Type} (r : α → α → Bool) (p : α → Bool)
    (hp : ∀ b c, p b = true → r b c = p c) (l : List α) :
    ∀ a, (∀ b, r a b = p b) →
      List.splitBy r (a :: l) =
        (a :: l.takeWhile p) :: List.splitBy r (l.dropWhile p) := by
  induction l with
  | nil => intro a _; simp [List.splitBy, List.splitBy.loop]
  | cons b l ih =>
    intro a ha
    have hstep : List.splitBy r (a :: b :: l) =
        if r a b = true then List.splitBy.loop r l b [a] []
        else [a] :: List.splitBy r (b :: l) := by
      simp only [List.splitBy, List.splitBy.loop]
      cases r a b
      · simp only []
        rw [splitBy_loop_acc r l b [] [[a].reverse]]
        simp
      · simp
    rw [hstep, ha b]
    cases hb : p b
    · simp [List.takeWhile_cons, List.dropWhile_cons, hb]
    · have hb2 : ∀ c, r b c = p c := fun c => hp b c hb
      obtain ⟨x, xs, h1, h2⟩ := splitBy_loop_group r l b [a]
      have h3 := ih b hb2
      have h4 : List.splitBy r (b :: l) = List.splitBy.loop r l b [] [] := rfl
      rw [h4, h1] at h3
      injection h3 with h5 h6
      simp only [if_true, List.takeWhile_cons, List.dropWhile_cons, hb]
      rw [h2, h5, h6]
      simp


/-! ## The calls as a function of the chain -/

theorem pending_calls_append_nil (port : aggr_port_t) (mrh : Option aggr_pseudo_rx_ring_t)
    (promisc_path : Bool) (acc : List Nat) :
    pending_calls port mrh promisc_path (acc ++ []) = pending_calls port mrh promisc_path acc := by
  rw [List.append_nil]

/-- The frames accumulated so far are flushed together with the data-class
frames that follow them directly. -/
theorem scan_takeWhile (cls : Nat → frame_class) (copymsg : Nat → Nat) (arg : Nat)
    (port : aggr_port_t) (mrh : Option aggr_pseudo_rx_ring_t) (promisc_path : Bool)
    (fs : List Nat) :
    ∀ acc, scan cls copymsg arg port mrh promisc_path acc fs =
      pending_calls port mrh promisc_path (acc ++ fs.takeWhile (is_data cls)) ++
        scan cls copymsg arg port mrh promisc_path [] (fs.dropWhile (is_data cls)) := by
  induction fs with
  | nil => intro acc; simp [scan, pending_calls]
  | cons f fs ih =>
    intro acc
    rcases hcl : cls f with _ | _ | _
    · have hd : is_data cls f = false := by simp [is_data, hcl]
      simp [scan, hcl, List.takeWhile_cons, List.dropWhile_cons, hd, pending_calls]
    · have hd : is_data cls f = false := by simp [is_data, hcl]
      simp [scan, hcl, List.takeWhile_cons, List.dropWhile_cons, hd, pending_calls]
    · have hd : is_data cls f = true := by simp [is_data, hcl]
      simp only [scan, hcl, List.takeWhile_cons, List.dropWhile_cons, hd, if_true]
      rw [ih (acc ++ [f])]
      simp

theorem splitBy_both_data_cons (cls : Nat → frame_class) (f : Nat) (fs : List Nat) :
    List.splitBy (both_data cls) (f :: fs) =
      if is_data cls f = true then
        (f :: fs.takeWhile (is_data cls)) ::
          List.splitBy (both_data cls) (fs.dropWhile (is_data cls))
      else [f] :: List.splitBy (both_data cls) fs := by
  cases hd : is_data cls f
  · have h := splitBy_cons_eq (both_data cls) (fun _ => false)
      (fun b c hb => by simp at hb) fs f (fun b => by simp [both_data, hd])
    have h1 : fs.takeWhile (fun _ => false) = [] := by cases fs <;> simp [List.takeWhile_cons]
    have h2 : fs.dropWhile (fun _ => false) = fs := by cases fs <;> simp [List.dropWhile_cons]
    rw [h1, h2] at h
    simpa using h
  · have h := splitBy_cons_eq (both_data cls) (is_data cls)
      (fun b c hb => by simp [both_data, hb]) fs f (fun b => by simp [both_data, hd])
    simpa using h

/-- The calls made on a chain are those made for each of its groups in turn:
its maximal data runs and its single control-class and malformed frames. -/
theorem scan_eq_flatMap (cls : Nat → frame_class) (copymsg : Nat → Nat) (arg : Nat)
    (port : aggr_port_t) (mrh : Option aggr_pseudo_rx_ring_t) (promisc_path : Bool) :
    ∀ (n : Nat) (ps : List Nat), ps.length ≤ n →
      scan cls copymsg arg port mrh promisc_path [] ps =
        (List.splitBy (both_data cls) ps).flatMap
          (group_calls cls copymsg arg port mrh promisc_path) := by
  intro n
  induction n with
  | zero =>
    intro ps hps
    have : ps = [] := List.length_eq_zero.mp (Nat.le_zero.mp hps)
    subst this
    simp [scan, pending_calls]
  | succ n ih =>
    intro ps hps
    cases ps with
    | nil => simp [scan, pending_calls]
    | cons f fs =>
      have hfs : fs.length ≤ n := by simpa using hps
      rw [splitBy_both_data_cons]
      rcases hcl : cls f with _ | _ | _
      · have hd : is_data cls f = false := by simp [is_data, hcl]
        simp [scan, hcl, hd, pending_calls, group_calls, ih fs hfs]
      · have hd : is_data cls f = false := by simp [is_data, hcl]
        simp [scan, hcl, hd, pending_calls, group_calls, ih fs hfs]
      · have hd : is_data cls f = true := by simp [is_data, hcl]
        have hdw : (fs.dropWhile (is_data cls)).length ≤ n :=
          le_trans (List.dropWhile_suffix (is_data cls)).length_le hfs
        simp only [scan, hcl, hd, if_true, List.nil_append, List.flatMap_cons]
        rw [scan_takeWhile, ih _ hdw]
        simp [pending_calls, group_calls, hcl]


/-! ## Properties of the calls made on a chain -/

theorem mem_pending_calls {port : aggr_port_t} {mrh : Option aggr_pseudo_rx_ring_t}
    {promisc_path : Bool} {acc : List Nat} {e : Call}
    (he : e ∈ pending_calls port mrh promisc_path acc) :
    acc ≠ [] ∧ e ∈ run_calls port mrh promisc_path acc := by
  cases acc with
  | nil => simp [pending_calls] at he
  | cons a as => exact ⟨by simp, he⟩

/-- Every call made on a chain is the flush of a non-empty run of accumulated
or data-class frames, the handling of one control-class frame by
`aggr_recv_lacp`, or the `freemsg` of one malformed frame. -/
theorem mem_scan (cls : Nat → frame_class) (copymsg : Nat → Nat) (arg : Nat)
    (port : aggr_port_t) (mrh : Option aggr_pseudo_rx_ring_t) (promisc_path : Bool)
    (ps : List Nat) :
    ∀ (acc : List Nat) (e : Call), e ∈ scan cls copymsg arg port mrh promisc_path acc ps →
      (∃ run, run ≠ [] ∧ (∀ p ∈ run, p ∈ acc ∨ (p ∈ ps ∧ cls p = frame_class.data)) ∧
          e ∈ run_calls port mrh promisc_path run) ∨
      (∃ f ∈ ps, cls f = frame_class.control ∧ e ∈ lacp_calls copymsg arg port promisc_path f) ∨
      (∃ f ∈ ps, cls f = frame_class.malformed ∧ e = Call.freemsg [f]) := by
  induction ps with
  | nil =>
    intro acc e he
    obtain ⟨h1, h2⟩ := mem_pending_calls he
    exact Or.inl ⟨acc, h1, fun p hp => Or.inl hp, h2⟩
  | cons f fs ih =>
    intro acc e he
    have hflush : e ∈ pending_calls port mrh promisc_path acc →
        ∃ run, run ≠ [] ∧ (∀ p ∈ run, p ∈ acc ∨ (p ∈ f :: fs ∧ cls p = frame_class.data)) ∧
          e ∈ run_calls port mrh promisc_path run := fun h =>
      ⟨acc, (mem_pending_calls h).1, fun p hp => Or.inl hp, (mem_pending_calls h).2⟩
    have hrest : e ∈ scan cls copymsg arg port mrh promisc_path [] fs →
        (∃ run, run ≠ [] ∧ (∀ p ∈ run, p ∈ acc ∨ (p ∈ f :: fs ∧ cls p = frame_class.data)) ∧
            e ∈ run_calls port mrh promisc_path run) ∨
        (∃ g ∈ f :: fs, cls g = frame_class.control ∧
            e ∈ lacp_calls copymsg arg port promisc_path g) ∨
        (∃ g ∈ f :: fs, cls g = frame_class.malformed ∧ e = Call.freemsg [g]) := by
      intro h
      rcases ih [] e h with ⟨run, h1, h2, h3⟩ | ⟨g, h1, h2, h3⟩ | ⟨g, h1, h2, h3⟩
      · refine Or.inl ⟨run, h1, fun p hp => ?_, h3⟩
        rcases h2 p hp with h4 | ⟨h4, h5⟩
        · simp at h4
        · exact Or.inr ⟨List.mem_cons_of_mem f h4, h5⟩
      · exact Or.inr (Or.inl ⟨g, List.mem_cons_of_mem f h1, h2, h3⟩)
      · exact Or.inr (Or.inr ⟨g, List.mem_cons_of_mem f h1, h2, h3⟩)
    rcases hcl : cls f with _ | _ | _
    · simp only [scan, hcl, List.mem_append, List.mem_cons] at he
      rcases he with he | he | he
      · exact Or.inl (hflush he)
      · exact Or.inr (Or.inr ⟨f, List.mem_cons_self f fs, hcl, he⟩)
      · exact hrest he
    · simp only [scan, hcl, List.mem_append] at he
      rcases he with he | he | he
      · exact Or.inl (hflush he)
      · exact Or.inr (Or.inl ⟨f, List.mem_cons_self f fs, hcl, he⟩)
      · exact hrest he
    · simp only [scan, hcl] at he
      rcases ih (acc ++ [f]) e he with ⟨run, h1, h2, h3⟩ | ⟨g, h1, h2, h3⟩ | ⟨g, h1, h2, h3⟩
      · refine Or.inl ⟨run, h1, fun p hp => ?_, h3⟩
        rcases h2 p hp with h4 | ⟨h4, h5⟩
        · rcases List.mem_append.mp h4 with h6 | h6
          · exact Or.inl h6
          · rw [List.mem_singleton.mp h6]
            exact Or.inr ⟨List.mem_cons_self f fs, hcl⟩
        · exact Or.inr ⟨List.mem_cons_of_mem f h4, h5⟩
      · exact Or.inr (Or.inl ⟨g, List.mem_cons_of_mem f h1, h2, h3⟩)
      · exact Or.inr (Or.inr ⟨g, List.mem_cons_of_mem f h1, h2, h3⟩)

theorem delivered_append (t1 t2 : List Call) : delivered (t1 ++ t2) = delivered t1 ++ delivered t2 := by
  simp [delivered]

theorem enqueued_append (t1 t2 : List Call) : enqueued (t1 ++ t2) = enqueued t1 ++ enqueued t2 := by
  simp [enqueued]

theorem chain_discarded_append (t1 t2 : List Call) :
    chain_discarded (t1 ++ t2) = chain_discarded t1 ++ chain_discarded t2 := by
  simp [chain_discarded]

theorem delivered_cons (e : Call) (t : List Call) :
    delivered (e :: t) = (if e.is_delivery then e.frames else []) ++ delivered t := by
  cases he : e.is_delivery <;> simp [delivered, List.filter_cons, he]

theorem chain_discarded_cons (e : Call) (t : List Call) :
    chain_discarded (e :: t) =
      (if e.is_freemsgchain then e.frames else []) ++ chain_discarded t := by
  cases he : e.is_freemsgchain <;> simp [chain_discarded, List.filter_cons, he]

theorem delivered_pending_calls (port : aggr_port_t) (mrh : Option aggr_pseudo_rx_ring_t)
    (promisc_path : Bool) (acc : List Nat) :
    delivered (pending_calls port mrh promisc_path acc) =
      if port.lp_collector_enabled then acc else [] := by
  cases acc with
  | nil => simp [pending_calls, delivered]
  | cons a as =>
    cases hg : port.lp_collector_enabled <;> cases promisc_path <;> cases mrh <;>
      simp [pending_calls, run_calls, delivered, hg, Call.is_delivery, Call.frames]

theorem chain_discarded_pending_calls (port : aggr_port_t)
    (mrh : Option aggr_pseudo_rx_ring_t) (promisc_path : Bool) (acc : List Nat) :
    chain_discarded (pending_calls port mrh promisc_path acc) =
      if port.lp_collector_enabled then [] else acc := by
  cases acc with
  | nil => simp [pending_calls, chain_discarded]
  | cons a as =>
    cases hg : port.lp_collector_enabled <;> cases promisc_path <;> cases mrh <;>
      simp [pending_calls, run_calls, chain_discarded, hg, Call.is_freemsgchain, Call.frames]

theorem filter_enqueue_pending_calls (port : aggr_port_t) (mrh : Option aggr_pseudo_rx_ring_t)
    (promisc_path : Bool) (acc : List Nat) :
    (pending_calls port mrh promisc_path acc).filter Call.is_enqueue = [] := by
  cases acc with
  | nil => simp [pending_calls]
  | cons a as =>
    cases hg : port.lp_collector_enabled <;> cases promisc_path <;> cases mrh <;>
      simp [pending_calls, run_calls, hg, Call.is_enqueue]

/-- The frames that reach a delivery sink: the data-class frames when the
collector is enabled, and on the promiscuous path the control-class frames whose
`copymsg` succeeded. -/
theorem delivered_scan (cls : Nat → frame_class) (copymsg : Nat → Nat) (arg : Nat)
    (port : aggr_port_t) (mrh : Option aggr_pseudo_rx_ring_t) (promisc_path : Bool)
    (ps : List Nat) :
    ∀ acc, delivered (scan cls copymsg arg port mrh promisc_path acc ps) =
      (if port.lp_collector_enabled then acc else []) ++
        ps.filter (fun p => (port.lp_collector_enabled && is_data cls p) ||
          (promisc_path && is_control cls p && decide (copymsg p ≠ NULL))) := by
  induction ps with
  | nil => intro acc; simp [scan, delivered_pending_calls]
  | cons f fs ih =>
    intro acc
    rcases hcl : cls f with _ | _ | _
    · simp [scan, hcl, delivered_append, delivered_cons, delivered_pending_calls, ih, is_data,
        is_control, List.filter_cons, Call.is_delivery]
    · simp only [scan, hcl, delivered_append, delivered_pending_calls, ih, is_data, is_control,
        List.filter_cons]
      cases promisc_path <;> by_cases hcp : copymsg f = NULL <;>
        simp [lacp_calls, delivered, Call.is_delivery, Call.frames, hcp]
    · simp only [scan, hcl, ih, is_data, is_control, List.filter_cons]
      cases port.lp_collector_enabled <;> simp

/-- The calls to `aggr_lacp_rx_enqueue`: none on the promiscuous path, and on
the normal path one for each control-class frame, alone and in arrival order. -/
theorem filter_enqueue_scan (cls : Nat → frame_class) (copymsg : Nat → Nat) (arg : Nat)
    (port : aggr_port_t) (mrh : Option aggr_pseudo_rx_ring_t) (promisc_path : Bool)
    (ps : List Nat) :
    ∀ acc, (scan cls copymsg arg port mrh promisc_path acc ps).filter Call.is_enqueue =
      if promisc_path then []
      else (ps.filter (is_control cls)).map (fun c => Call.aggr_lacp_rx_enqueue arg [c]) := by
  induction ps with
  | nil => intro acc; simp [scan, filter_enqueue_pending_calls]
  | cons f fs ih =>
    intro acc
    rcases hcl : cls f with _ | _ | _
    · simp [scan, hcl, filter_enqueue_pending_calls, ih, is_control, List.filter_cons,
        Call.is_enqueue]
    · simp only [scan, hcl, List.filter_append, filter_enqueue_pending_calls, ih, is_control,
        List.filter_cons]
      cases promisc_path <;> by_cases hcp : copymsg f = NULL <;>
        simp [lacp_calls, Call.is_enqueue, hcp]
    · simp [scan, hcl, ih, is_control, List.filter_cons]

/-- The frames handed to `freemsgchain`: the data-class frames when the
collector is disabled, none otherwise. -/
theorem chain_discarded_scan (cls : Nat → frame_class) (copymsg : Nat → Nat) (arg : Nat)
    (port : aggr_port_t) (mrh : Option aggr_pseudo_rx_ring_t) (promisc_path : Bool)
    (ps : List Nat) :
    ∀ acc, chain_discarded (scan cls copymsg arg port mrh promisc_path acc ps) =
      if port.lp_collector_enabled then [] else acc ++ ps.filter (is_data cls) := by
  induction ps with
  | nil => intro acc; simp [scan, chain_discarded_pending_calls]
  | cons f fs ih =>
    intro acc
    rcases hcl : cls f with _ | _ | _
    · simp only [scan, hcl, chain_discarded_append, chain_discarded_cons,
        chain_discarded_pending_calls, ih, is_data, List.filter_cons]
      cases port.lp_collector_enabled <;> simp [Call.is_freemsgchain]
    · simp only [scan, hcl, chain_discarded_append, chain_discarded_pending_calls, ih, is_data,
        List.filter_cons]
      cases port.lp_collector_enabled <;> cases promisc_path <;>
        by_cases hcp : copymsg f = NULL <;>
        simp [lacp_calls, chain_discarded, Call.is_freemsgchain, hcp]
    · simp only [scan, hcl, ih, is_data, List.filter_cons]
      cases port.lp_collector_enabled <;> simp


/-- On the normal path, disabling the collector replaces every call to a
receive sink by a `freemsgchain` of the same chain and changes nothing else. -/
theorem scan_gate_closed (cls : Nat → frame_class) (copymsg : Nat → Nat) (arg : Nat)
    (grp : aggr_grp_t) (mrh : Option aggr_pseudo_rx_ring_t) (ps : List Nat) :
    ∀ acc, scan cls copymsg arg { lp_grp := grp, lp_collector_enabled := false } mrh false acc ps =
      (scan cls copymsg arg { lp_grp := grp, lp_collector_enabled := true } mrh false acc
        ps).map discard_instead := by
  have hpend : ∀ acc : List Nat,
      pending_calls { lp_grp := grp, lp_collector_enabled := false } mrh false acc =
        (pending_calls { lp_grp := grp, lp_collector_enabled := true } mrh false acc).map
          discard_instead := by
    intro acc
    cases acc with
    | nil => rfl
    | cons a as => cases mrh <;> simp [pending_calls, run_calls, discard_instead]
  induction ps with
  | nil => intro acc; simp [scan, hpend]
  | cons f fs ih =>
    intro acc
    rcases hcl : cls f with _ | _ | _
    · simp [scan, hcl, hpend, ih, discard_instead]
    · simp [scan, hcl, hpend, ih, lacp_calls, discard_instead]
    · simp [scan, hcl, ih]

/-- On the promiscuous path, a failed `copymsg` of the control-class frame `c`
removes the calls that carry `c` and changes nothing else. -/
theorem scan_copy_failure (cls : Nat → frame_class) (copy_fail copy_ok : Nat → Nat) (arg : Nat)
    (port : aggr_port_t) (mrh : Option aggr_pseudo_rx_ring_t) (c : Nat)
    (hcls : cls c = frame_class.control) (hfail : copy_fail c = NULL)
    (hsame : ∀ p, p ≠ c → (copy_fail p = NULL ↔ copy_ok p = NULL)) (ps : List Nat) :
    ∀ acc, c ∉ acc →
      scan cls copy_fail arg port mrh true acc ps =
        (scan cls copy_ok arg port mrh true acc ps).filter
          (fun e => decide (c ∉ e.frames)) := by
  have hpend : ∀ acc : List Nat, c ∉ acc →
      (pending_calls port mrh true acc).filter (fun e => decide (c ∉ e.frames)) =
        pending_calls port mrh true acc := by
    intro acc hacc
    cases acc with
    | nil => rfl
    | cons a as =>
      cases hg : port.lp_collector_enabled <;>
        simp [pending_calls, run_calls, hg, Call.frames, List.filter_cons] <;>
        simpa using hacc
  induction ps with
  | nil => intro acc hacc; simp only [scan]; rw [hpend acc hacc]
  | cons f fs ih =>
    intro acc hacc
    rcases hcl : cls f with _ | _ | _
    · have hfc : c ≠ f := fun e => by rw [e, hcl] at hcls; cases hcls
      simp only [scan, hcl, List.filter_append, List.filter_cons, hpend acc hacc]
      rw [← ih [] (by simp)]
      simp [Call.frames, hfc]
    · simp only [scan, hcl, List.filter_append, hpend acc hacc]
      rw [← ih [] (by simp)]
      congr 2
      by_cases hfc : f = c
      · subst hfc
        by_cases hok : copy_ok f = NULL <;>
          simp [lacp_calls, hfail, hok, Call.frames, List.filter_cons]
      · have hiff := hsame f hfc
        have hcf : c ≠ f := fun e => hfc e.symm
        by_cases hok : copy_ok f = NULL
        · simp [lacp_calls, hiff.mpr hok, hok]
        · have hf2 : ¬ copy_fail f = NULL := fun e => hok (hiff.mp e)
          simp [lacp_calls, hf2, hok, Call.frames, List.filter_cons, hcf]
    · have hfc : c ≠ f := fun e => by rw [e, hcl] at hcls; cases hcls
      simp only [scan, hcl]
      exact ih (acc ++ [f]) (by simp [hacc, hfc])

/-- Every group of the partition into data runs and single frames gives, on
the normal path with the collector enabled, exactly the call of the reference
trace. -/
theorem map_to_spec_group_calls (cls : Nat → frame_class) (copymsg : Nat → Nat) (arg : Nat)
    (port : aggr_port_t) (mrh : Option aggr_pseudo_rx_ring_t)
    (hgate : port.lp_collector_enabled = true) (gs : List (List Nat)) (hgs : [] ∉ gs) :
    (gs.flatMap (group_calls cls copymsg arg port mrh false)).map to_spec =
      gs.map fun run =>
        match run with
        | [] => SpecCall.discard []
        | f :: _ =>
          match cls f with
          | frame_class.data => SpecCall.deliverNormal run
          | frame_class.control => SpecCall.enqueueControl [f]
          | frame_class.malformed => SpecCall.discard [f] := by
  induction gs with
  | nil => rfl
  | cons g gs ih =>
    have hg : g ≠ [] := fun e => hgs (by simp [e])
    have hgs1 : [] ∉ gs := fun e => hgs (List.mem_cons_of_mem g e)
    simp only [List.flatMap_cons, List.map_append, List.map_cons, ih hgs1]
    cases g with
    | nil => exact absurd rfl hg
    | cons f fs =>
      rcases hcl : cls f with _ | _ | _
      · simp [group_calls, hcl, to_spec]
      · simp [group_calls, hcl, lacp_calls, to_spec]
      · cases mrh <;> simp [group_calls, hcl, run_calls, hgate, to_spec]


/-! ## Counting runs -/

theorem same_class_trans (cls : Nat → frame_class) (f b c : Nat)
    (hb : same_class cls f b = true) : same_class cls b c = same_class cls f c := by
  have h : cls f = cls b := by simpa [same_class] using hb
  simp [same_class, h]

theorem same_class_runs_cons (cls : Nat → frame_class) (f : Nat) (fs : List Nat) :
    same_class_runs cls (f :: fs) =
      (f :: fs.takeWhile (same_class cls f)) ::
        same_class_runs cls (fs.dropWhile (same_class cls f)) :=
  splitBy_cons_eq (same_class cls) (same_class cls f) (same_class_trans cls f) fs f (fun _ => rfl)

theorem same_class_of_data (cls : Nat → frame_class) (f : Nat)
    (hf : cls f = frame_class.data) : same_class cls f = is_data cls := by
  funext b
  simp only [same_class, is_data, hf]
  by_cases hb : cls b = frame_class.data
  · simp [hb]
  · have : ¬ frame_class.data = cls b := fun e => hb e.symm
    simp [hb, this]

theorem data_runs_cons_data (cls : Nat → frame_class) (f : Nat) (fs : List Nat)
    (hf : cls f = frame_class.data) :
    data_runs cls (f :: fs) = data_runs cls (fs.dropWhile (is_data cls)) + 1 := by
  unfold data_runs
  rw [same_class_runs_cons, same_class_of_data cls f hf, List.countP_cons_of_pos]
  simp [is_data, hf]

theorem data_runs_cons_dropWhile (cls : Nat → frame_class) (f : Nat) (fs : List Nat)
    (hf : cls f ≠ frame_class.data) :
    data_runs cls (f :: fs) = data_runs cls (fs.dropWhile (same_class cls f)) := by
  unfold data_runs
  rw [same_class_runs_cons, List.countP_cons_of_neg]
  simp [is_data, hf]

theorem data_runs_cons_other (cls : Nat → frame_class) (f : Nat) (fs : List Nat)
    (hf : cls f ≠ frame_class.data) : data_runs cls (f :: fs) = data_runs cls fs := by
  rw [data_runs_cons_dropWhile cls f fs hf]
  cases fs with
  | nil => rfl
  | cons b l =>
    cases hb : same_class cls f b
    · simp [List.dropWhile_cons, hb]
    · have hcb : cls f = cls b := by simpa [same_class] using hb
      have hfun : same_class cls b = same_class cls f :=
        funext fun c => same_class_trans cls f b c hb
      rw [data_runs_cons_dropWhile cls b l (by rw [← hcb]; exact hf), hfun]
      simp [List.dropWhile_cons, hb]

theorem filter_takeWhile_data (cls : Nat → frame_class) (q : Nat → Bool)
    (hq : ∀ p, is_data cls p = true → q p = false) (fs : List Nat) :
    (fs.takeWhile (is_data cls)).filter q = [] := by
  rw [List.filter_eq_nil_iff]
  intro a ha
  have := hq a (List.mem_takeWhile_imp ha)
  simp [this]

theorem filter_eq_filter_dropWhile (cls : Nat → frame_class) (q : Nat → Bool)
    (hq : ∀ p, is_data cls p = true → q p = false) (fs : List Nat) :
    fs.filter q = (fs.dropWhile (is_data cls)).filter q := by
  conv_lhs => rw [← List.takeWhile_append_dropWhile (is_data cls) fs]
  rw [List.filter_append, filter_takeWhile_data cls q hq fs, List.nil_append]

theorem run_calls_length (port : aggr_port_t) (mrh : Option aggr_pseudo_rx_ring_t)
    (promisc_path : Bool) (run : List Nat) :
    (run_calls port mrh promisc_path run).length = 1 := by
  unfold run_calls
  cases port.lp_collector_enabled <;> cases promisc_path <;> cases mrh <;> rfl

theorem run_calls_frames (port : aggr_port_t) (mrh : Option aggr_pseudo_rx_ring_t)
    (promisc_path : Bool) (run : List Nat) :
    ∀ e ∈ run_calls port mrh promisc_path run, e.frames = run := by
  unfold run_calls
  cases port.lp_collector_enabled <;> cases promisc_path <;> cases mrh <;>
    simp [Call.frames]

/-- The number of calls selected by `w`, when `w` selects every flush of a data
run and every `freemsg`: one for each maximal run of data-class frames, one for
each malformed frame, and those selected among the calls made for the
control-class frames. -/
theorem scan_count (cls : Nat → frame_class) (copymsg : Nat → Nat) (arg : Nat)
    (port : aggr_port_t) (mrh : Option aggr_pseudo_rx_ring_t) (promisc_path : Bool)
    (w : Call → Bool)
    (hrun : ∀ run, (∀ p ∈ run, is_data cls p = true) →
      ∀ e ∈ run_calls port mrh promisc_path run, w e = true)
    (hfree : ∀ f, cls f = frame_class.malformed → w (Call.freemsg [f]) = true) :
    ∀ (n : Nat) (ps : List Nat), ps.length ≤ n →
      ((scan cls copymsg arg port mrh promisc_path [] ps).filter w).length =
        data_runs cls ps + ps.countP (is_malformed cls) +
          (((ps.filter (is_control cls)).flatMap
            (lacp_calls copymsg arg port promisc_path)).filter w).length := by
  intro n
  induction n with
  | zero =>
    intro ps hps
    have : ps = [] := List.length_eq_zero.mp (Nat.le_zero.mp hps)
    subst this
    simp [scan, pending_calls, data_runs, same_class_runs]
  | succ n ih =>
    intro ps hps
    cases ps with
    | nil => simp [scan, pending_calls, data_runs, same_class_runs]
    | cons f fs =>
      have hfs : fs.length ≤ n := by simpa using hps
      rcases hcl : cls f with _ | _ | _
      · have hnd : cls f ≠ frame_class.data := by rw [hcl]; simp
        rw [data_runs_cons_other cls f fs hnd]
        simp only [scan, hcl, pending_calls, List.nil_append, List.filter_cons, hfree f hcl,
          if_true,
          List.length_cons, ih fs hfs, is_malformed, is_control, List.countP_cons]
        simp
        omega
      · have hnd : cls f ≠ frame_class.data := by rw [hcl]; simp
        rw [data_runs_cons_other cls f fs hnd]
        simp only [scan, hcl, pending_calls, List.nil_append, List.filter_append,
          List.length_append, ih fs hfs, is_malformed, is_control, List.countP_cons,
          List.filter_cons]
        simp
        omega
      · have hd : is_data cls f = true := by simp [is_data, hcl]
        have hdw : (fs.dropWhile (is_data cls)).length ≤ n :=
          le_trans (List.dropWhile_suffix (is_data cls)).length_le hfs
        have hall : ∀ p ∈ f :: fs.takeWhile (is_data cls), is_data cls p = true := by
          intro p hp
          rcases List.mem_cons.mp hp with rfl | hp
          · exact hd
          · exact List.mem_takeWhile_imp hp
        have hC : (f :: fs).filter (is_control cls) =
            (fs.dropWhile (is_data cls)).filter (is_control cls) := by
          rw [List.filter_cons_of_neg (by simp [is_control, hcl])]
          exact filter_eq_filter_dropWhile cls _
            (fun p hp => by simp [is_data] at hp; simp [is_control, hp]) fs
        have hM : (f :: fs).countP (is_malformed cls) =
            (fs.dropWhile (is_data cls)).countP (is_malformed cls) := by
          rw [List.countP_eq_length_filter, List.countP_eq_length_filter,
            List.filter_cons_of_neg (by simp [is_malformed, hcl])]
          exact congrArg List.length (filter_eq_filter_dropWhile cls _
            (fun p hp => by simp [is_data] at hp; simp [is_malformed, hp]) fs)
        rw [data_runs_cons_data cls f fs hcl, hC, hM]
        simp only [scan, hcl, List.nil_append]
        rw [scan_takeWhile, List.filter_append, List.length_append, ih _ hdw]
        have hpend : (pending_calls port mrh promisc_path
            ([f] ++ fs.takeWhile (is_data cls))).filter w =
            run_calls port mrh promisc_path (f :: fs.takeWhile (is_data cls)) := by
          simp only [List.singleton_append, pending_calls]
          exact List.filter_eq_self.mpr (hrun _ hall)
        rw [hpend, run_calls_length]
        omega


/-! ## The claims -/

/-- C1: on the promiscuous path with LACP running, a control-class frame whose
`copymsg` fails is passed to no call at all: frame 3 of the scenario chain is
neither delivered, enqueued nor freed, so the calls do not cover the chain. -/
theorem C1_control_frame_in_no_call :
    IsChain scenario_heap 1 [1, 2, 3, 4, 5, 6] ∧
    classify (scenario_heap 3) = frame_class.control ∧
    aggr_recv_path_cb 6 (fun _ => NULL) scenario_heap 50 (lacp_port true) none 1 false true =
      .ok [Call.mac_aggr_promisc_dispatch 100 [1, 2], Call.mac_aggr_promisc_dispatch 100 [4],
        Call.freemsg [5], Call.mac_aggr_promisc_dispatch 100 [6]] ∧
    Except.map (fun tr => tr.flatMap Call.frames)
      (aggr_recv_promisc_cb 6 (fun _ => NULL) scenario_heap 50 (lacp_port true) none 1 false) =
      .ok [1, 2, 4, 5, 6] := by
  decide

/-- C2: with LACP running, on the normal path and with the collector enabled,
`aggr_recv_path_cb` returns on every null-terminated chain and its calls, named
as in the specification, are the reference trace: one `deliverNormal` for each
maximal run of data-class frames, one `enqueueControl` for each control-class
frame and one single-frame `discard` for each malformed frame, in arrival
order. -/
theorem C2_normal_trace_is_reference (fuel : Nat) (copymsg : Nat → Nat) (h : Heap) (arg : Nat)
    (port : aggr_port_t) (mrh : Option aggr_pseudo_rx_ring_t) (mp : Nat) (loopback : Bool)
    (ps : List Nat)
    (hmode : port.lp_grp.lg_lacp_mode ≠ aggr_lacp_mode_t.AGGR_LACP_OFF)
    (hgate : port.lp_collector_enabled = true)
    (hc : IsChain h mp ps) (hfuel : ps.length ≤ fuel) :
    Except.map (List.map to_spec)
        (aggr_recv_path_cb fuel copymsg h arg port mrh mp loopback false) =
      .ok (reference_trace (fun p => classify (h p)) ps) := by
  rw [aggr_recv_path_cb_lacp fuel copymsg h arg port mrh mp loopback false ps hmode hc hfuel,
    scan_eq_flatMap _ copymsg arg port mrh false ps.length ps (le_refl _)]
  simp only [Except.map]
  rw [map_to_spec_group_calls _ copymsg arg port mrh hgate _
    (List.nil_not_mem_splitBy _ ps)]
  rfl

/-- C2, on the scenario chain: data 1, data 2, control 3, data 4, malformed 5,
data 6 gives `deliverNormal [1, 2]`, `enqueueControl [3]`, `deliverNormal [4]`,
`discard [5]`, `deliverNormal [6]`. -/
theorem C2_normal_trace_is_reference_witness :
    IsChain scenario_heap 1 [1, 2, 3, 4, 5, 6] ∧
    Except.map (List.map to_spec)
        (aggr_recv_path_cb 6 (fun p => p + 1000) scenario_heap 50 (lacp_port true) none 1
          false false) =
      .ok (reference_trace (fun p => classify (scenario_heap p)) [1, 2, 3, 4, 5, 6]) ∧
    reference_trace (fun p => classify (scenario_heap p)) [1, 2, 3, 4, 5, 6] =
      [SpecCall.deliverNormal [1, 2], SpecCall.enqueueControl [3], SpecCall.deliverNormal [4],
        SpecCall.discard [5], SpecCall.deliverNormal [6]] :=
  ⟨by decide,
    C2_normal_trace_is_reference 6 (fun p => p + 1000) scenario_heap 50 (lacp_port true) none 1
      false [1, 2, 3, 4, 5, 6] (by decide) rfl (by decide) (by decide),
    by decide⟩


/-- C3 fails as stated: with the collector disabled the data runs are freed,
not delivered, so the delivered frames are not the data-class frames of the
chain; and on the promiscuous path the control-class frame 3 is not handed to
`aggr_lacp_rx_enqueue`. -/
theorem C3_counterexample :
    IsChain scenario_heap 1 [1, 2, 3, 4, 5, 6] ∧
    [1, 2, 3, 4, 5, 6].filter (is_data (fun p => classify (scenario_heap p))) = [1, 2, 4, 6] ∧
    [1, 2, 3, 4, 5, 6].filter (is_control (fun p => classify (scenario_heap p))) = [3] ∧
    Except.map enqueued
      (aggr_recv_path_cb 6 (fun p => p + 1000) scenario_heap 50 (lacp_port true) none 1
        false true) = .ok [] ∧
    Except.map delivered
      (aggr_recv_path_cb 6 (fun p => p + 1000) scenario_heap 50 (lacp_port false) none 1
        false false) = .ok [] ∧
    Except.map delivered
      (aggr_recv_path_cb 6 (fun p => p + 1000) scenario_heap 50 (lacp_port false) none 1
        false false) ≠
      .ok ([1, 2, 3, 4, 5, 6].filter (is_data (fun p => classify (scenario_heap p)))) := by
  decide

/-- C3, amended: with LACP running `aggr_recv_path_cb` returns on every
null-terminated chain, and (1) with the collector enabled the data-class frames
handed to the delivery sinks, concatenated in call order, are exactly the
data-class frames of the chain in arrival order, on the normal path nothing else
being delivered; (2) with the collector disabled no data-class frame is
delivered; (3) on the normal path the frames handed to `aggr_lacp_rx_enqueue`
are exactly the control-class frames of the chain in arrival order, in either
state of the collector; (4) on the promiscuous path nothing is enqueued. -/
theorem C3_order_preserved_per_class (fuel : Nat) (copymsg : Nat → Nat) (h : Heap) (arg : Nat)
    (port : aggr_port_t) (mrh : Option aggr_pseudo_rx_ring_t) (mp : Nat)
    (loopback promisc_path : Bool) (ps : List Nat)
    (hmode : port.lp_grp.lg_lacp_mode ≠ aggr_lacp_mode_t.AGGR_LACP_OFF)
    (hc : IsChain h mp ps) (hfuel : ps.length ≤ fuel) :
    ∃ tr, aggr_recv_path_cb fuel copymsg h arg port mrh mp loopback promisc_path = .ok tr ∧
      (port.lp_collector_enabled = true →
        (delivered tr).filter (is_data (fun p => classify (h p))) =
          ps.filter (is_data (fun p => classify (h p))) ∧
        (promisc_path = false → delivered tr = ps.filter (is_data (fun p => classify (h p))))) ∧
      (port.lp_collector_enabled = false →
        (delivered tr).filter (is_data (fun p => classify (h p))) = []) ∧
      (promisc_path = false → enqueued tr = ps.filter (is_control (fun p => classify (h p)))) ∧
      (promisc_path = true → enqueued tr = []) := by
  refine ⟨_, aggr_recv_path_cb_lacp fuel copymsg h arg port mrh mp loopback promisc_path ps
    hmode hc hfuel, ?_, ?_, ?_, ?_⟩
  · intro hgate
    rw [delivered_scan, hgate]
    refine ⟨?_, ?_⟩
    · simp only [if_true, List.nil_append, List.filter_filter]
      apply List.filter_congr
      intro p _
      by_cases hp : classify (h p) = frame_class.data <;> simp [is_data, is_control, hp]
    · intro hp
      subst hp
      simp
  · intro hgate
    rw [delivered_scan, hgate]
    simp only [Bool.false_eq_true, if_false, List.nil_append, List.filter_filter,
      List.filter_eq_nil_iff]
    intro p _
    by_cases hp : classify (h p) = frame_class.data <;> simp [is_data, is_control, hp]
  · intro hp
    subst hp
    simp only [enqueued, filter_enqueue_scan]
    simp [List.flatMap_map, Call.frames]
  · intro hp
    subst hp
    simp [enqueued, filter_enqueue_scan]

/-- C3 amended, on the scenario chain, normal path, collector enabled: frames 1,
2, 4, 6 are delivered and frame 3 is enqueued. -/
theorem C3_order_preserved_per_class_witness :
    IsChain scenario_heap 1 [1, 2, 3, 4, 5, 6] ∧
    ∃ tr, aggr_recv_path_cb 6 (fun p => p + 1000) scenario_heap 50 (lacp_port true) none 1
        false false = .ok tr ∧ delivered tr = [1, 2, 4, 6] ∧ enqueued tr = [3] := by
  refine ⟨by decide, ?_⟩
  obtain ⟨tr, h1, h2, _, h4, _⟩ :=
    C3_order_preserved_per_class 6 (fun p => p + 1000) scenario_heap 50 (lacp_port true) none 1
      false false [1, 2, 3, 4, 5, 6] (by decide) (by decide) (by decide)
  have e1 : [1, 2, 3, 4, 5, 6].filter (is_data (fun p => classify (scenario_heap p))) =
      [1, 2, 4, 6] := by decide
  have e2 : [1, 2, 3, 4, 5, 6].filter (is_control (fun p => classify (scenario_heap p))) =
      [3] := by decide
  exact ⟨tr, h1, ((h2 rfl).2 rfl).trans e1, (h4 rfl).trans e2⟩


/-- C4 fails as stated: two adjacent control-class frames form one maximal
same-class run, yet each is handed over by a call of its own. -/
theorem C4_counterexample :
    IsChain two_slow_heap 1 [1, 2] ∧
    same_class_runs (fun p => classify (two_slow_heap p)) [1, 2] = [[1, 2]] ∧
    aggr_recv_path_cb 2 (fun p => p + 1000) two_slow_heap 50 (lacp_port true) none 1 false
      false = .ok [Call.aggr_lacp_rx_enqueue 50 [1], Call.aggr_lacp_rx_enqueue 50 [2]] ∧
    Except.map List.length
      (aggr_recv_path_cb 2 (fun p => p + 1000) two_slow_heap 50 (lacp_port true) none 1 false
        false) ≠
      .ok (same_class_runs (fun p => classify (two_slow_heap p)) [1, 2]).length := by
  decide

/-- C4, amended: with LACP running `aggr_recv_path_cb` returns on every
null-terminated chain, and (1) on the normal path the number of calls is the
number of maximal contiguous runs of data-class frames plus the number of
control-class frames plus the number of malformed frames; (2) on either path the
number of calls that carry no control-class frame is the number of maximal
contiguous runs of data-class frames plus the number of malformed frames. -/
theorem C4_calls_counted (fuel : Nat) (copymsg : Nat → Nat) (h : Heap) (arg : Nat)
    (port : aggr_port_t) (mrh : Option aggr_pseudo_rx_ring_t) (mp : Nat)
    (loopback promisc_path : Bool) (ps : List Nat)
    (hmode : port.lp_grp.lg_lacp_mode ≠ aggr_lacp_mode_t.AGGR_LACP_OFF)
    (hc : IsChain h mp ps) (hfuel : ps.length ≤ fuel) :
    ∃ tr, aggr_recv_path_cb fuel copymsg h arg port mrh mp loopback promisc_path = .ok tr ∧
      (promisc_path = false →
        tr.length = data_runs (fun p => classify (h p)) ps +
          ps.countP (is_control (fun p => classify (h p))) +
          ps.countP (is_malformed (fun p => classify (h p)))) ∧
      (tr.filter (fun e => e.frames.all
          (fun p => !is_control (fun p => classify (h p)) p))).length =
        data_runs (fun p => classify (h p)) ps +
          ps.countP (is_malformed (fun p => classify (h p))) := by
  refine ⟨_, aggr_recv_path_cb_lacp fuel copymsg h arg port mrh mp loopback promisc_path ps
    hmode hc hfuel, ?_, ?_⟩
  · intro hp
    subst hp
    have hcount := scan_count (fun p => classify (h p)) copymsg arg port mrh false
      (fun _ => true) (fun _ _ _ _ => rfl) (fun _ _ => rfl) ps.length ps (le_refl _)
    have hlacp : ∀ l : List Nat, (l.flatMap (lacp_calls copymsg arg port false)).length =
        l.length := by
      intro l
      induction l with
      | nil => rfl
      | cons a l ih => simp [List.flatMap_cons, lacp_calls, ih]
    simp only [List.filter_true, hlacp] at hcount
    rw [hcount, List.countP_eq_length_filter (is_control _)]
    omega
  · have hcount := scan_count (fun p => classify (h p)) copymsg arg port mrh promisc_path
      (fun e => e.frames.all (fun p => !is_control (fun p => classify (h p)) p))
      (fun run hrun e he => by
        show e.frames.all (fun p => !is_control (fun p => classify (h p)) p) = true
        rw [run_calls_frames port mrh promisc_path run e he, List.all_eq_true]
        intro p hp
        have hd := hrun p hp
        simp only [is_data, decide_eq_true_eq] at hd
        simp [is_control, hd])
      (fun f hf => by simp [Call.frames, is_control, hf]) ps.length ps (le_refl _)
    rw [hcount]
    have hnil : ((ps.filter (is_control (fun p => classify (h p)))).flatMap
        (lacp_calls copymsg arg port promisc_path)).filter
          (fun e => e.frames.all (fun p => !is_control (fun p => classify (h p)) p)) = [] := by
      rw [List.filter_eq_nil_iff]
      intro e he
      obtain ⟨f, hf, hef⟩ := List.mem_flatMap.mp he
      have hfc : is_control (fun p => classify (h p)) f = true := (List.mem_filter.mp hf).2
      have hframes : e.frames = [f] := by
        unfold lacp_calls at hef
        cases promisc_path <;> by_cases hcp : copymsg f = NULL <;>
          simp [hcp] at hef <;> simp [hef, Call.frames]
      simp [hframes, hfc]
    rw [hnil]
    rfl

/-- C4 amended, on five data frames, one control-class frame and four data
frames: three calls. -/
theorem C4_calls_counted_witness :
    IsChain ten_frame_heap 1 [1, 2, 3, 4, 5, 6, 7, 8, 9, 10] ∧
    [1, 2, 3, 4, 5, 6, 7, 8, 9, 10].map (fun p => classify (ten_frame_heap p)) =
      [frame_class.data, frame_class.data, frame_class.data, frame_class.data, frame_class.data,
        frame_class.control, frame_class.data, frame_class.data, frame_class.data,
        frame_class.data] ∧
    ∃ tr, aggr_recv_path_cb 10 (fun p => p + 1000) ten_frame_heap 50 (lacp_port true) none 1
        false false = .ok tr ∧ tr.length = 3 := by
  refine ⟨by decide, by decide, ?_⟩
  obtain ⟨tr, h1, h2, _⟩ :=
    C4_calls_counted 10 (fun p => p + 1000) ten_frame_heap 50 (lacp_port true) none 1
      false false [1, 2, 3, 4, 5, 6, 7, 8, 9, 10] (by decide) (by decide) (by decide)
  have e : data_runs (fun p => classify (ten_frame_heap p)) [1, 2, 3, 4, 5, 6, 7, 8, 9, 10] +
      [1, 2, 3, 4, 5, 6, 7, 8, 9, 10].countP (is_control (fun p => classify (ten_frame_heap p))) +
      [1, 2, 3, 4, 5, 6, 7, 8, 9, 10].countP
        (is_malformed (fun p => classify (ten_frame_heap p))) = 3 := by decide
  exact ⟨tr, h1, (h2 rfl).trans e⟩


/-- C5 fails as stated: with LACP off the whole chain is passed to `mac_rx`
although the collector of the port is disabled. -/
theorem C5_counterexample :
    IsChain scenario_heap 1 [1, 2, 3, 4, 5, 6] ∧
    (plain_port false).lp_collector_enabled = false ∧
    aggr_recv_path_cb 6 (fun p => p + 1000) scenario_heap 50 (plain_port false) none 1 false
      false = .ok [Call.mac_rx 100 [1, 2, 3, 4, 5, 6]] ∧
    Except.map (fun tr => tr.any Call.is_delivery)
      (aggr_recv_path_cb 6 (fun p => p + 1000) scenario_heap 50 (plain_port false) none 1 false
        false) ≠ .ok false := by
  decide

/-- C6: on the promiscuous path `aggr_recv_lacp` tests the copy made by
`copymsg` and then passes the original frame to `mac_aggr_promisc_dispatch`: for
the control-class frame 3 of the scenario chain, copied to address 1003, the
sink receives frame 3. -/
theorem C6_original_frame_dispatched :
    classify (scenario_heap 3) = frame_class.control ∧
    aggr_recv_lacp 6 (fun p => p + 1000) (set_b_next scenario_heap 3 NULL) 50 (lacp_port true)
      none 3 true = [Call.mac_aggr_promisc_dispatch 100 [3]] ∧
    aggr_recv_path_cb 6 (fun p => p + 1000) scenario_heap 50 (lacp_port true) none 1 false true =
      .ok [Call.mac_aggr_promisc_dispatch 100 [1, 2], Call.mac_aggr_promisc_dispatch 100 [3],
        Call.mac_aggr_promisc_dispatch 100 [4], Call.freemsg [5],
        Call.mac_aggr_promisc_dispatch 100 [6]] ∧
    Except.map (fun tr => decide (Call.mac_aggr_promisc_dispatch 100 [1003] ∈ tr))
      (aggr_recv_path_cb 6 (fun p => p + 1000) scenario_heap 50 (lacp_port true) none 1 false
        true) = .ok false := by
  decide


theorem lacp_calls_subset_scan (cls : Nat → frame_class) (copymsg : Nat → Nat) (arg : Nat)
    (port : aggr_port_t) (mrh : Option aggr_pseudo_rx_ring_t) (promisc_path : Bool) (c : Nat)
    (hcls : cls c = frame_class.control) (ps : List Nat) :
    ∀ acc, c ∈ ps → ∀ e ∈ lacp_calls copymsg arg port promisc_path c,
      e ∈ scan cls copymsg arg port mrh promisc_path acc ps := by
  induction ps with
  | nil => intro acc hc; simp at hc
  | cons f fs ih =>
    intro acc hc e he
    by_cases hfc : c = f
    · subst hfc
      simp only [scan, hcls, List.mem_append]
      exact Or.inr (Or.inl he)
    · have hmem : c ∈ fs := by
        rcases List.mem_cons.mp hc with h1 | h1
        · exact absurd h1 hfc
        · exact h1
      rcases hcl : cls f with _ | _ | _
      · simp only [scan, hcl, List.mem_append, List.mem_cons]
        exact Or.inr (Or.inr (ih [] hmem e he))
      · simp only [scan, hcl, List.mem_append]
        exact Or.inr (Or.inr (ih [] hmem e he))
      · simp only [scan, hcl]
        exact ih _ hmem e he

/-- C7: on the promiscuous path with LACP running, when `copymsg` fails for the
control-class frame `c`, `aggr_recv_path_cb` still returns; its calls are those
made when that `copymsg` succeeds with the calls carrying `c` left out, all
others being the same and in the same order; no delivery or enqueue call
carries `c`; and when the copy succeeds `c` is dispatched. -/
theorem C7_copy_failure_not_fatal (fuel : Nat) (copy_fail copy_ok : Nat → Nat) (h : Heap)
    (arg : Nat) (port : aggr_port_t) (mrh : Option aggr_pseudo_rx_ring_t) (mp : Nat)
    (loopback : Bool) (ps : List Nat) (c : Nat)
    (hmode : port.lp_grp.lg_lacp_mode ≠ aggr_lacp_mode_t.AGGR_LACP_OFF)
    (hc : IsChain h mp ps) (hfuel : ps.length ≤ fuel)
    (hcls : classify (h c) = frame_class.control)
    (hfail : copy_fail c = NULL) (hok : copy_ok c ≠ NULL)
    (hsame : ∀ p, p ≠ c → (copy_fail p = NULL ↔ copy_ok p = NULL)) :
    ∃ tr_fail tr_ok,
      aggr_recv_path_cb fuel copy_fail h arg port mrh mp loopback true = .ok tr_fail ∧
      aggr_recv_path_cb fuel copy_ok h arg port mrh mp loopback true = .ok tr_ok ∧
      tr_fail = tr_ok.filter (fun e => decide (c ∉ e.frames)) ∧
      (∀ e ∈ tr_fail, e.is_delivery = true ∨ e.is_enqueue = true → c ∉ e.frames) ∧
      (c ∈ ps → Call.mac_aggr_promisc_dispatch port.lp_grp.lg_mh [c] ∈ tr_ok) := by
  have heq := scan_copy_failure (fun p => classify (h p)) copy_fail copy_ok arg port mrh c hcls
    hfail hsame ps [] (by simp)
  refine ⟨_, _, aggr_recv_path_cb_lacp fuel copy_fail h arg port mrh mp loopback true ps
    hmode hc hfuel, aggr_recv_path_cb_lacp fuel copy_ok h arg port mrh mp loopback true ps
    hmode hc hfuel, heq, ?_, ?_⟩
  · intro e he _
    rw [heq] at he
    simpa using (List.mem_filter.mp he).2
  · intro hmem
    apply lacp_calls_subset_scan (fun p => classify (h p)) copy_ok arg port mrh true c hcls ps []
      hmem
    simp [lacp_calls, hok]

/-- C7, on the scenario chain: with the copy of frame 3 failing, the calls for
frames 1, 2, 4, 5 and 6 are unchanged and frame 3 is in none. -/
theorem C7_copy_failure_not_fatal_witness :
    IsChain scenario_heap 1 [1, 2, 3, 4, 5, 6] ∧
    ∃ tr_fail tr_ok,
      aggr_recv_path_cb 6 (fun p => if p = 3 then NULL else p + 1000) scenario_heap 50
        (lacp_port true) none 1 false true = .ok tr_fail ∧
      aggr_recv_path_cb 6 (fun p => p + 1000) scenario_heap 50 (lacp_port true) none 1 false
        true = .ok tr_ok ∧
      tr_fail = tr_ok.filter (fun e => decide (3 ∉ e.frames)) ∧
      (∀ e ∈ tr_fail, e.is_delivery = true ∨ e.is_enqueue = true → 3 ∉ e.frames) ∧
      (3 ∈ [1, 2, 3, 4, 5, 6] → Call.mac_aggr_promisc_dispatch 100 [3] ∈ tr_ok) :=
  ⟨by decide,
    C7_copy_failure_not_fatal 6 (fun p => if p = 3 then NULL else p + 1000) (fun p => p + 1000)
      scenario_heap 50 (lacp_port true) none 1 false [1, 2, 3, 4, 5, 6] 3 (by decide)
      (by decide) (by decide) (by decide) (by decide) (by decide)
      (fun p hp => by simp [hp])⟩

/-- C8 fails as stated: on the promiscuous path the control-class frame 3 of
the scenario chain is not handed to `aggr_lacp_rx_enqueue`; no frame is. -/
theorem C8_counterexample :
    IsChain scenario_heap 1 [1, 2, 3, 4, 5, 6] ∧
    classify (scenario_heap 3) = frame_class.control ∧
    Except.map (List.filter Call.is_enqueue)
      (aggr_recv_path_cb 6 (fun p => p + 1000) scenario_heap 50 (lacp_port true) none 1 false
        true) = .ok [] ∧
    Except.map (fun tr => tr.count (Call.aggr_lacp_rx_enqueue 50 [3]))
      (aggr_recv_path_cb 6 (fun p => p + 1000) scenario_heap 50 (lacp_port true) none 1 false
        true) ≠ .ok 1 := by
  decide

/-- C8, amended: with LACP running `aggr_recv_path_cb` returns on every
null-terminated chain; on the normal path, in either state of the collector, its
calls to `aggr_lacp_rx_enqueue` are one call for each control-class frame of the
chain, carrying that frame alone, in arrival order, so each control-class frame
is enqueued exactly once; on the promiscuous path it makes no call to
`aggr_lacp_rx_enqueue`. -/
theorem C8_enqueue_on_normal_path_only (fuel : Nat) (copymsg : Nat → Nat) (h : Heap) (arg : Nat)
    (port : aggr_port_t) (mrh : Option aggr_pseudo_rx_ring_t) (mp : Nat)
    (loopback promisc_path : Bool) (ps : List Nat)
    (hmode : port.lp_grp.lg_lacp_mode ≠ aggr_lacp_mode_t.AGGR_LACP_OFF)
    (hc : IsChain h mp ps) (hfuel : ps.length ≤ fuel) :
    ∃ tr, aggr_recv_path_cb fuel copymsg h arg port mrh mp loopback promisc_path = .ok tr ∧
      (promisc_path = false →
        tr.filter Call.is_enqueue =
          (ps.filter (is_control (fun p => classify (h p)))).map
            (fun c => Call.aggr_lacp_rx_enqueue arg [c]) ∧
        ∀ c ∈ ps, classify (h c) = frame_class.control →
          tr.count (Call.aggr_lacp_rx_enqueue arg [c]) = 1) ∧
      (promisc_path = true → tr.filter Call.is_enqueue = []) := by
  refine ⟨_, aggr_recv_path_cb_lacp fuel copymsg h arg port mrh mp loopback promisc_path ps
    hmode hc hfuel, ?_, ?_⟩
  · intro hp
    subst hp
    have hfilter := filter_enqueue_scan (fun p => classify (h p)) copymsg arg port mrh false ps []
    simp only [Bool.false_eq_true, if_false] at hfilter
    refine ⟨hfilter, ?_⟩
    intro c hcmem hccls
    have hinj : Function.Injective (fun c => Call.aggr_lacp_rx_enqueue arg [c]) := by
      intro a b hab
      simpa using hab
    have h1 : ∀ (tr : List Call),
        (tr.filter Call.is_enqueue).count (Call.aggr_lacp_rx_enqueue arg [c]) =
          tr.count (Call.aggr_lacp_rx_enqueue arg [c]) :=
      fun tr => List.count_filter (by rfl)
    rw [← h1, hfilter, List.count_map_of_injective _ _ hinj,
      List.count_filter (by simp [is_control, hccls])]
    exact List.count_eq_one_of_mem (isChain_nodup h mp ps hc) hcmem
  · intro hp
    subst hp
    simpa using filter_enqueue_scan (fun p => classify (h p)) copymsg arg port mrh true ps []

/-- C8 amended, on the scenario chain, normal path: the one enqueue call carries
frame 3. -/
theorem C8_enqueue_on_normal_path_only_witness :
    IsChain scenario_heap 1 [1, 2, 3, 4, 5, 6] ∧
    ∃ tr, aggr_recv_path_cb 6 (fun p => p + 1000) scenario_heap 50 (lacp_port false) none 1
        false false = .ok tr ∧
      tr.filter Call.is_enqueue = [Call.aggr_lacp_rx_enqueue 50 [3]] ∧
      tr.count (Call.aggr_lacp_rx_enqueue 50 [3]) = 1 := by
  refine ⟨by decide, ?_⟩
  obtain ⟨tr, h1, h2, _⟩ :=
    C8_enqueue_on_normal_path_only 6 (fun p => p + 1000) scenario_heap 50 (lacp_port false) none 1
      false false [1, 2, 3, 4, 5, 6] (by decide) (by decide) (by decide)
  have e1 : ([1, 2, 3, 4, 5, 6].filter (is_control (fun p => classify (scenario_heap p)))).map
      (fun c => Call.aggr_lacp_rx_enqueue 50 [c]) = [Call.aggr_lacp_rx_enqueue 50 [3]] := by
    decide
  exact ⟨tr, h1, (h2 rfl).1.trans e1, (h2 rfl).2 3 (by decide) (by decide)⟩


/-- C9: with LACP running, on the normal path, `aggr_recv_path_cb` returns on
every null-terminated chain in both states of the collector, and the calls made
with the collector disabled are those made with it enabled after replacing each
call to `mac_rx` or `mac_rx_ring` by a `freemsgchain` of the same run; the calls
to `aggr_lacp_rx_enqueue` are unaffected: one for each control-class frame,
carrying the original frame alone, in arrival order. -/
theorem C9_gate_closed_same_partition (fuel : Nat) (copymsg : Nat → Nat) (h : Heap) (arg : Nat)
    (grp : aggr_grp_t) (mrh : Option aggr_pseudo_rx_ring_t) (mp : Nat) (loopback : Bool)
    (ps : List Nat)
    (hmode : grp.lg_lacp_mode ≠ aggr_lacp_mode_t.AGGR_LACP_OFF)
    (hc : IsChain h mp ps) (hfuel : ps.length ≤ fuel) :
    ∃ tr_open tr_closed,
      aggr_recv_path_cb fuel copymsg h arg { lp_grp := grp, lp_collector_enabled := true } mrh mp
        loopback false = .ok tr_open ∧
      aggr_recv_path_cb fuel copymsg h arg { lp_grp := grp, lp_collector_enabled := false } mrh
        mp loopback false = .ok tr_closed ∧
      tr_closed = tr_open.map discard_instead ∧
      tr_closed.filter Call.is_enqueue =
        (ps.filter (is_control (fun p => classify (h p)))).map
          (fun c => Call.aggr_lacp_rx_enqueue arg [c]) := by
  refine ⟨_, _,
    aggr_recv_path_cb_lacp fuel copymsg h arg { lp_grp := grp, lp_collector_enabled := true }
      mrh mp loopback false ps hmode hc hfuel,
    aggr_recv_path_cb_lacp fuel copymsg h arg { lp_grp := grp, lp_collector_enabled := false }
      mrh mp loopback false ps hmode hc hfuel,
    scan_gate_closed _ copymsg arg grp mrh ps [], ?_⟩
  simpa using filter_enqueue_scan (fun p => classify (h p)) copymsg arg
    { lp_grp := grp, lp_collector_enabled := false } mrh false ps []

/-- C9, on the scenario chain: the runs `[1, 2]`, `[4]`, `[6]` are freed instead
of delivered, frame 3 is still enqueued and frame 5 still freed. -/
theorem C9_gate_closed_same_partition_witness :
    IsChain scenario_heap 1 [1, 2, 3, 4, 5, 6] ∧
    aggr_recv_path_cb 6 (fun p => p + 1000) scenario_heap 50 (lacp_port false) none 1 false
      false = .ok [Call.freemsgchain [1, 2], Call.aggr_lacp_rx_enqueue 50 [3],
        Call.freemsgchain [4], Call.freemsg [5], Call.freemsgchain [6]] ∧
    ∃ tr_open tr_closed,
      aggr_recv_path_cb 6 (fun p => p + 1000) scenario_heap 50 (lacp_port true) none 1 false
        false = .ok tr_open ∧
      aggr_recv_path_cb 6 (fun p => p + 1000) scenario_heap 50 (lacp_port false) none 1 false
        false = .ok tr_closed ∧
      tr_closed = tr_open.map discard_instead ∧
      tr_closed.filter Call.is_enqueue =
        ([1, 2, 3, 4, 5, 6].filter (is_control (fun p => classify (scenario_heap p)))).map
          (fun c => Call.aggr_lacp_rx_enqueue 50 [c]) :=
  ⟨by decide, by decide,
    C9_gate_closed_same_partition 6 (fun p => p + 1000) scenario_heap 50
      { lg_mh := 100, lg_lacp_mode := aggr_lacp_mode_t.AGGR_LACP_ACTIVE } none 1 false
      [1, 2, 3, 4, 5, 6] (by decide) (by decide) (by decide)⟩

theorem isChain_congr (h1 h2 : Heap) (hnext : ∀ p, (h2 p).b_next = (h1 p).b_next) (ps : List Nat) :
    ∀ mp, IsChain h1 mp ps → IsChain h2 mp ps := by
  induction ps with
  | nil => intro mp hc; exact hc
  | cons p ps ih =>
    intro mp hc
    refine ⟨hc.1, hc.2.1, ?_⟩
    rw [hnext p]
    exact ih _ hc.2.2

/-- C10: with LACP off, on either path and in either state of the collector,
`aggr_recv_path_cb` returns on every null-terminated chain having made exactly
one call, which passes the whole chain, unchanged and in order, to the sink
selected by `aggr_mac_rx`: `mac_aggr_promisc_dispatch` on the promiscuous path,
else `mac_rx` without a ring and `mac_rx_ring` with one.  The bytes of the frames
play no part: any memory with the same `b_next` links gives the same call. -/
theorem C10_lacp_off_single_call (fuel : Nat) (copymsg : Nat → Nat) (h : Heap) (arg : Nat)
    (port : aggr_port_t) (mrh : Option aggr_pseudo_rx_ring_t) (mp : Nat)
    (loopback promisc_path : Bool) (ps : List Nat)
    (hmode : port.lp_grp.lg_lacp_mode = aggr_lacp_mode_t.AGGR_LACP_OFF)
    (hc : IsChain h mp ps) (hfuel : ps.length ≤ fuel) :
    aggr_recv_path_cb fuel copymsg h arg port mrh mp loopback promisc_path =
      .ok [if promisc_path then Call.mac_aggr_promisc_dispatch port.lp_grp.lg_mh ps
        else
          match mrh with
          | none => Call.mac_rx port.lp_grp.lg_mh ps
          | some ring => Call.mac_rx_ring port.lp_grp.lg_mh ring.arr_rh ps ring.arr_gen] ∧
    ∀ h2 : Heap, (∀ p, (h2 p).b_next = (h p).b_next) →
      aggr_recv_path_cb fuel copymsg h2 arg port mrh mp loopback promisc_path =
        aggr_recv_path_cb fuel copymsg h arg port mrh mp loopback promisc_path := by
  have hform : ∀ h1 : Heap, IsChain h1 mp ps →
      aggr_recv_path_cb fuel copymsg h1 arg port mrh mp loopback promisc_path =
        .ok [if promisc_path then Call.mac_aggr_promisc_dispatch port.lp_grp.lg_mh ps
          else
            match mrh with
            | none => Call.mac_rx port.lp_grp.lg_mh ps
            | some ring => Call.mac_rx_ring port.lp_grp.lg_mh ring.arr_rh ps ring.arr_gen] := by
    intro h1 hc1
    rw [aggr_recv_path_cb_off fuel copymsg h1 arg port mrh mp loopback promisc_path ps hmode
      hc1 hfuel]
    cases promisc_path <;> cases mrh <;> rfl
  refine ⟨hform h hc, fun h2 hnext => ?_⟩
  rw [hform h hc, hform h2 (isChain_congr h h2 hnext ps mp hc)]

/-- C10, on the scenario chain, which holds a control-class and a malformed
frame: one call to `mac_rx` with all six frames; with a ring, one call to
`mac_rx_ring`; on the promiscuous path, one call to
`mac_aggr_promisc_dispatch`. -/
theorem C10_lacp_off_single_call_witness :
    IsChain scenario_heap 1 [1, 2, 3, 4, 5, 6] ∧
    aggr_recv_path_cb 6 (fun p => p + 1000) scenario_heap 50 (plain_port true) none 1 false
      false = .ok [Call.mac_rx 100 [1, 2, 3, 4, 5, 6]] ∧
    aggr_recv_path_cb 6 (fun p => p + 1000) scenario_heap 50 (plain_port true)
      (some { arr_rh := 7, arr_gen := 8 }) 1 false false =
      .ok [Call.mac_rx_ring 100 7 [1, 2, 3, 4, 5, 6] 8] ∧
    aggr_recv_path_cb 6 (fun p => p + 1000) scenario_heap 50 (plain_port true) none 1 false
      true = .ok [Call.mac_aggr_promisc_dispatch 100 [1, 2, 3, 4, 5, 6]] :=
  ⟨by decide,
    (C10_lacp_off_single_call 6 (fun p => p + 1000) scenario_heap 50 (plain_port true) none 1
      false false [1, 2, 3, 4, 5, 6] rfl (by decide) (by decide)).1,
    (C10_lacp_off_single_call 6 (fun p => p + 1000) scenario_heap 50 (plain_port true)
      (some { arr_rh := 7, arr_gen := 8 }) 1 false false [1, 2, 3, 4, 5, 6] rfl (by decide)
      (by decide)).1,
    (C10_lacp_off_single_call 6 (fun p => p + 1000) scenario_heap 50 (plain_port true) none 1
      false true [1, 2, 3, 4, 5, 6] rfl (by decide) (by decide)).1⟩


/-! ## Classification -/

theorem scan_congr (cls1 cls2 : Nat → frame_class) (copymsg : Nat → Nat) (arg : Nat)
    (port : aggr_port_t) (mrh : Option aggr_pseudo_rx_ring_t) (promisc_path : Bool)
    (ps : List Nat) (hcls : ∀ p ∈ ps, cls1 p = cls2 p) :
    ∀ acc, scan cls1 copymsg arg port mrh promisc_path acc ps =
      scan cls2 copymsg arg port mrh promisc_path acc ps := by
  induction ps with
  | nil => intro acc; rfl
  | cons f fs ih =>
    intro acc
    have hf : cls1 f = cls2 f := hcls f (List.mem_cons_self f fs)
    have ih1 := ih (fun p hp => hcls p (List.mem_cons_of_mem f hp))
    simp only [scan, hf, ih1]

/-- The loop body never reads the type field beyond the first segment. -/
theorem loop_body_in_bounds (n : Nat) (copymsg : Nat → Nat) (arg : Nat) (port : aggr_port_t)
    (mrh : Option aggr_pseudo_rx_ring_t) (promisc_path : Bool) (s : loop_state) :
    loop_body n copymsg arg port mrh promisc_path s ≠ .error Fault.out_of_bounds := by
  unfold loop_body
  by_cases hshort : MBLKL (s.heap s.cmp) < sizeof_ether_header
  · rw [if_pos hshort]
    split
    · simp
    · split <;> simp
  · rw [if_neg hshort]
    simp only [read_ether_type_of_long _ hshort]
    split
    · split
      · split <;> simp
      · split <;> simp
    · simp

theorem while_loop_in_bounds (n : Nat) (copymsg : Nat → Nat) (arg : Nat) (port : aggr_port_t)
    (mrh : Option aggr_pseudo_rx_ring_t) (promisc_path : Bool) (fuel : Nat) :
    ∀ s, while_loop n copymsg arg port mrh promisc_path fuel s ≠ .error Fault.out_of_bounds := by
  induction fuel with
  | zero =>
    intro s
    unfold while_loop
    split <;> simp
  | succ k ih =>
    intro s
    unfold while_loop
    split
    · simp
    · have hb := loop_body_in_bounds n copymsg arg port mrh promisc_path s
      cases hbody : loop_body n copymsg arg port mrh promisc_path s with
      | error e =>
        simp only []
        intro he
        rw [hbody] at hb
        exact hb he
      | ok s1 =>
        simp only []
        exact ih s1

/-- What one run of the loop body does with the frame at `cmp`, by its class: a
data-class frame is accumulated, nothing else changing; a malformed frame is
unlinked and the body ends with its `freemsg`; a control-class frame is unlinked
and the body ends with the calls of `aggr_recv_lacp` on it. -/
theorem loop_body_by_class (n : Nat) (copymsg : Nat → Nat) (arg : Nat) (port : aggr_port_t)
    (mrh : Option aggr_pseudo_rx_ring_t) (promisc_path : Bool) (s : loop_state) :
    (classify (s.heap s.cmp) = frame_class.data →
      loop_body n copymsg arg port mrh promisc_path s =
        .ok { s with last := s.cmp, cmp := (s.heap s.cmp).b_next }) ∧
    (classify (s.heap s.cmp) = frame_class.malformed →
      loop_body n copymsg arg port mrh promisc_path s = .error Fault.null_deref ∨
      ∃ s1, loop_body n copymsg arg port mrh promisc_path s = .ok s1 ∧
        (s1.heap s.cmp).b_next = NULL ∧
        ∃ flushed, s1.calls = s.calls ++ flushed ++ [Call.freemsg (msgchain s1.heap n s.cmp)]) ∧
    (classify (s.heap s.cmp) = frame_class.control →
      loop_body n copymsg arg port mrh promisc_path s = .error Fault.assert_failed ∨
      ∃ s1, loop_body n copymsg arg port mrh promisc_path s = .ok s1 ∧
        (s1.heap s.cmp).b_next = NULL ∧
        ∃ flushed, s1.calls = s.calls ++ flushed ++
          aggr_recv_lacp n copymsg s1.heap arg port mrh s.cmp promisc_path) := by
  refine ⟨?_, ?_, ?_⟩
  · intro hcl
    have hlong : ¬ MBLKL (s.heap s.cmp) < sizeof_ether_header := by
      intro hc
      unfold classify at hcl
      rw [if_pos hc] at hcl
      cases hcl
    have hslow : ¬ ntohs_ether_type (s.heap s.cmp) = ETHERTYPE_SLOW := by
      intro hc
      unfold classify at hcl
      rw [if_neg hlong, if_pos hc] at hcl
      cases hcl
    unfold loop_body
    rw [if_neg hlong]
    simp only [read_ether_type_of_long _ hlong]
    rw [if_neg hslow]
  · intro hcl
    have hshort : MBLKL (s.heap s.cmp) < sizeof_ether_header := by
      by_contra hc
      unfold classify at hcl
      rw [if_neg hc] at hcl
      split at hcl <;> cases hcl
    unfold loop_body
    rw [if_pos hshort]
    by_cases hhead : s.head = s.cmp
    · rw [if_pos hhead]
      exact Or.inr ⟨_, rfl, set_b_next_same _ _ _, [], by simp⟩
    · rw [if_neg hhead]
      by_cases hlast : s.last = NULL
      · rw [if_pos hlast]
        exact Or.inl rfl
      · rw [if_neg hlast]
        exact Or.inr ⟨_, rfl, set_b_next_same _ _ _, _, rfl⟩
  · intro hcl
    have hlong : ¬ MBLKL (s.heap s.cmp) < sizeof_ether_header := by
      intro hc
      unfold classify at hcl
      rw [if_pos hc] at hcl
      cases hcl
    have hslow : ntohs_ether_type (s.heap s.cmp) = ETHERTYPE_SLOW := by
      by_contra hc
      unfold classify at hcl
      rw [if_neg hlong, if_neg hc] at hcl
      cases hcl
    unfold loop_body
    rw [if_neg hlong]
    simp only [read_ether_type_of_long _ hlong]
    rw [if_pos hslow]
    by_cases hhead : s.head = s.cmp
    · rw [if_pos hhead]
      by_cases hlast : s.last = NULL
      · rw [if_neg (by simpa using hlast)]
        exact Or.inr ⟨_, rfl, set_b_next_same _ _ _, [], by simp⟩
      · rw [if_pos hlast]
        exact Or.inl rfl
    · rw [if_neg hhead]
      by_cases hlast : s.last = NULL
      · rw [if_pos hlast]
        exact Or.inl rfl
      · rw [if_neg hlast]
        exact Or.inr ⟨_, rfl, set_b_next_same _ _ _, _, rfl⟩

/-- C11: the tests made by the filtering loop on a frame give exactly one of
three classes, as a total function of the bytes of its first segment: malformed
when the segment is shorter than the 14 bytes of an Ethernet header, control
when it is at least 14 bytes long and the bytes at offsets 12 and 13, most
significant first, give `0x8809`, data otherwise.  The loop acts on the frame
by this class: one run of its body accumulates a data-class frame, ends with
the `freemsg` of a malformed frame, and ends with the calls of `aggr_recv_lacp`
on a control-class frame; a chain of one frame gives the calls of its class; the
calls on any chain depend on the bytes of the frames only through the class.
The read of the type field goes beyond the first segment exactly for the
malformed frames, and it is made only after the length test has passed: neither
the loop body nor `aggr_recv_path_cb`, on any memory, ever reads beyond the
segment. -/
theorem C11_classification (mp : mblk_t) (fuel : Nat) (copymsg : Nat → Nat) (h h2 : Heap)
    (arg : Nat) (port : aggr_port_t) (mrh : Option aggr_pseudo_rx_ring_t) (p0 : Nat)
    (loopback promisc_path : Bool) (ps : List Nat) (s : loop_state) (f : Nat)
    (hc : IsChain h p0 ps) (hfuel : ps.length ≤ fuel)
    (hnext : ∀ p, (h2 p).b_next = (h p).b_next)
    (hcls : ∀ p ∈ ps, classify (h2 p) = classify (h p))
    (hmode : port.lp_grp.lg_lacp_mode ≠ aggr_lacp_mode_t.AGGR_LACP_OFF) (hf : f ≠ NULL) :
    (classify mp = frame_class.malformed ↔ mp.b_rptr.length < 14) ∧
    (classify mp = frame_class.control ↔
      14 ≤ mp.b_rptr.length ∧
        (mp.b_rptr.getD 12 0 % 256) * 256 + mp.b_rptr.getD 13 0 % 256 = 0x8809) ∧
    (classify mp = frame_class.data ↔
      14 ≤ mp.b_rptr.length ∧
        (mp.b_rptr.getD 12 0 % 256) * 256 + mp.b_rptr.getD 13 0 % 256 ≠ 0x8809) ∧
    (classify mp ≠ frame_class.malformed →
      read_ether_type mp = some (ntohs_ether_type mp) ∧
        12 < mp.b_rptr.length ∧ 13 < mp.b_rptr.length) ∧
    (classify mp = frame_class.malformed ↔ read_ether_type mp = none) ∧
    (∀ mp2 : mblk_t, mp2.b_rptr = mp.b_rptr → classify mp2 = classify mp) ∧
    aggr_recv_path_cb fuel copymsg h2 arg port mrh p0 loopback promisc_path =
      aggr_recv_path_cb fuel copymsg h arg port mrh p0 loopback promisc_path ∧
    loop_body fuel copymsg arg port mrh promisc_path s ≠ .error Fault.out_of_bounds ∧
    (∀ (h3 : Heap) (p3 : Nat),
      aggr_recv_path_cb fuel copymsg h3 arg port mrh p3 loopback promisc_path ≠
        .error Fault.out_of_bounds) ∧
    (classify (s.heap s.cmp) = frame_class.data →
      loop_body fuel copymsg arg port mrh promisc_path s =
        .ok { s with last := s.cmp, cmp := (s.heap s.cmp).b_next }) ∧
    (classify (s.heap s.cmp) = frame_class.malformed →
      loop_body fuel copymsg arg port mrh promisc_path s = .error Fault.null_deref ∨
      ∃ s1, loop_body fuel copymsg arg port mrh promisc_path s = .ok s1 ∧
        (s1.heap s.cmp).b_next = NULL ∧
        ∃ flushed,
          s1.calls = s.calls ++ flushed ++ [Call.freemsg (msgchain s1.heap fuel s.cmp)]) ∧
    (classify (s.heap s.cmp) = frame_class.control →
      loop_body fuel copymsg arg port mrh promisc_path s = .error Fault.assert_failed ∨
      ∃ s1, loop_body fuel copymsg arg port mrh promisc_path s = .ok s1 ∧
        (s1.heap s.cmp).b_next = NULL ∧
        ∃ flushed, s1.calls = s.calls ++ flushed ++
          aggr_recv_lacp fuel copymsg s1.heap arg port mrh s.cmp promisc_path) ∧
    aggr_recv_path_cb (fuel + 1) copymsg (set_b_next h f NULL) arg port mrh f loopback
        promisc_path =
      .ok (match classify (h f) with
        | frame_class.malformed => [Call.freemsg [f]]
        | frame_class.control =>
          if promisc_path then
            if copymsg f ≠ NULL then [Call.mac_aggr_promisc_dispatch port.lp_grp.lg_mh [f]]
            else []
          else [Call.aggr_lacp_rx_enqueue arg [f]]
        | frame_class.data =>
          if port.lp_collector_enabled then
            if promisc_path then [Call.mac_aggr_promisc_dispatch port.lp_grp.lg_mh [f]]
            else
              match mrh with
              | none => [Call.mac_rx port.lp_grp.lg_mh [f]]
              | some ring => [Call.mac_rx_ring port.lp_grp.lg_mh ring.arr_rh [f] ring.arr_gen]
          else [Call.freemsgchain [f]]) := by
  have hm : classify mp = frame_class.malformed ↔ mp.b_rptr.length < 14 := by
    unfold classify MBLKL sizeof_ether_header
    constructor
    · intro hcl
      by_contra hlt
      rw [if_neg hlt] at hcl
      split at hcl <;> cases hcl
    · intro hlt
      rw [if_pos hlt]
  obtain ⟨hb1, hb2, hb3⟩ := loop_body_by_class fuel copymsg arg port mrh promisc_path s
  refine ⟨hm, ?_, ?_, ?_, ?_, ?_, ?_, loop_body_in_bounds fuel copymsg arg port mrh promisc_path
    s, ?_, hb1, hb2, hb3, ?_⟩
  · show classify mp = frame_class.control ↔
      14 ≤ mp.b_rptr.length ∧ ntohs_ether_type mp = ETHERTYPE_SLOW
    unfold classify MBLKL sizeof_ether_header
    by_cases hlt : mp.b_rptr.length < 14
    · rw [if_pos hlt]
      constructor
      · intro hcl; cases hcl
      · intro hcl; omega
    · rw [if_neg hlt]
      by_cases hty : ntohs_ether_type mp = ETHERTYPE_SLOW
      · rw [if_pos hty]
        exact ⟨fun _ => ⟨by omega, hty⟩, fun _ => rfl⟩
      · rw [if_neg hty]
        constructor
        · intro hcl; cases hcl
        · intro hcl; exact absurd hcl.2 hty
  · show classify mp = frame_class.data ↔
      14 ≤ mp.b_rptr.length ∧ ntohs_ether_type mp ≠ ETHERTYPE_SLOW
    unfold classify MBLKL sizeof_ether_header
    by_cases hlt : mp.b_rptr.length < 14
    · rw [if_pos hlt]
      constructor
      · intro hcl; cases hcl
      · intro hcl; omega
    · rw [if_neg hlt]
      by_cases hty : ntohs_ether_type mp = ETHERTYPE_SLOW
      · rw [if_pos hty]
        constructor
        · intro hcl; cases hcl
        · intro hcl; exact absurd hty hcl.2
      · rw [if_neg hty]
        exact ⟨fun _ => ⟨by omega, hty⟩, fun _ => rfl⟩
  · intro hne
    have hlt : ¬ mp.b_rptr.length < 14 := fun e => hne (hm.mpr e)
    refine ⟨read_ether_type_of_long mp (by simpa [MBLKL, sizeof_ether_header] using hlt), ?_, ?_⟩
      <;> omega
  · constructor
    · intro hcl
      have hlt := hm.mp hcl
      have hnone : mp.b_rptr[13]? = none := List.getElem?_eq_none (by omega)
      unfold read_ether_type
      rw [hnone]
      cases mp.b_rptr[12]? <;> rfl
    · intro hnone
      by_contra hcl
      have hlt : ¬ mp.b_rptr.length < 14 := fun e => hcl (hm.mpr e)
      rw [read_ether_type_of_long mp (by simpa [MBLKL, sizeof_ether_header] using hlt)] at hnone
      cases hnone
  · intro mp2 hbytes
    obtain ⟨k1, k2⟩ := classify_of_bytes hbytes
    unfold classify
    rw [k1, k2]
  · have hc2 : IsChain h2 p0 ps := isChain_congr h h2 hnext ps p0 hc
    rw [aggr_recv_path_cb_lacp fuel copymsg h arg port mrh p0 loopback promisc_path ps hmode
      hc hfuel, aggr_recv_path_cb_lacp fuel copymsg h2 arg port mrh p0 loopback promisc_path ps
      hmode hc2 hfuel, scan_congr _ _ copymsg arg port mrh promisc_path ps hcls []]
  · intro h3 p3
    unfold aggr_recv_path_cb
    simp only [if_neg hmode]
    have hw := while_loop_in_bounds fuel copymsg arg port mrh promisc_path fuel
      { heap := h3, head := p3, cmp := p3, last := NULL, calls := [] }
    cases hloop : while_loop fuel copymsg arg port mrh promisc_path fuel
        { heap := h3, head := p3, cmp := p3, last := NULL, calls := [] } with
    | error e =>
      simp only []
      intro he
      have he2 : e = Fault.out_of_bounds := Except.error.inj he
      rw [hloop, he2] at hw
      exact hw rfl
    | ok s1 =>
      simp only []
      split
      · split <;> simp
      · simp
  · have hch : IsChain (set_b_next h f NULL) f [f] := isChain_single h f hf
    rw [aggr_recv_path_cb_lacp (fuel + 1) copymsg (set_b_next h f NULL) arg port mrh f loopback
      promisc_path [f] hmode hch (by simp)]
    have hcf : classify (set_b_next h f NULL f) = classify (h f) := by
      obtain ⟨k1, k2⟩ := classify_of_bytes (set_b_next_bytes h f NULL f)
      unfold classify
      rw [k1, k2]
    congr 1
    rcases hcl : classify (h f) with _ | _ | _
    · simp [scan, hcf, hcl, pending_calls]
    · simp [scan, hcf, hcl, pending_calls, lacp_calls]
    · simp [scan, hcf, hcl, pending_calls, run_calls]

/-- C11, on frames of each class, on the scenario chain with the bytes of its
first data frame replaced by an IPv6 frame, and on the chain made of frame 5 of
the scenario alone, which is too short to hold a type field. -/
theorem C11_classification_witness :
    classify (short_frame NULL) = frame_class.malformed ∧
    classify (slow_frame NULL) = frame_class.control ∧
    classify (data_frame NULL) = frame_class.data ∧
    classify (ipv6_frame NULL) = frame_class.data ∧
    read_ether_type (slow_frame NULL) = some 0x8809 ∧
    read_ether_type (short_frame NULL) = none ∧
    IsChain scenario_heap 1 [1, 2, 3, 4, 5, 6] ∧
    aggr_recv_path_cb 6 (fun p => p + 1000) scenario_heap_ipv6 50 (lacp_port true) none 1 false
        false =
      aggr_recv_path_cb 6 (fun p => p + 1000) scenario_heap 50 (lacp_port true) none 1 false
        false ∧
    aggr_recv_path_cb 7 (fun p => p + 1000) (set_b_next scenario_heap 5 NULL) 50
        (lacp_port true) none 5 false false = .ok [Call.freemsg [5]] := by
  have hw := C11_classification (slow_frame NULL) 6 (fun p => p + 1000) scenario_heap
    scenario_heap_ipv6 50 (lacp_port true) none 1 false false [1, 2, 3, 4, 5, 6]
    { heap := scenario_heap, head := 1, cmp := 1, last := NULL, calls := [] } 5
    (by decide) (by decide)
    (fun p => by
      unfold scenario_heap_ipv6
      by_cases hp : p = 1
      · subst hp; rfl
      · rw [if_neg hp])
    (by decide) (by decide) (by decide)
  exact ⟨by decide, by decide, by decide, by decide, by decide, by decide, by decide,
    hw.2.2.2.2.2.2.1, hw.2.2.2.2.2.2.2.2.2.2.2.2⟩

/-! ## Delivery -/

/-- C12: `aggr_mac_rx` makes exactly one call, which carries the run unmodified:
on the promiscuous path to `mac_aggr_promisc_dispatch`, whatever the resource
handle; on the normal path without a resource handle to `mac_rx`; on the normal
path with one to `mac_rx_ring`, with the `arr_rh` and `arr_gen` of the ring. -/
theorem C12_aggr_mac_rx_one_sink (fuel : Nat) (h : Heap) (lg_mh : Nat)
    (mrh : Option aggr_pseudo_rx_ring_t) (mp : Nat) (promisc_path : Bool) (run : List Nat)
    (hc : IsChain h mp run) (hfuel : run.length ≤ fuel) :
    (aggr_mac_rx fuel h lg_mh mrh mp promisc_path).length = 1 ∧
    (promisc_path = true →
      aggr_mac_rx fuel h lg_mh mrh mp promisc_path =
        [Call.mac_aggr_promisc_dispatch lg_mh run]) ∧
    (promisc_path = false → mrh = none →
      aggr_mac_rx fuel h lg_mh mrh mp promisc_path = [Call.mac_rx lg_mh run]) ∧
    (promisc_path = false → ∀ ring, mrh = some ring →
      aggr_mac_rx fuel h lg_mh mrh mp promisc_path =
        [Call.mac_rx_ring lg_mh ring.arr_rh run ring.arr_gen]) := by
  unfold aggr_mac_rx
  rw [msgchain_of_isChain h fuel mp run hc hfuel]
  refine ⟨?_, ?_, ?_, ?_⟩
  · cases promisc_path <;> cases mrh <;> rfl
  · intro hp
    subst hp
    rfl
  · intro hp hm
    subst hp hm
    rfl
  · intro hp ring hm
    subst hp hm
    rfl

/-- C12, on the run `[1, 2]` of the scenario chain cut after frame 2. -/
theorem C12_aggr_mac_rx_one_sink_witness :
    IsChain (set_b_next scenario_heap 2 NULL) 1 [1, 2] ∧
    aggr_mac_rx 2 (set_b_next scenario_heap 2 NULL) 100 (some { arr_rh := 7, arr_gen := 8 }) 1
      true = [Call.mac_aggr_promisc_dispatch 100 [1, 2]] ∧
    aggr_mac_rx 2 (set_b_next scenario_heap 2 NULL) 100 none 1 false =
      [Call.mac_rx 100 [1, 2]] ∧
    aggr_mac_rx 2 (set_b_next scenario_heap 2 NULL) 100 (some { arr_rh := 7, arr_gen := 8 }) 1
      false = [Call.mac_rx_ring 100 7 [1, 2] 8] :=
  ⟨by decide,
    (C12_aggr_mac_rx_one_sink 2 (set_b_next scenario_heap 2 NULL) 100
      (some { arr_rh := 7, arr_gen := 8 }) 1 true [1, 2] (by decide) (by decide)).2.1 rfl,
    (C12_aggr_mac_rx_one_sink 2 (set_b_next scenario_heap 2 NULL) 100 none 1 false [1, 2]
      (by decide) (by decide)).2.2.1 rfl rfl,
    (C12_aggr_mac_rx_one_sink 2 (set_b_next scenario_heap 2 NULL) 100
      (some { arr_rh := 7, arr_gen := 8 }) 1 false [1, 2] (by decide) (by decide)).2.2.2 rfl
      { arr_rh := 7, arr_gen := 8 } rfl⟩

theorem run_calls_kind (port : aggr_port_t) (mrh : Option aggr_pseudo_rx_ring_t)
    (promisc_path : Bool) (run : List Nat) :
    ∀ e ∈ run_calls port mrh promisc_path run,
      e.is_enqueue = false ∧ e.is_freemsg = false ∧
      (e.is_promisc_dispatch = true → promisc_path = true) ∧
      (e.is_normal_rx = true → promisc_path = false) := by
  unfold run_calls
  cases port.lp_collector_enabled <;> cases promisc_path <;> cases mrh <;>
    simp [Call.is_enqueue, Call.is_freemsg, Call.is_promisc_dispatch, Call.is_normal_rx]

theorem lacp_calls_kind (copymsg : Nat → Nat) (arg : Nat) (port : aggr_port_t)
    (promisc_path : Bool) (f : Nat) :
    ∀ e ∈ lacp_calls copymsg arg port promisc_path f,
      e.frames = [f] ∧ e.is_normal_rx = false ∧ e.is_freemsg = false ∧
      e.is_freemsgchain = false ∧
      (e.is_promisc_dispatch = true → promisc_path = true) ∧
      (e.is_enqueue = true → promisc_path = false) ∧
      (promisc_path = true → e = Call.mac_aggr_promisc_dispatch port.lp_grp.lg_mh [f]) ∧
      (promisc_path = false → e = Call.aggr_lacp_rx_enqueue arg [f]) := by
  unfold lacp_calls
  cases promisc_path <;> by_cases hcp : copymsg f = NULL <;>
    simp [hcp, Call.frames, Call.is_enqueue, Call.is_freemsg, Call.is_promisc_dispatch,
      Call.is_normal_rx, Call.is_freemsgchain]

/-- C13: in one invocation of `aggr_recv_path_cb`, with LACP on or off, the
normal path makes no call to `mac_aggr_promisc_dispatch`, and the promiscuous
path makes no call to `mac_rx`, `mac_rx_ring` or `aggr_lacp_rx_enqueue`; so no
run is delivered to both kinds of sink. -/
theorem C13_mode_exclusive (fuel : Nat) (copymsg : Nat → Nat) (h : Heap) (arg : Nat)
    (port : aggr_port_t) (mrh : Option aggr_pseudo_rx_ring_t) (mp : Nat)
    (loopback promisc_path : Bool) (ps : List Nat)
    (hc : IsChain h mp ps) (hfuel : ps.length ≤ fuel) :
    ∃ tr, aggr_recv_path_cb fuel copymsg h arg port mrh mp loopback promisc_path = .ok tr ∧
      (promisc_path = false → ∀ e ∈ tr, e.is_promisc_dispatch = false) ∧
      (promisc_path = true → ∀ e ∈ tr, e.is_normal_rx = false ∧ e.is_enqueue = false) := by
  by_cases hmode : port.lp_grp.lg_lacp_mode = aggr_lacp_mode_t.AGGR_LACP_OFF
  · refine ⟨_, aggr_recv_path_cb_off fuel copymsg h arg port mrh mp loopback promisc_path ps
      hmode hc hfuel, ?_, ?_⟩
    · intro hp
      subst hp
      cases mrh <;> simp [Call.is_promisc_dispatch]
    · intro hp
      subst hp
      simp [Call.is_normal_rx, Call.is_enqueue]
  · have hkind : ∀ e ∈ scan (fun p => classify (h p)) copymsg arg port mrh promisc_path [] ps,
        (e.is_promisc_dispatch = true → promisc_path = true) ∧
        (e.is_normal_rx = true → promisc_path = false) ∧
        (e.is_enqueue = true → promisc_path = false) := by
      intro e he
      rcases mem_scan _ copymsg arg port mrh promisc_path ps [] e he with
        ⟨run, _, _, h3⟩ | ⟨f, _, _, h3⟩ | ⟨f, _, _, h3⟩
      · obtain ⟨k1, _, k3, k4⟩ := run_calls_kind port mrh promisc_path run e h3
        exact ⟨k3, k4, fun hq => by rw [k1] at hq; cases hq⟩
      · obtain ⟨_, k2, _, _, k5, k6, _, _⟩ := lacp_calls_kind copymsg arg port promisc_path f e h3
        exact ⟨k5, fun hq => by (rw [k2] at hq; cases hq), k6⟩
      · subst h3
        simp [Call.is_promisc_dispatch, Call.is_normal_rx, Call.is_enqueue]
    refine ⟨_, aggr_recv_path_cb_lacp fuel copymsg h arg port mrh mp loopback promisc_path ps
      hmode hc hfuel, ?_, ?_⟩
    · intro hp e he
      cases hd : e.is_promisc_dispatch
      · rfl
      · have := (hkind e he).1 hd
        rw [hp] at this
        cases this
    · intro hp e he
      refine ⟨?_, ?_⟩
      · cases hd : e.is_normal_rx
        · rfl
        · have := (hkind e he).2.1 hd
          rw [hp] at this
          cases this
      · cases hd : e.is_enqueue
        · rfl
        · have := (hkind e he).2.2 hd
          rw [hp] at this
          cases this

/-- C13, on the scenario chain: the normal path calls `mac_rx`,
`aggr_lacp_rx_enqueue` and `freemsg` only, the promiscuous path
`mac_aggr_promisc_dispatch` and `freemsg` only. -/
theorem C13_mode_exclusive_witness :
    IsChain scenario_heap 1 [1, 2, 3, 4, 5, 6] ∧
    (∃ tr, aggr_recv_cb 6 (fun p => p + 1000) scenario_heap 50 (lacp_port true) none 1 false =
        .ok tr ∧ ∀ e ∈ tr, e.is_promisc_dispatch = false) ∧
    (∃ tr, aggr_recv_promisc_cb 6 (fun p => p + 1000) scenario_heap 50 (lacp_port true) none 1
        false = .ok tr ∧ ∀ e ∈ tr, e.is_normal_rx = false ∧ e.is_enqueue = false) := by
  refine ⟨by decide, ?_, ?_⟩
  · obtain ⟨tr, h1, h2, _⟩ :=
      C13_mode_exclusive 6 (fun p => p + 1000) scenario_heap 50 (lacp_port true) none 1 false
        false [1, 2, 3, 4, 5, 6] (by decide) (by decide)
    exact ⟨tr, h1, h2 rfl⟩
  · obtain ⟨tr, h1, _, h3⟩ :=
      C13_mode_exclusive 6 (fun p => p + 1000) scenario_heap 50 (lacp_port true) none 1 false
        true [1, 2, 3, 4, 5, 6] (by decide) (by decide)
    exact ⟨tr, h1, h3 rfl⟩


/-! ## Malformed frames -/

theorem flatMap_frames_pending_calls (port : aggr_port_t) (mrh : Option aggr_pseudo_rx_ring_t)
    (promisc_path : Bool) (acc : List Nat) :
    (pending_calls port mrh promisc_path acc).flatMap Call.frames = acc := by
  cases acc with
  | nil => rfl
  | cons a as =>
    cases hg : port.lp_collector_enabled <;> cases promisc_path <;> cases mrh <;>
      simp [pending_calls, run_calls, hg, Call.frames]

/-- The frames carried by the calls, in call order: the frames of the chain in
arrival order, except the control-class frames whose `copymsg` failed on the
promiscuous path, which are carried by no call. -/
theorem frames_scan (cls : Nat → frame_class) (copymsg : Nat → Nat) (arg : Nat)
    (port : aggr_port_t) (mrh : Option aggr_pseudo_rx_ring_t) (promisc_path : Bool)
    (ps : List Nat) :
    ∀ acc, (scan cls copymsg arg port mrh promisc_path acc ps).flatMap Call.frames =
      acc ++ ps.filter
        (fun p => !(promisc_path && is_control cls p && decide (copymsg p = NULL))) := by
  induction ps with
  | nil => intro acc; simp [scan, flatMap_frames_pending_calls]
  | cons f fs ih =>
    intro acc
    rcases hcl : cls f with _ | _ | _
    · simp [scan, hcl, List.flatMap_append, flatMap_frames_pending_calls, ih, is_control,
        List.filter_cons, Call.frames]
    · simp only [scan, hcl, List.flatMap_append, flatMap_frames_pending_calls, ih, is_control,
        List.filter_cons]
      cases promisc_path <;> by_cases hcp : copymsg f = NULL <;>
        simp [lacp_calls, Call.frames, hcp]
    · simp [scan, hcl, ih, is_control, List.filter_cons]

/-- A malformed frame cuts the chain in two parts that are handled one after
the other, with the `freemsg` of the frame in between. -/
theorem scan_append_malformed (cls : Nat → frame_class) (copymsg : Nat → Nat) (arg : Nat)
    (port : aggr_port_t) (mrh : Option aggr_pseudo_rx_ring_t) (promisc_path : Bool)
    (f : Nat) (hf : cls f = frame_class.malformed) (pre post : List Nat) :
    ∀ acc, scan cls copymsg arg port mrh promisc_path acc (pre ++ f :: post) =
      scan cls copymsg arg port mrh promisc_path acc pre ++
        Call.freemsg [f] :: scan cls copymsg arg port mrh promisc_path [] post := by
  induction pre with
  | nil => intro acc; simp [scan, hf]
  | cons g gs ih =>
    intro acc
    rcases hcl : cls g with _ | _ | _
    · simp [scan, hcl, ih]
    · simp [scan, hcl, ih]
    · simp [scan, hcl, ih]

/-- With LACP running, on either path and in either state of the collector:
`aggr_recv_path_cb` returns; every malformed frame is carried by exactly one
call, a `freemsg` of that frame alone; the calls made before and after it are
those made for the frames before and after it; and the calls carry, in arrival
order, every frame of the chain except the control-class frames whose `copymsg`
failed on the promiscuous path. -/
theorem malformed_frames_freed (fuel : Nat) (copymsg : Nat → Nat) (h : Heap) (arg : Nat)
    (port : aggr_port_t) (mrh : Option aggr_pseudo_rx_ring_t) (mp : Nat)
    (loopback promisc_path : Bool) (ps : List Nat)
    (hmode : port.lp_grp.lg_lacp_mode ≠ aggr_lacp_mode_t.AGGR_LACP_OFF)
    (hc : IsChain h mp ps) (hfuel : ps.length ≤ fuel) :
    ∃ tr, aggr_recv_path_cb fuel copymsg h arg port mrh mp loopback promisc_path = .ok tr ∧
      (∀ f ∈ ps, classify (h f) = frame_class.malformed →
        tr.count (Call.freemsg [f]) = 1 ∧ ∀ e ∈ tr, f ∈ e.frames → e = Call.freemsg [f]) ∧
      (∀ pre f post, ps = pre ++ f :: post → classify (h f) = frame_class.malformed →
        tr = scan (fun p => classify (h p)) copymsg arg port mrh promisc_path [] pre ++
          Call.freemsg [f] ::
            scan (fun p => classify (h p)) copymsg arg port mrh promisc_path [] post) ∧
      tr.flatMap Call.frames = ps.filter (fun p =>
        !(promisc_path && is_control (fun p => classify (h p)) p &&
          decide (copymsg p = NULL))) := by
  refine ⟨_, aggr_recv_path_cb_lacp fuel copymsg h arg port mrh mp loopback promisc_path ps
    hmode hc hfuel, ?_, ?_, ?_⟩
  · intro f hfmem hfcls
    have honly : ∀ (qs : List Nat),
        ∀ e ∈ scan (fun p => classify (h p)) copymsg arg port mrh promisc_path [] qs,
          f ∈ e.frames → e = Call.freemsg [f] ∧ f ∈ qs := by
      intro qs e he hfe
      rcases mem_scan _ copymsg arg port mrh promisc_path qs [] e he with
        ⟨run, _, h2, h3⟩ | ⟨g, _, h2, h3⟩ | ⟨g, h1, _, h3⟩
      · rw [run_calls_frames port mrh promisc_path run e h3] at hfe
        rcases h2 f hfe with h4 | ⟨_, h5⟩
        · simp at h4
        · rw [hfcls] at h5; cases h5
      · rw [(lacp_calls_kind copymsg arg port promisc_path g e h3).1] at hfe
        have : f = g := by simpa using hfe
        rw [this, h2] at hfcls
        cases hfcls
      · subst h3
        have : f = g := by simpa [Call.frames] using hfe
        subst this
        exact ⟨rfl, h1⟩
    refine ⟨?_, fun e he hfe => (honly ps e he hfe).1⟩
    obtain ⟨pre, post, hsplit⟩ := List.append_of_mem hfmem
    have hnd := isChain_nodup h mp ps hc
    rw [hsplit] at hnd
    have hpre : f ∉ pre := fun hm =>
      (List.nodup_append.mp hnd).2.2 hm (List.mem_cons_self f post)
    have hpost : f ∉ post := (List.nodup_cons.mp (List.nodup_append.mp hnd).2.1).1
    have hzero : ∀ qs, f ∉ qs →
        (scan (fun p => classify (h p)) copymsg arg port mrh promisc_path [] qs).count
          (Call.freemsg [f]) = 0 := by
      intro qs hqs
      rw [List.count_eq_zero]
      intro hm
      exact hqs (honly qs _ hm (by simp [Call.frames])).2
    rw [hsplit, scan_append_malformed _ copymsg arg port mrh promisc_path f hfcls pre post [],
      List.count_append, List.count_cons_self, hzero pre hpre, hzero post hpost]
  · intro pre f post hsplit hfcls
    rw [hsplit]
    exact scan_append_malformed _ copymsg arg port mrh promisc_path f hfcls pre post []
  · simpa using frames_scan (fun p => classify (h p)) copymsg arg port mrh promisc_path ps []

/-- C14: every malformed frame is freed by a `freemsg` of its own and the loop
goes on, but on the promiscuous path a control-class frame after it whose
`copymsg` fails is neither delivered nor discarded: in the chain data 1,
malformed 2, control 3, data 4, frame 2 is freed, frame 4 is dispatched and
frame 3 is carried by no call. -/
theorem C14_frame_after_malformed_in_no_call :
    IsChain short_then_slow_heap 1 [1, 2, 3, 4] ∧
    classify (short_then_slow_heap 2) = frame_class.malformed ∧
    classify (short_then_slow_heap 3) = frame_class.control ∧
    aggr_recv_path_cb 4 (fun _ => NULL) short_then_slow_heap 50 (lacp_port true) none 1 false
      true = .ok [Call.mac_aggr_promisc_dispatch 100 [1], Call.freemsg [2],
        Call.mac_aggr_promisc_dispatch 100 [4]] ∧
    Except.map (fun tr => tr.flatMap Call.frames)
      (aggr_recv_promisc_cb 4 (fun _ => NULL) short_then_slow_heap 50 (lacp_port true) none 1
        false) = .ok [1, 2, 4] := by
  decide


/-! ## Termination of the chains handed over -/

/-- A recorded chain shorter than the fuel was not cut off: the walk along
`b_next` ended at a null link. -/
theorem isChain_of_msgchain (h : Heap) (fuel : Nat) :
    ∀ p, (msgchain h fuel p).length < fuel → IsChain h p (msgchain h fuel p) := by
  induction fuel with
  | zero => intro p hlt; simp at hlt
  | succ k ih =>
    intro p hlt
    by_cases hp : p = NULL
    · simp only [msgchain, if_pos hp]
      exact hp
    · simp only [msgchain, if_neg hp] at hlt ⊢
      refine ⟨rfl, hp, ih _ ?_⟩
      simpa using hlt

theorem isChain_getLast (h : Heap) (l : List Nat) :
    ∀ a, IsChain h a l → ∀ t ∈ l.getLast?, (h t).b_next = NULL := by
  induction l with
  | nil => intro a _ t ht; simp at ht
  | cons p ps ih =>
    intro a hc t ht
    cases ps with
    | nil =>
      have htp : t = p := by simpa using ht.symm
      rw [htp]
      exact hc.2.2
    | cons q qs =>
      rw [List.getLast?_cons_cons] at ht
      exact ih _ hc.2.2 t ht

theorem length_frames_le_flatMap (tr : List Call) :
    ∀ e ∈ tr, e.frames.length ≤ (tr.flatMap Call.frames).length := by
  induction tr with
  | nil => intro e he; simp at he
  | cons c cs ih =>
    intro e he
    rcases List.mem_cons.mp he with rfl | he
    · simp
    · have := ih e he
      simp only [List.flatMap_cons, List.length_append]
      omega

/-- Every call carries at least one frame, and a call that carries a frame
which is not data-class carries that frame alone. -/
theorem scan_single_frame (cls : Nat → frame_class) (copymsg : Nat → Nat) (arg : Nat)
    (port : aggr_port_t) (mrh : Option aggr_pseudo_rx_ring_t) (promisc_path : Bool)
    (ps : List Nat) :
    ∀ e ∈ scan cls copymsg arg port mrh promisc_path [] ps,
      e.frames ≠ [] ∧
      (e.is_freemsg = true ∨ e.is_enqueue = true ∨ (∃ c ∈ e.frames, cls c ≠ frame_class.data) →
        ∃ f ∈ ps, e.frames = [f]) := by
  intro e he
  rcases mem_scan cls copymsg arg port mrh promisc_path ps [] e he with
    ⟨run, h1, h2, h3⟩ | ⟨f, h1, _, h3⟩ | ⟨f, h1, _, h3⟩
  · have hfr := run_calls_frames port mrh promisc_path run e h3
    obtain ⟨k1, k2, _, _⟩ := run_calls_kind port mrh promisc_path run e h3
    refine ⟨by rw [hfr]; exact h1, ?_⟩
    rintro (hq | hq | ⟨c, hc1, hc2⟩)
    · rw [k2] at hq; cases hq
    · rw [k1] at hq; cases hq
    · rw [hfr] at hc1
      rcases h2 c hc1 with h4 | ⟨_, h5⟩
      · simp at h4
      · exact absurd h5 hc2
  · have hfr := (lacp_calls_kind copymsg arg port promisc_path f e h3).1
    exact ⟨by rw [hfr]; simp, fun _ => ⟨f, h1, hfr⟩⟩
  · subst h3
    exact ⟨by simp [Call.frames], fun _ => ⟨f, h1, rfl⟩⟩

/-- C15: with LACP running and more fuel than frames, `aggr_recv_path_cb`
returns on every null-terminated chain and every chain it hands to a delivery
or discard call is null-terminated when handed over: the record of the call is
not empty and was not cut off, so in the memory it was taken from the `b_next`
links lead from the pointer argument through exactly the recorded frames to a
null link, the last frame having a null `b_next`; and a call that frees or
enqueues, or that carries a frame which is not data-class, carries a single
frame. -/
theorem C15_chains_terminated (fuel : Nat) (copymsg : Nat → Nat) (h : Heap) (arg : Nat)
    (port : aggr_port_t) (mrh : Option aggr_pseudo_rx_ring_t) (mp : Nat)
    (loopback promisc_path : Bool) (ps : List Nat)
    (hmode : port.lp_grp.lg_lacp_mode ≠ aggr_lacp_mode_t.AGGR_LACP_OFF)
    (hc : IsChain h mp ps) (hfuel : ps.length < fuel) :
    ∃ tr, aggr_recv_path_cb fuel copymsg h arg port mrh mp loopback promisc_path = .ok tr ∧
      ∀ e ∈ tr,
        e.frames ≠ [] ∧ e.frames.length < fuel ∧
        (∀ (h1 : Heap) (p : Nat), msgchain h1 fuel p = e.frames →
          IsChain h1 p e.frames ∧ ∀ t ∈ e.frames.getLast?, (h1 t).b_next = NULL) ∧
        (e.is_freemsg = true ∨ e.is_enqueue = true ∨
            (∃ c ∈ e.frames, classify (h c) ≠ frame_class.data) →
          ∃ f ∈ ps, e.frames = [f] ∧
            ∀ (h1 : Heap) (p : Nat), msgchain h1 fuel p = e.frames →
              p = f ∧ (h1 f).b_next = NULL) := by
  refine ⟨_, aggr_recv_path_cb_lacp fuel copymsg h arg port mrh mp loopback promisc_path ps
    hmode hc (Nat.le_of_lt hfuel), ?_⟩
  intro e he
  have hlen : e.frames.length < fuel := by
    have h1 := length_frames_le_flatMap _ e he
    rw [frames_scan] at h1
    have h2 := List.length_filter_le
      (fun p => !(promisc_path && is_control (fun p => classify (h p)) p &&
        decide (copymsg p = NULL))) ps
    simp only [List.nil_append] at h1
    omega
  have hterm : ∀ (h1 : Heap) (p : Nat), msgchain h1 fuel p = e.frames →
      IsChain h1 p e.frames ∧ ∀ t ∈ e.frames.getLast?, (h1 t).b_next = NULL := by
    intro h1 p hrec
    have hch : IsChain h1 p e.frames := by
      rw [← hrec]
      exact isChain_of_msgchain h1 fuel p (by rw [hrec]; exact hlen)
    exact ⟨hch, isChain_getLast h1 e.frames p hch⟩
  obtain ⟨hne, hsingle⟩ := scan_single_frame _ copymsg arg port mrh promisc_path ps e he
  refine ⟨hne, hlen, hterm, fun hq => ?_⟩
  obtain ⟨f, hf, hfr⟩ := hsingle hq
  refine ⟨f, hf, hfr, fun h1 p hrec => ?_⟩
  have hch := (hterm h1 p hrec).1
  rw [hfr] at hch
  exact ⟨hch.1, hch.2.2⟩

/-- C15, on the scenario chain with fuel 7: the five recorded chains are
`[1, 2]`, `[3]`, `[4]`, `[5]`, `[6]`, none of them cut off. -/
theorem C15_chains_terminated_witness :
    IsChain scenario_heap 1 [1, 2, 3, 4, 5, 6] ∧
    ∃ tr, aggr_recv_path_cb 7 (fun p => p + 1000) scenario_heap 50 (lacp_port true) none 1
        false false = .ok tr ∧
      tr.map Call.frames = [[1, 2], [3], [4], [5], [6]] ∧
      ∀ e ∈ tr, e.frames ≠ [] ∧ e.frames.length < 7 ∧
        ∀ (h1 : Heap) (p : Nat), msgchain h1 7 p = e.frames →
          IsChain h1 p e.frames ∧ ∀ t ∈ e.frames.getLast?, (h1 t).b_next = NULL := by
  refine ⟨by decide, ?_⟩
  obtain ⟨tr, h1, h2⟩ :=
    C15_chains_terminated 7 (fun p => p + 1000) scenario_heap 50 (lacp_port true) none 1
      false false [1, 2, 3, 4, 5, 6] (by decide) (by decide) (by decide)
  have e1 : aggr_recv_path_cb 7 (fun p => p + 1000) scenario_heap 50 (lacp_port true) none 1
      false false = .ok [Call.mac_rx 100 [1, 2], Call.aggr_lacp_rx_enqueue 50 [3],
        Call.mac_rx 100 [4], Call.freemsg [5], Call.mac_rx 100 [6]] := by decide
  have e2 : tr = [Call.mac_rx 100 [1, 2], Call.aggr_lacp_rx_enqueue 50 [3],
      Call.mac_rx 100 [4], Call.freemsg [5], Call.mac_rx 100 [6]] := by
    rw [h1] at e1
    exact Except.ok.inj e1
  refine ⟨tr, h1, by rw [e2]; rfl, fun e he => ?_⟩
  obtain ⟨k1, k2, k3, _⟩ := h2 e he
  exact ⟨k1, k2, k3⟩


/-! ## Maximality of the runs -/

theorem mem_splitBy_subset {cls : Nat → frame_class} {ps g : List Nat}
    (hg : g ∈ List.splitBy (both_data cls) ps) : ∀ p ∈ g, p ∈ ps := by
  intro p hp
  have hflat := List.flatten_splitBy (both_data cls) ps
  rw [← hflat]
  exact List.mem_flatten.mpr ⟨g, hg, hp⟩

/-- A group of the partition that starts with a data-class frame is a maximal
contiguous run of data-class frames of the chain. -/
theorem isMaximalDataRun_of_mem_splitBy (cls : Nat → frame_class) :
    ∀ (n : Nat) (ps : List Nat), ps.length ≤ n →
      ∀ g ∈ List.splitBy (both_data cls) ps, (∀ f ∈ g.head?, cls f = frame_class.data) →
        IsMaximalDataRun cls ps g := by
  intro n
  induction n with
  | zero =>
    intro ps hps g hg
    have : ps = [] := List.length_eq_zero.mp (Nat.le_zero.mp hps)
    subst this
    simp at hg
  | succ n ih =>
    intro ps hps g hg hhead
    cases ps with
    | nil => simp at hg
    | cons f fs =>
      have hfs : fs.length ≤ n := by simpa using hps
      rw [splitBy_both_data_cons] at hg
      have hgne : g ≠ [] := List.ne_nil_of_mem_splitBy (both_data cls)
        (by rw [splitBy_both_data_cons]; exact hg)
      have hgd : ∀ q qs, g = q :: qs → cls q = frame_class.data := by
        intro q qs hq
        exact hhead q (by simp [hq])
      by_cases hd : is_data cls f = true
      · rw [if_pos hd] at hg
        have hfd : cls f = frame_class.data := by simpa [is_data] using hd
        rcases List.mem_cons.mp hg with hg1 | hg1
        · subst hg1
          refine ⟨by simp, ?_, [], fs.dropWhile (is_data cls), ?_, by simp, ?_⟩
          · intro p hp
            rcases List.mem_cons.mp hp with rfl | hp
            · exact hfd
            · simpa [is_data] using List.mem_takeWhile_imp hp
          · simp [List.takeWhile_append_dropWhile]
          · intro p hp
            have hnot := List.head?_dropWhile_not (is_data cls) fs
            have hp2 : (fs.dropWhile (is_data cls)).head? = some p := by simpa using hp
            rw [hp2] at hnot
            simpa [is_data] using hnot
        · have hdw : (fs.dropWhile (is_data cls)).length ≤ n :=
            le_trans (List.dropWhile_suffix (is_data cls)).length_le hfs
          obtain ⟨_, hall, pre, post, hsplit, hpre, hpost⟩ := ih _ hdw g hg1 hhead
          refine ⟨hgne, hall, (f :: fs.takeWhile (is_data cls)) ++ pre, post, ?_, ?_, hpost⟩
          · have := List.takeWhile_append_dropWhile (is_data cls) fs
            rw [hsplit] at this
            simp only [List.cons_append, List.append_assoc]
            rw [← List.append_assoc pre g post, this]
          · cases pre with
            | nil =>
              -- the run would start the rest of the chain, whose first frame is not data-class
              exfalso
              cases g with
              | nil => exact hgne rfl
              | cons q qs =>
                have hq := hgd q qs rfl
                have hnot := List.head?_dropWhile_not (is_data cls) fs
                rw [hsplit] at hnot
                simp [is_data, hq] at hnot
            | cons a as =>
              intro p hp
              apply hpre p
              rw [List.getLast?_append_of_ne_nil _ (by simp)] at hp
              exact hp
      · rw [if_neg hd] at hg
        have hfd : cls f ≠ frame_class.data := by simpa [is_data] using hd
        rcases List.mem_cons.mp hg with hg1 | hg1
        · exact absurd (hgd f [] hg1) hfd
        · obtain ⟨_, hall, pre, post, hsplit, hpre, hpost⟩ := ih _ hfs g hg1 hhead
          refine ⟨hgne, hall, f :: pre, post, by simp [hsplit], ?_, hpost⟩
          cases pre with
          | nil =>
            intro p hp
            have : p = f := by simpa using hp.symm
            rw [this]
            exact hfd
          | cons a as =>
            intro p hp
            apply hpre p
            rw [List.getLast?_cons_cons] at hp
            exact hp

/-- Every call is the flush of a maximal data run, the handling of one
control-class frame by `aggr_recv_lacp`, or the `freemsg` of one malformed
frame. -/
theorem scan_calls_kinds (cls : Nat → frame_class) (copymsg : Nat → Nat) (arg : Nat)
    (port : aggr_port_t) (mrh : Option aggr_pseudo_rx_ring_t) (promisc_path : Bool)
    (ps : List Nat) :
    ∀ e ∈ scan cls copymsg arg port mrh promisc_path [] ps,
      (∃ run, IsMaximalDataRun cls ps run ∧ e ∈ run_calls port mrh promisc_path run) ∨
      (∃ f ∈ ps, cls f = frame_class.control ∧
        e ∈ lacp_calls copymsg arg port promisc_path f) ∨
      (∃ f ∈ ps, cls f = frame_class.malformed ∧ e = Call.freemsg [f]) := by
  intro e he
  rw [scan_eq_flatMap cls copymsg arg port mrh promisc_path ps.length ps (le_refl _)] at he
  obtain ⟨g, hg, heg⟩ := List.mem_flatMap.mp he
  cases g with
  | nil => simp [group_calls] at heg
  | cons f fs =>
    have hfmem : f ∈ ps := mem_splitBy_subset hg f (List.mem_cons_self f fs)
    rcases hcl : cls f with _ | _ | _
    · simp only [group_calls, hcl, List.mem_singleton] at heg
      exact Or.inr (Or.inr ⟨f, hfmem, hcl, heg⟩)
    · simp only [group_calls, hcl] at heg
      exact Or.inr (Or.inl ⟨f, hfmem, hcl, heg⟩)
    · simp only [group_calls, hcl] at heg
      refine Or.inl ⟨f :: fs, ?_, heg⟩
      exact isMaximalDataRun_of_mem_splitBy cls ps.length ps (le_refl _) _ hg
        (fun q hq => by
          have : q = f := by simpa using hq.symm
          rw [this]; exact hcl)

/-- C16: with LACP running, on either path and in either state of the
collector, `aggr_recv_path_cb` returns on every null-terminated chain and every
run it flushes to the data path is a maximal contiguous run of data-class
frames: the chain of each call to `freemsgchain`, `mac_rx` or `mac_rx_ring` is
not empty, holds data-class frames only, lies contiguously in the input, and is
neither preceded nor followed there by a data-class frame; a call to
`mac_aggr_promisc_dispatch` carries such a run, unless it is the one made by
`aggr_recv_lacp` for a single control-class frame. -/
theorem C16_runs_maximal (fuel : Nat) (copymsg : Nat → Nat) (h : Heap) (arg : Nat)
    (port : aggr_port_t) (mrh : Option aggr_pseudo_rx_ring_t) (mp : Nat)
    (loopback promisc_path : Bool) (ps : List Nat)
    (hmode : port.lp_grp.lg_lacp_mode ≠ aggr_lacp_mode_t.AGGR_LACP_OFF)
    (hc : IsChain h mp ps) (hfuel : ps.length ≤ fuel) :
    ∃ tr, aggr_recv_path_cb fuel copymsg h arg port mrh mp loopback promisc_path = .ok tr ∧
      ∀ e ∈ tr,
        (e.is_freemsgchain = true ∨ e.is_normal_rx = true →
          IsMaximalDataRun (fun p => classify (h p)) ps e.frames) ∧
        (e.is_promisc_dispatch = true →
          IsMaximalDataRun (fun p => classify (h p)) ps e.frames ∨
          ∃ c ∈ ps, classify (h c) = frame_class.control ∧ e.frames = [c]) := by
  refine ⟨_, aggr_recv_path_cb_lacp fuel copymsg h arg port mrh mp loopback promisc_path ps
    hmode hc hfuel, ?_⟩
  intro e he
  rcases scan_calls_kinds _ copymsg arg port mrh promisc_path ps e he with
    ⟨run, h1, h2⟩ | ⟨f, h1, h2, h3⟩ | ⟨f, _, _, h3⟩
  · rw [run_calls_frames port mrh promisc_path run e h2]
    exact ⟨fun _ => h1, fun _ => Or.inl h1⟩
  · obtain ⟨k1, k2, _, k4, _⟩ := lacp_calls_kind copymsg arg port promisc_path f e h3
    refine ⟨?_, fun _ => Or.inr ⟨f, h1, h2, k1⟩⟩
    rintro (hq | hq)
    · rw [k4] at hq; cases hq
    · rw [k2] at hq; cases hq
  · subst h3
    refine ⟨?_, ?_⟩
    · rintro (hq | hq) <;> simp [Call.is_freemsgchain, Call.is_normal_rx] at hq
    · intro hq
      simp [Call.is_promisc_dispatch] at hq

/-- C16, on the scenario chain with the collector disabled: the run `[1, 2]`
handed to `freemsgchain` lies at the start of the chain and is followed by the
control-class frame 3. -/
theorem C16_runs_maximal_witness :
    IsChain scenario_heap 1 [1, 2, 3, 4, 5, 6] ∧
    ∃ tr, aggr_recv_path_cb 6 (fun p => p + 1000) scenario_heap 50 (lacp_port false) none 1
        false false = .ok tr ∧
      Call.freemsgchain [1, 2] ∈ tr ∧
      IsMaximalDataRun (fun p => classify (scenario_heap p)) [1, 2, 3, 4, 5, 6] [1, 2] := by
  refine ⟨by decide, ?_⟩
  obtain ⟨tr, h1, h2⟩ :=
    C16_runs_maximal 6 (fun p => p + 1000) scenario_heap 50 (lacp_port false) none 1
      false false [1, 2, 3, 4, 5, 6] (by decide) (by decide) (by decide)
  have e1 : aggr_recv_path_cb 6 (fun p => p + 1000) scenario_heap 50 (lacp_port false) none 1
      false false = .ok [Call.freemsgchain [1, 2], Call.aggr_lacp_rx_enqueue 50 [3],
        Call.freemsgchain [4], Call.freemsg [5], Call.freemsgchain [6]] := by decide
  have e2 : tr = [Call.freemsgchain [1, 2], Call.aggr_lacp_rx_enqueue 50 [3],
      Call.freemsgchain [4], Call.freemsg [5], Call.freemsgchain [6]] := by
    rw [h1] at e1
    exact Except.ok.inj e1
  have hmem : Call.freemsgchain [1, 2] ∈ tr := by rw [e2]; simp
  exact ⟨tr, h1, hmem, (h2 _ hmem).1 (Or.inl rfl)⟩


/-! ## The iterations of the loop -/

/-- The facts about `head`, `cmp` and `last` that follow from the invariant. -/
theorem loop_inv_pointers {h0 : Heap} {s : loop_state} {acc rest : List Nat}
    (hinv : loop_inv h0 s acc rest) :
    (s.head = s.cmp ↔ s.last = NULL) ∧
    (s.last ≠ NULL →
      (s.heap s.last).b_next = s.cmp ∧
      ∃ run, IsSeg s.heap s.head run s.cmp ∧ run.getLast? = some s.last) := by
  rcases List.eq_nil_or_concat' acc with rfl | ⟨init, l, rfl⟩
  · obtain ⟨h1, h2⟩ := loop_inv_nil hinv
    exact ⟨⟨fun _ => h2, fun _ => h1⟩, fun hne => absurd h2 hne⟩
  · obtain ⟨h1, h2, h3, h4, _⟩ := loop_inv_concat hinv
    refine ⟨⟨fun e => absurd e h1, fun e => absurd (h2.symm.trans e) h3⟩, fun _ => ?_⟩
    rw [h2]
    exact ⟨h4, init ++ [l], hinv.seg, List.getLast?_concat init⟩

/-- On a null-terminated chain the loop body is run once for each frame still to
be visited, in arrival order, every run of the body succeeds, and the invariant
holds each time the loop condition is evaluated. -/
theorem iterations_spec (h0 : Heap) (n : Nat) (copymsg : Nat → Nat) (arg : Nat)
    (port : aggr_port_t) (mrh : Option aggr_pseudo_rx_ring_t) (promisc_path : Bool)
    (rest : List Nat) :
    ∀ (fuel : Nat) (s : loop_state) (acc : List Nat),
      loop_inv h0 s acc rest → (acc ++ rest).length ≤ n → rest.length ≤ fuel →
      (iterations n copymsg arg port mrh promisc_path fuel s).map (fun t => t.cmp) =
        rest ++ [NULL] ∧
      ∀ t ∈ iterations n copymsg arg port mrh promisc_path fuel s,
        (∃ acc1 rest1, loop_inv h0 t acc1 rest1) ∧
        (t.cmp ≠ NULL → ∃ t1, loop_body n copymsg arg port mrh promisc_path t = .ok t1) := by
  induction rest with
  | nil =>
    intro fuel s acc hinv _ _
    have hcmp : s.cmp = NULL := hinv.chain
    have hit : iterations n copymsg arg port mrh promisc_path fuel s = [s] := by
      cases fuel <;> simp [iterations, hcmp]
    rw [hit]
    refine ⟨by simp [hcmp], ?_⟩
    intro t ht
    rw [List.mem_singleton.mp ht]
    exact ⟨⟨acc, [], hinv⟩, fun hne => absurd hcmp hne⟩
  | cons f fs ih =>
    intro fuel s acc hinv hn hfuel
    obtain ⟨hcmp, hfne, _, _, _⟩ := loop_inv_cmp hinv
    obtain ⟨s1, acc1, hbody, hinv1, hn1, _⟩ :=
      loop_body_spec h0 n copymsg arg port mrh promisc_path hinv hn
    cases fuel with
    | zero => simp at hfuel
    | succ k =>
      have hk : fs.length ≤ k := by simpa using hfuel
      obtain ⟨hmap, hall⟩ := ih k s1 acc1 hinv1 hn1 hk
      have hne : ¬ s.cmp = NULL := by rw [hcmp]; exact hfne
      have hit : iterations n copymsg arg port mrh promisc_path (k + 1) s =
          s :: iterations n copymsg arg port mrh promisc_path k s1 := by
        simp only [iterations, if_neg hne, hbody]
      rw [hit]
      refine ⟨by simp [hmap, hcmp], ?_⟩
      intro t ht
      rcases List.mem_cons.mp ht with rfl | ht
      · exact ⟨⟨acc, f :: fs, hinv⟩, fun _ => ⟨s1, hbody⟩⟩
      · exact hall t ht

/-- The list of iterations starts with the state in which the loop is entered. -/
theorem iterations_head (n : Nat) (copymsg : Nat → Nat) (arg : Nat) (port : aggr_port_t)
    (mrh : Option aggr_pseudo_rx_ring_t) (promisc_path : Bool) (fuel : Nat) (s : loop_state) :
    (iterations n copymsg arg port mrh promisc_path fuel s).head? = some s := by
  cases fuel with
  | zero => rfl
  | succ k =>
    simp only [iterations]
    split
    · rfl
    · split <;> rfl

/-- Each state in the list of iterations but the last has a non-null `cmp`, and
the next state is the result of one run of the loop body on it. -/
theorem iterations_chain (n : Nat) (copymsg : Nat → Nat) (arg : Nat) (port : aggr_port_t)
    (mrh : Option aggr_pseudo_rx_ring_t) (promisc_path : Bool) (fuel : Nat) :
    ∀ s, List.Chain'
      (fun t t1 => t.cmp ≠ NULL ∧ loop_body n copymsg arg port mrh promisc_path t = .ok t1)
      (iterations n copymsg arg port mrh promisc_path fuel s) := by
  induction fuel with
  | zero => intro s; simp [iterations]
  | succ k ih =>
    intro s
    simp only [iterations]
    split
    · simp
    · rename_i hne
      split
      · simp
      · rename_i s1 hb
        rw [List.chain'_cons']
        refine ⟨?_, ih s1⟩
        intro y hy
        rw [iterations_head] at hy
        have hy1 : s1 = y := by simpa using hy
        rw [← hy1]
        exact ⟨hne, hb⟩

/-- When the loop returns, the state it returns is the last of the list of
iterations, and `cmp` is null in it. -/
theorem while_loop_getLast (n : Nat) (copymsg : Nat → Nat) (arg : Nat) (port : aggr_port_t)
    (mrh : Option aggr_pseudo_rx_ring_t) (promisc_path : Bool) (fuel : Nat) :
    ∀ s s1, while_loop n copymsg arg port mrh promisc_path fuel s = .ok s1 →
      (iterations n copymsg arg port mrh promisc_path fuel s).getLast? = some s1 ∧
      s1.cmp = NULL := by
  induction fuel with
  | zero =>
    intro s s1 hw
    simp only [while_loop] at hw
    split at hw
    · rename_i hnull
      have hs : s = s1 := Except.ok.inj hw
      rw [← hs]
      exact ⟨rfl, hnull⟩
    · cases hw
  | succ k ih =>
    intro s s1 hw
    by_cases hnull : s.cmp = NULL
    · simp only [while_loop, if_pos hnull] at hw
      have hs : s = s1 := Except.ok.inj hw
      simp only [iterations, if_pos hnull]
      rw [← hs]
      exact ⟨rfl, hnull⟩
    · cases hb : loop_body n copymsg arg port mrh promisc_path s with
      | error e =>
        simp only [while_loop, if_neg hnull, hb] at hw
        cases hw
      | ok s2 =>
        simp only [while_loop, if_neg hnull, hb] at hw
        obtain ⟨k1, k2⟩ := ih s2 s1 hw
        simp only [iterations, if_neg hnull, hb]
        refine ⟨?_, k2⟩
        rw [List.getLast?_cons, k1]
        rfl

/-- A loop that has returned returns the same state with more fuel. -/
theorem while_loop_mono (n : Nat) (copymsg : Nat → Nat) (arg : Nat) (port : aggr_port_t)
    (mrh : Option aggr_pseudo_rx_ring_t) (promisc_path : Bool) (k : Nat) :
    ∀ s s1, while_loop n copymsg arg port mrh promisc_path k s = .ok s1 →
      ∀ j, k ≤ j → while_loop n copymsg arg port mrh promisc_path j s = .ok s1 := by
  induction k with
  | zero =>
    intro s s1 hw j _
    simp only [while_loop] at hw
    split at hw
    · rename_i hnull
      cases j <;> simp only [while_loop, if_pos hnull] <;> exact hw
    · cases hw
  | succ k ih =>
    intro s s1 hw j hj
    cases j with
    | zero => omega
    | succ j =>
      by_cases hnull : s.cmp = NULL
      · simp only [while_loop, if_pos hnull] at hw ⊢
        exact hw
      · cases hb : loop_body n copymsg arg port mrh promisc_path s with
        | error e =>
          simp only [while_loop, if_neg hnull, hb] at hw
          cases hw
        | ok s2 =>
          simp only [while_loop, if_neg hnull, hb] at hw ⊢
          exact ih s2 s1 hw j (by omega)

/-- With fewer units of fuel than frames still to be visited the loop does not
return: every frame needs a run of the body. -/
theorem while_loop_short (h0 : Heap) (n : Nat) (copymsg : Nat → Nat) (arg : Nat)
    (port : aggr_port_t) (mrh : Option aggr_pseudo_rx_ring_t) (promisc_path : Bool)
    (rest : List Nat) :
    ∀ (k : Nat) (s : loop_state) (acc : List Nat),
      loop_inv h0 s acc rest → (acc ++ rest).length ≤ n → k < rest.length →
      while_loop n copymsg arg port mrh promisc_path k s = .error Fault.fuel_exhausted := by
  induction rest with
  | nil => intro k s acc _ _ hk; simp at hk
  | cons f fs ih =>
    intro k s acc hinv hn hk
    obtain ⟨hcmp, hfne, _, _, _⟩ := loop_inv_cmp hinv
    obtain ⟨s1, acc1, hbody, hinv1, hn1, _⟩ :=
      loop_body_spec h0 n copymsg arg port mrh promisc_path hinv hn
    have hne : ¬ s.cmp = NULL := by rw [hcmp]; exact hfne
    cases k with
    | zero => simp only [while_loop, if_neg hne]
    | succ k =>
      simp only [while_loop, if_neg hne, hbody]
      exact ih k s1 acc1 hinv1 hn1 (by simpa using hk)

/-- C17: on every null-terminated chain the filtering loop of
`aggr_recv_path_cb` terminates, leaving `cmp` null, after exactly one run of its
body for each frame, the frames being visited in arrival order, each exactly
once; and `aggr_recv_path_cb` returns, whether LACP is running or not.  The
states observed are those of the loop itself: they start with the state in which
the loop is entered, each next one is the result of the loop body on the one
before, whose `cmp` is the next frame of the chain and holds the bytes the frame
had on entry, and the last one is the state the loop returns; the loop returns
with as many units of fuel as there are frames and with no fewer; and with LACP
running the frames carried by the calls of `aggr_recv_path_cb` are the frames of
the chain in arrival order, each once, less the control-class frames whose copy
failed on the promiscuous path. -/
theorem C17_loop_terminates (fuel : Nat) (copymsg : Nat → Nat) (h : Heap) (arg : Nat)
    (port : aggr_port_t) (mrh : Option aggr_pseudo_rx_ring_t) (mp : Nat)
    (loopback promisc_path : Bool) (ps : List Nat)
    (hc : IsChain h mp ps) (hfuel : ps.length ≤ fuel) :
    (∃ s1, while_loop fuel copymsg arg port mrh promisc_path fuel
        { heap := h, head := mp, cmp := mp, last := NULL, calls := [] } = .ok s1 ∧
      s1.cmp = NULL) ∧
    visited fuel copymsg arg port mrh promisc_path fuel
      { heap := h, head := mp, cmp := mp, last := NULL, calls := [] } = ps ∧
    (∀ p ∈ ps, ps.count p = 1) ∧
    (iterations fuel copymsg arg port mrh promisc_path fuel
      { heap := h, head := mp, cmp := mp, last := NULL, calls := [] }).length = ps.length + 1 ∧
    (∃ tr, aggr_recv_path_cb fuel copymsg h arg port mrh mp loopback promisc_path = .ok tr) ∧
    (iterations fuel copymsg arg port mrh promisc_path fuel
      { heap := h, head := mp, cmp := mp, last := NULL, calls := [] }).head? =
      some { heap := h, head := mp, cmp := mp, last := NULL, calls := [] } ∧
    List.Chain'
      (fun t t1 => t.cmp ≠ NULL ∧ loop_body fuel copymsg arg port mrh promisc_path t = .ok t1)
      (iterations fuel copymsg arg port mrh promisc_path fuel
        { heap := h, head := mp, cmp := mp, last := NULL, calls := [] }) ∧
    (iterations fuel copymsg arg port mrh promisc_path fuel
      { heap := h, head := mp, cmp := mp, last := NULL, calls := [] }).map (fun t => t.cmp) =
      ps ++ [NULL] ∧
    (∀ t ∈ iterations fuel copymsg arg port mrh promisc_path fuel
        { heap := h, head := mp, cmp := mp, last := NULL, calls := [] },
      (t.heap t.cmp).b_rptr = (h t.cmp).b_rptr ∧
      classify (t.heap t.cmp) = classify (h t.cmp)) ∧
    (∃ s1, while_loop fuel copymsg arg port mrh promisc_path fuel
        { heap := h, head := mp, cmp := mp, last := NULL, calls := [] } = .ok s1 ∧
      (iterations fuel copymsg arg port mrh promisc_path fuel
        { heap := h, head := mp, cmp := mp, last := NULL, calls := [] }).getLast? = some s1 ∧
      ∀ k, ps.length ≤ k → while_loop fuel copymsg arg port mrh promisc_path k
        { heap := h, head := mp, cmp := mp, last := NULL, calls := [] } = .ok s1) ∧
    (∀ k, k < ps.length → while_loop fuel copymsg arg port mrh promisc_path k
      { heap := h, head := mp, cmp := mp, last := NULL, calls := [] } =
        .error Fault.fuel_exhausted) ∧
    (port.lp_grp.lg_lacp_mode ≠ aggr_lacp_mode_t.AGGR_LACP_OFF →
      ∃ tr, aggr_recv_path_cb fuel copymsg h arg port mrh mp loopback promisc_path = .ok tr ∧
        tr.flatMap Call.frames = ps.filter (fun p =>
          !(promisc_path && is_control (fun p => classify (h p)) p &&
            decide (copymsg p = NULL))) ∧
        (promisc_path = false → tr.flatMap Call.frames = ps)) := by
  have hinit := loop_inv_init h mp ps hc
  have hn : ([] ++ ps).length ≤ fuel := by simpa using hfuel
  obtain ⟨s1, acc1, hloop, hinv1, _, _⟩ :=
    while_loop_spec h fuel copymsg arg port mrh promisc_path ps fuel _ [] hinit hn hfuel
  obtain ⟨hmap, hall⟩ :=
    iterations_spec h fuel copymsg arg port mrh promisc_path ps fuel _ [] hinit hn hfuel
  refine ⟨⟨s1, hloop, hinv1.chain⟩, ?_, ?_, ?_, ?_, iterations_head _ _ _ _ _ _ _ _,
    iterations_chain _ _ _ _ _ _ _ _, hmap, ?_, ⟨s1, hloop, ?_, ?_⟩, ?_, ?_⟩
  · unfold visited
    rw [hmap, List.filter_append]
    have hne := isChain_ne_null h mp ps hc
    have h1 : ps.filter (fun p => decide (p ≠ NULL)) = ps :=
      List.filter_eq_self.mpr (fun p hp => by simpa using hne p hp)
    rw [h1]
    simp
  · intro p hp
    exact List.count_eq_one_of_mem (isChain_nodup h mp ps hc) hp
  · have := congrArg List.length hmap
    simpa using this
  · by_cases hmode : port.lp_grp.lg_lacp_mode = aggr_lacp_mode_t.AGGR_LACP_OFF
    · exact ⟨_, aggr_recv_path_cb_off fuel copymsg h arg port mrh mp loopback promisc_path ps
        hmode hc hfuel⟩
    · exact ⟨_, aggr_recv_path_cb_lacp fuel copymsg h arg port mrh mp loopback promisc_path ps
        hmode hc hfuel⟩
  · intro t ht
    obtain ⟨⟨acc2, rest2, hinv2⟩, _⟩ := hall t ht
    have hb := hinv2.bytes t.cmp
    refine ⟨hb, ?_⟩
    obtain ⟨k1, k2⟩ := classify_of_bytes hb
    simp only [classify, k1, k2]
  · exact (while_loop_getLast fuel copymsg arg port mrh promisc_path fuel _ s1 hloop).1
  · intro k hk
    obtain ⟨s2, _, hloop2, _, _, _⟩ :=
      while_loop_spec h fuel copymsg arg port mrh promisc_path ps ps.length _ [] hinit hn
        (le_refl _)
    have e1 := while_loop_mono fuel copymsg arg port mrh promisc_path ps.length _ s2 hloop2
      fuel hfuel
    rw [hloop] at e1
    have e2 : s1 = s2 := Except.ok.inj e1
    rw [e2]
    exact while_loop_mono fuel copymsg arg port mrh promisc_path ps.length _ s2 hloop2 k hk
  · intro k hk
    exact while_loop_short h fuel copymsg arg port mrh promisc_path ps k _ [] hinit hn hk
  · intro hmode
    refine ⟨_, aggr_recv_path_cb_lacp fuel copymsg h arg port mrh mp loopback promisc_path ps
      hmode hc hfuel, ?_, ?_⟩
    · rw [frames_scan]
      rfl
    · intro hp
      rw [frames_scan, hp]
      simp

/-- C17, on the scenario chain: six runs of the body, on frames 1 to 6 in this
order; five units of fuel are not enough, and the calls carry the six frames in
order. -/
theorem C17_loop_terminates_witness :
    IsChain scenario_heap 1 [1, 2, 3, 4, 5, 6] ∧
    visited 6 (fun p => p + 1000) 50 (lacp_port true) none false 6
      { heap := scenario_heap, head := 1, cmp := 1, last := NULL, calls := [] } =
      [1, 2, 3, 4, 5, 6] ∧
    (iterations 6 (fun p => p + 1000) 50 (lacp_port true) none false 6
      { heap := scenario_heap, head := 1, cmp := 1, last := NULL, calls := [] }).length = 7 ∧
    while_loop 6 (fun p => p + 1000) 50 (lacp_port true) none false 5
      { heap := scenario_heap, head := 1, cmp := 1, last := NULL, calls := [] } =
      .error Fault.fuel_exhausted ∧
    ∃ tr, aggr_recv_path_cb 6 (fun p => p + 1000) scenario_heap 50 (lacp_port true) none 1
        false false = .ok tr ∧ tr.flatMap Call.frames = [1, 2, 3, 4, 5, 6] := by
  obtain ⟨_, h2, _, h4, _, _, _, _, _, _, h11, h12⟩ :=
    C17_loop_terminates 6 (fun p => p + 1000) scenario_heap 50 (lacp_port true) none 1 false
      false [1, 2, 3, 4, 5, 6] (by decide) (by decide)
  obtain ⟨tr, k1, _, k3⟩ := h12 (by decide)
  exact ⟨by decide, h2, h4, h11 5 (by decide), tr, k1, k3 rfl⟩

/-- C18: on every null-terminated chain, each time the condition of the
filtering loop is evaluated `head == cmp` holds exactly when `last == NULL`, and
a non-null `last` is the frame whose `b_next` is `cmp`, the last of the frames
linked from `head` up to `cmp`; every run of the loop body succeeds, so neither
`ASSERT` fails and `last->b_next = NULL` never writes through a null pointer,
and `aggr_recv_path_cb` returns without a fault.  The states at which the
condition is evaluated are those of the loop itself: the first is the state in
which the loop is entered, each next one is the result of the loop body on the
one before, and the last is the state that the loop returns. -/
theorem C18_head_cmp_last (fuel : Nat) (copymsg : Nat → Nat) (h : Heap) (arg : Nat)
    (port : aggr_port_t) (mrh : Option aggr_pseudo_rx_ring_t) (mp : Nat)
    (loopback promisc_path : Bool) (ps : List Nat)
    (hc : IsChain h mp ps) (hfuel : ps.length ≤ fuel) :
    (∀ t ∈ iterations fuel copymsg arg port mrh promisc_path fuel
        { heap := h, head := mp, cmp := mp, last := NULL, calls := [] },
      (t.head = t.cmp ↔ t.last = NULL) ∧
      (t.last ≠ NULL →
        (t.heap t.last).b_next = t.cmp ∧
        ∃ run, IsSeg t.heap t.head run t.cmp ∧ run.getLast? = some t.last) ∧
      (t.cmp ≠ NULL →
        ∃ t1, loop_body fuel copymsg arg port mrh promisc_path t = .ok t1)) ∧
    (∃ tr, aggr_recv_path_cb fuel copymsg h arg port mrh mp loopback promisc_path = .ok tr) ∧
    (iterations fuel copymsg arg port mrh promisc_path fuel
      { heap := h, head := mp, cmp := mp, last := NULL, calls := [] }).head? =
      some { heap := h, head := mp, cmp := mp, last := NULL, calls := [] } ∧
    List.Chain'
      (fun t t1 => t.cmp ≠ NULL ∧ loop_body fuel copymsg arg port mrh promisc_path t = .ok t1)
      (iterations fuel copymsg arg port mrh promisc_path fuel
        { heap := h, head := mp, cmp := mp, last := NULL, calls := [] }) ∧
    ∃ s1, while_loop fuel copymsg arg port mrh promisc_path fuel
        { heap := h, head := mp, cmp := mp, last := NULL, calls := [] } = .ok s1 ∧
      (iterations fuel copymsg arg port mrh promisc_path fuel
        { heap := h, head := mp, cmp := mp, last := NULL, calls := [] }).getLast? = some s1 := by
  have hinit := loop_inv_init h mp ps hc
  have hn : ([] ++ ps).length ≤ fuel := by simpa using hfuel
  obtain ⟨_, hall⟩ :=
    iterations_spec h fuel copymsg arg port mrh promisc_path ps fuel _ [] hinit hn hfuel
  obtain ⟨s1, _, hloop, _, _, _⟩ :=
    while_loop_spec h fuel copymsg arg port mrh promisc_path ps fuel _ [] hinit hn hfuel
  refine ⟨fun t ht => ?_, ?_, iterations_head _ _ _ _ _ _ _ _, iterations_chain _ _ _ _ _ _ _ _,
    s1, hloop, (while_loop_getLast fuel copymsg arg port mrh promisc_path fuel _ s1 hloop).1⟩
  · obtain ⟨⟨acc1, rest1, hinv⟩, hbody⟩ := hall t ht
    obtain ⟨k1, k2⟩ := loop_inv_pointers hinv
    exact ⟨k1, k2, hbody⟩
  · by_cases hmode : port.lp_grp.lg_lacp_mode = aggr_lacp_mode_t.AGGR_LACP_OFF
    · exact ⟨_, aggr_recv_path_cb_off fuel copymsg h arg port mrh mp loopback promisc_path ps
        hmode hc hfuel⟩
    · exact ⟨_, aggr_recv_path_cb_lacp fuel copymsg h arg port mrh mp loopback promisc_path ps
        hmode hc hfuel⟩

/-- C18, on the scenario chain: the values of `head`, `cmp`, `last` each time
the loop condition is evaluated. -/
theorem C18_head_cmp_last_witness :
    IsChain scenario_heap 1 [1, 2, 3, 4, 5, 6] ∧
    (iterations 6 (fun p => p + 1000) 50 (lacp_port true) none false 6
      { heap := scenario_heap, head := 1, cmp := 1, last := NULL, calls := [] }).map
        (fun t => (t.head, t.cmp, t.last)) =
      [(1, 1, 0), (1, 2, 1), (1, 3, 2), (4, 4, 0), (4, 5, 4), (6, 6, 0), (6, 0, 6)] ∧
    ∀ t ∈ iterations 6 (fun p => p + 1000) 50 (lacp_port true) none false 6
        { heap := scenario_heap, head := 1, cmp := 1, last := NULL, calls := [] },
      (t.head = t.cmp ↔ t.last = NULL) :=
  ⟨by decide, by decide,
    fun t ht =>
      ((C18_head_cmp_last 6 (fun p => p + 1000) scenario_heap 50 (lacp_port true) none 1 false
        false [1, 2, 3, 4, 5, 6] (by decide) (by decide)).1 t ht).1⟩


/-! ## Independence of the delivery mode -/

/-- The calls of the promiscuous path that carry no control-class frame are the
calls of the normal path other than those to `aggr_lacp_rx_enqueue`, with
`mac_aggr_promisc_dispatch` in place of `mac_rx` and `mac_rx_ring`. -/
theorem scan_mode_independent (cls : Nat → frame_class) (copymsg : Nat → Nat) (arg : Nat)
    (port : aggr_port_t) (mrh : Option aggr_pseudo_rx_ring_t) (ps : List Nat) :
    ∀ acc, (∀ p ∈ acc, cls p = frame_class.data) →
      (scan cls copymsg arg port mrh true acc ps).filter
          (fun e => e.frames.all (fun p => !is_control cls p)) =
        ((scan cls copymsg arg port mrh false acc ps).filter
          (fun e => !e.is_enqueue)).map promisc_instead := by
  have hpend : ∀ acc : List Nat, (∀ p ∈ acc, cls p = frame_class.data) →
      (pending_calls port mrh true acc).filter
          (fun e => e.frames.all (fun p => !is_control cls p)) =
        ((pending_calls port mrh false acc).filter (fun e => !e.is_enqueue)).map
          promisc_instead := by
    intro acc hacc
    cases acc with
    | nil => rfl
    | cons a as =>
      have hall : (a :: as).all (fun p => !is_control cls p) = true := by
        rw [List.all_eq_true]
        intro p hp
        simp [is_control, hacc p hp]
      cases hg : port.lp_collector_enabled <;> cases mrh <;>
        simp [pending_calls, run_calls, hg, Call.frames, Call.is_enqueue, promisc_instead,
          List.filter_cons, hall]
  induction ps with
  | nil => intro acc hacc; simp only [scan]; exact hpend acc hacc
  | cons f fs ih =>
    intro acc hacc
    rcases hcl : cls f with _ | _ | _
    · simp only [scan, hcl, List.filter_append, List.filter_cons, List.map_append,
        hpend acc hacc]
      rw [ih [] (by simp)]
      simp [Call.frames, Call.is_enqueue, promisc_instead, is_control, hcl]
    · simp only [scan, hcl, List.filter_append, List.map_append, hpend acc hacc]
      rw [ih [] (by simp)]
      by_cases hcp : copymsg f = NULL <;>
        simp [lacp_calls, hcp, Call.frames, Call.is_enqueue, is_control, hcl]
    · simp only [scan, hcl]
      apply ih
      intro p hp
      rcases List.mem_append.mp hp with hp | hp
      · exact hacc p hp
      · rw [List.mem_singleton.mp hp]; exact hcl

theorem filter_freemsg_scan (cls : Nat → frame_class) (copymsg : Nat → Nat) (arg : Nat)
    (port : aggr_port_t) (mrh : Option aggr_pseudo_rx_ring_t) (promisc_path : Bool)
    (ps : List Nat) :
    ∀ acc, (scan cls copymsg arg port mrh promisc_path acc ps).filter Call.is_freemsg =
      (ps.filter (is_malformed cls)).map (fun f => Call.freemsg [f]) := by
  have hpend : ∀ acc : List Nat,
      (pending_calls port mrh promisc_path acc).filter Call.is_freemsg = [] := by
    intro acc
    rw [List.filter_eq_nil_iff]
    intro e he
    have := (run_calls_kind port mrh promisc_path acc e (mem_pending_calls he).2).2.1
    simp [this]
  have hlacp : ∀ f, (lacp_calls copymsg arg port promisc_path f).filter Call.is_freemsg = [] := by
    intro f
    rw [List.filter_eq_nil_iff]
    intro e he
    have := (lacp_calls_kind copymsg arg port promisc_path f e he).2.2.1
    simp [this]
  induction ps with
  | nil => intro acc; simp [scan, hpend]
  | cons f fs ih =>
    intro acc
    rcases hcl : cls f with _ | _ | _
    · simp [scan, hcl, List.filter_append, List.filter_cons, hpend, ih, is_malformed,
        Call.is_freemsg]
    · simp [scan, hcl, List.filter_append, hpend, hlacp, ih, is_malformed, List.filter_cons]
    · simp [scan, hcl, ih, is_malformed, List.filter_cons]

/-- C19: with LACP running, in either state of the collector, `aggr_recv_cb`
and `aggr_recv_promisc_cb` return on every null-terminated chain and partition
it alike: the calls of the promiscuous path that carry no control-class frame
are, one for one and in the same order, the calls of the normal path other than
those to `aggr_lacp_rx_enqueue`, with `mac_aggr_promisc_dispatch` in place of
`mac_rx` and `mac_rx_ring`; so the runs flushed are the same, and so are the
malformed frames freed.  The `loopback` argument has no effect. -/
theorem C19_partition_mode_independent (fuel : Nat) (copymsg : Nat → Nat) (h : Heap)
    (arg : Nat) (port : aggr_port_t) (mrh : Option aggr_pseudo_rx_ring_t) (mp : Nat)
    (loopback loopback2 : Bool) (ps : List Nat)
    (hmode : port.lp_grp.lg_lacp_mode ≠ aggr_lacp_mode_t.AGGR_LACP_OFF)
    (hc : IsChain h mp ps) (hfuel : ps.length ≤ fuel) :
    ∃ tr_normal tr_promisc,
      aggr_recv_cb fuel copymsg h arg port mrh mp loopback = .ok tr_normal ∧
      aggr_recv_promisc_cb fuel copymsg h arg port mrh mp loopback = .ok tr_promisc ∧
      tr_promisc.filter
          (fun e => e.frames.all (fun p => !is_control (fun p => classify (h p)) p)) =
        (tr_normal.filter (fun e => !e.is_enqueue)).map promisc_instead ∧
      (tr_promisc.filter
          (fun e => e.frames.all (fun p => !is_control (fun p => classify (h p)) p))).map
          Call.frames =
        (tr_normal.filter (fun e => !e.is_enqueue)).map Call.frames ∧
      tr_promisc.filter Call.is_freemsg = tr_normal.filter Call.is_freemsg ∧
      aggr_recv_cb fuel copymsg h arg port mrh mp loopback2 =
        aggr_recv_cb fuel copymsg h arg port mrh mp loopback ∧
      aggr_recv_promisc_cb fuel copymsg h arg port mrh mp loopback2 =
        aggr_recv_promisc_cb fuel copymsg h arg port mrh mp loopback := by
  have heq := scan_mode_independent (fun p => classify (h p)) copymsg arg port mrh ps []
    (by simp)
  refine ⟨_, _,
    aggr_recv_path_cb_lacp fuel copymsg h arg port mrh mp loopback false ps hmode hc hfuel,
    aggr_recv_path_cb_lacp fuel copymsg h arg port mrh mp loopback true ps hmode hc hfuel,
    heq, ?_, ?_, rfl, rfl⟩
  · rw [heq, List.map_map]
    apply List.map_congr_left
    intro e _
    cases e <;> rfl
  · rw [filter_freemsg_scan, filter_freemsg_scan]

/-- C19, on the scenario chain: both paths flush the runs `[1, 2]`, `[4]`, `[6]`
and free frame 5. -/
theorem C19_partition_mode_independent_witness :
    IsChain scenario_heap 1 [1, 2, 3, 4, 5, 6] ∧
    ∃ tr_normal tr_promisc,
      aggr_recv_cb 6 (fun p => p + 1000) scenario_heap 50 (lacp_port true) none 1 false =
        .ok tr_normal ∧
      aggr_recv_promisc_cb 6 (fun p => p + 1000) scenario_heap 50 (lacp_port true) none 1 false =
        .ok tr_promisc ∧
      (tr_promisc.filter (fun e => e.frames.all
          (fun p => !is_control (fun p => classify (scenario_heap p)) p))).map Call.frames =
        [[1, 2], [4], [5], [6]] ∧
      (tr_normal.filter (fun e => !e.is_enqueue)).map Call.frames = [[1, 2], [4], [5], [6]] ∧
      tr_promisc.filter Call.is_freemsg = tr_normal.filter Call.is_freemsg := by
  refine ⟨by decide, ?_⟩
  obtain ⟨tn, tp, h1, h2, _, h4, h5, _, _⟩ :=
    C19_partition_mode_independent 6 (fun p => p + 1000) scenario_heap 50 (lacp_port true) none
      1 false true [1, 2, 3, 4, 5, 6] (by decide) (by decide) (by decide)
  have e1 : aggr_recv_cb 6 (fun p => p + 1000) scenario_heap 50 (lacp_port true) none 1 false =
      .ok [Call.mac_rx 100 [1, 2], Call.aggr_lacp_rx_enqueue 50 [3], Call.mac_rx 100 [4],
        Call.freemsg [5], Call.mac_rx 100 [6]] := by decide
  have e2 : tn = [Call.mac_rx 100 [1, 2], Call.aggr_lacp_rx_enqueue 50 [3],
      Call.mac_rx 100 [4], Call.freemsg [5], Call.mac_rx 100 [6]] := by
    rw [h1] at e1
    exact Except.ok.inj e1
  have e3 : (tn.filter (fun e => !e.is_enqueue)).map Call.frames = [[1, 2], [4], [5], [6]] := by
    rw [e2]; rfl
  exact ⟨tn, tp, h1, h2, h4.trans e3, e3, h5⟩


/-! ## The collector gate -/

/-- On either path, disabling the collector replaces every delivery of a run of
data-class frames by a `freemsgchain` of the same run and changes nothing
else. -/
theorem scan_gate_closed_any (cls : Nat → frame_class) (copymsg : Nat → Nat) (arg : Nat)
    (grp : aggr_grp_t) (mrh : Option aggr_pseudo_rx_ring_t) (promisc_path : Bool)
    (ps : List Nat) :
    ∀ acc, (∀ p ∈ acc, cls p = frame_class.data) →
      scan cls copymsg arg { lp_grp := grp, lp_collector_enabled := false } mrh promisc_path
          acc ps =
        (scan cls copymsg arg { lp_grp := grp, lp_collector_enabled := true } mrh promisc_path
          acc ps).map (discard_data_run cls) := by
  have hpend : ∀ acc : List Nat, (∀ p ∈ acc, cls p = frame_class.data) →
      pending_calls { lp_grp := grp, lp_collector_enabled := false } mrh promisc_path acc =
        (pending_calls { lp_grp := grp, lp_collector_enabled := true } mrh promisc_path
          acc).map (discard_data_run cls) := by
    intro acc hacc
    cases acc with
    | nil => rfl
    | cons a as =>
      have hall : (a :: as).all (is_data cls) = true := by
        rw [List.all_eq_true]
        intro p hp
        simp [is_data, hacc p hp]
      cases promisc_path <;> cases mrh <;>
        simp [pending_calls, run_calls, discard_data_run, Call.is_delivery, Call.frames, hall]
  have hlacp : ∀ f, cls f = frame_class.control →
      lacp_calls copymsg arg { lp_grp := grp, lp_collector_enabled := false } promisc_path f =
        (lacp_calls copymsg arg { lp_grp := grp, lp_collector_enabled := true } promisc_path
          f).map (discard_data_run cls) := by
    intro f hf
    cases promisc_path <;> by_cases hcp : copymsg f = NULL <;>
      simp [lacp_calls, hcp, discard_data_run, Call.is_delivery, Call.frames, is_data, hf]
  induction ps with
  | nil => intro acc hacc; simp only [scan]; exact hpend acc hacc
  | cons f fs ih =>
    intro acc hacc
    rcases hcl : cls f with _ | _ | _
    · simp only [scan, hcl, List.map_append, List.map_cons, hpend acc hacc]
      rw [ih [] (by simp)]
      simp [discard_data_run, Call.is_delivery]
    · simp only [scan, hcl, List.map_append, hpend acc hacc, hlacp f hcl]
      rw [ih [] (by simp)]
    · simp only [scan, hcl]
      apply ih
      intro p hp
      rcases List.mem_append.mp hp with hp | hp
      · exact hacc p hp
      · rw [List.mem_singleton.mp hp]; exact hcl

/-- With the collector disabled, the calls to `freemsgchain` made for a list of
groups are one call for each group of data-class frames, carrying that group. -/
theorem filter_freemsgchain_groups (cls : Nat → frame_class) (copymsg : Nat → Nat) (arg : Nat)
    (port : aggr_port_t) (mrh : Option aggr_pseudo_rx_ring_t) (promisc_path : Bool)
    (hgate : port.lp_collector_enabled = false) (gs : List (List Nat))
    (hne : ∀ g ∈ gs, g ≠ [])
    (hgs : ∀ g ∈ gs, ∀ f fs, g = f :: fs → cls f = frame_class.data →
      ∀ p ∈ g, cls p = frame_class.data) :
    (gs.flatMap (group_calls cls copymsg arg port mrh promisc_path)).filter
        Call.is_freemsgchain =
      (gs.filter (fun run => run.all (is_data cls))).map Call.freemsgchain := by
  induction gs with
  | nil => rfl
  | cons g gs ih =>
    have ih1 := ih (fun g1 hg1 => hne g1 (List.mem_cons_of_mem g hg1))
      (fun g1 hg1 => hgs g1 (List.mem_cons_of_mem g hg1))
    rw [List.flatMap_cons, List.filter_append, ih1]
    cases g with
    | nil => exact absurd rfl (hne [] (List.mem_cons_self _ _))
    | cons f fs =>
      rcases hcl : cls f with _ | _ | _
      · simp [group_calls, hcl, Call.is_freemsgchain, List.filter_cons, is_data]
      · have hnone : (lacp_calls copymsg arg port promisc_path f).filter
            Call.is_freemsgchain = [] := by
          rw [List.filter_eq_nil_iff]
          intro e he
          have := (lacp_calls_kind copymsg arg port promisc_path f e he).2.2.2.1
          simp [this]
        simp [group_calls, hcl, hnone, List.filter_cons, is_data]
      · have hall : (f :: fs).all (is_data cls) = true := by
          rw [List.all_eq_true]
          intro p hp
          simp [is_data, hgs (f :: fs) (List.mem_cons_self _ _) f fs rfl hcl p hp]
        simp only [group_calls, hcl, run_calls, hgate, Bool.false_eq_true, if_false,
          List.filter_cons, hall, if_true, List.map_cons]
        simp [Call.is_freemsgchain]

theorem data_of_mem_splitBy (cls : Nat → frame_class) (ps : List Nat) :
    ∀ g ∈ List.splitBy (both_data cls) ps, ∀ f fs, g = f :: fs → cls f = frame_class.data →
      ∀ p ∈ g, cls p = frame_class.data := by
  intro g hg f fs hgf hf
  have hmax := isMaximalDataRun_of_mem_splitBy cls ps.length ps (le_refl _) g hg
    (fun q hq => by
      rw [hgf] at hq
      have : q = f := by simpa using hq.symm
      rw [this]; exact hf)
  exact hmax.2.1

/-- C5, amended: with LACP running and the collector disabled,
`aggr_recv_path_cb` returns on every null-terminated chain, makes no call to
`mac_rx` or `mac_rx_ring`, passes no data-class frame to any delivery sink, makes
no delivery call at all on the normal path, and hands every run that would have
been delivered to `freemsgchain` instead, as that run: its calls to
`freemsgchain` are, in order, one call for each maximal contiguous run of
data-class frames of the chain, carrying exactly that run, and all its calls are
those made with the collector enabled after replacing each delivery of a run of
data-class frames by a `freemsgchain` of the same run. -/
theorem C5_gate_closed_discards_runs (fuel : Nat) (copymsg : Nat → Nat) (h : Heap) (arg : Nat)
    (port : aggr_port_t) (mrh : Option aggr_pseudo_rx_ring_t) (mp : Nat)
    (loopback promisc_path : Bool) (ps : List Nat)
    (hmode : port.lp_grp.lg_lacp_mode ≠ aggr_lacp_mode_t.AGGR_LACP_OFF)
    (hgate : port.lp_collector_enabled = false)
    (hc : IsChain h mp ps) (hfuel : ps.length ≤ fuel) :
    ∃ tr, aggr_recv_path_cb fuel copymsg h arg port mrh mp loopback promisc_path = .ok tr ∧
      (∀ e ∈ tr, e.is_normal_rx = false) ∧
      (∀ e ∈ tr, e.is_delivery = true →
        ∀ p ∈ e.frames, is_data (fun p => classify (h p)) p = false) ∧
      (promisc_path = false → ∀ e ∈ tr, e.is_delivery = false) ∧
      chain_discarded tr = ps.filter (is_data (fun p => classify (h p))) ∧
      tr.filter Call.is_freemsgchain =
        (data_run_list (fun p => classify (h p)) ps).map Call.freemsgchain ∧
      (∀ run ∈ data_run_list (fun p => classify (h p)) ps,
        IsMaximalDataRun (fun p => classify (h p)) ps run) ∧
      ∃ tr_open,
        aggr_recv_path_cb fuel copymsg h arg
          { lp_grp := port.lp_grp, lp_collector_enabled := true } mrh mp loopback
          promisc_path = .ok tr_open ∧
        tr = tr_open.map (discard_data_run (fun p => classify (h p))) ∧
        (tr_open.filter (fun e => e.is_delivery &&
            e.frames.all (is_data (fun p => classify (h p))))).map Call.frames =
          data_run_list (fun p => classify (h p)) ps := by
  have hkind : ∀ e ∈ scan (fun p => classify (h p)) copymsg arg port mrh promisc_path [] ps,
      e.is_normal_rx = false ∧
      (e.is_delivery = true → promisc_path = true ∧
        ∀ p ∈ e.frames, is_data (fun p => classify (h p)) p = false) := by
    intro e he
    rcases mem_scan _ copymsg arg port mrh promisc_path ps [] e he with
      ⟨run, _, _, h3⟩ | ⟨f, _, h2, h3⟩ | ⟨f, _, _, h3⟩
    · simp only [run_calls, hgate, Bool.false_eq_true, if_false, List.mem_singleton] at h3
      subst h3
      simp [Call.is_normal_rx, Call.is_delivery]
    · unfold lacp_calls at h3
      cases promisc_path <;> by_cases hcp : copymsg f = NULL <;> simp [hcp] at h3 <;>
        subst h3 <;> simp [Call.is_normal_rx, Call.is_delivery, Call.frames, is_data, h2]
    · subst h3
      simp [Call.is_normal_rx, Call.is_delivery]
  have hport : port = { lp_grp := port.lp_grp, lp_collector_enabled := false } := by
    cases port
    simp only [aggr_port_t.mk.injEq, true_and]
    exact hgate
  have hfilter : (scan (fun p => classify (h p)) copymsg arg port mrh promisc_path [] ps).filter
      Call.is_freemsgchain =
        (data_run_list (fun p => classify (h p)) ps).map Call.freemsgchain := by
    rw [scan_eq_flatMap _ copymsg arg port mrh promisc_path ps.length ps (le_refl _)]
    exact filter_freemsgchain_groups _ copymsg arg port mrh promisc_path hgate _
      (fun g hg => List.ne_nil_of_mem_splitBy _ hg) (data_of_mem_splitBy _ ps)
  have hopen_mode : ({ lp_grp := port.lp_grp, lp_collector_enabled := true } :
      aggr_port_t).lp_grp.lg_lacp_mode ≠ aggr_lacp_mode_t.AGGR_LACP_OFF := hmode
  have hmap : scan (fun p => classify (h p)) copymsg arg port mrh promisc_path [] ps =
      (scan (fun p => classify (h p)) copymsg arg
        { lp_grp := port.lp_grp, lp_collector_enabled := true } mrh promisc_path [] ps).map
        (discard_data_run (fun p => classify (h p))) := by
    have := scan_gate_closed_any (fun p => classify (h p)) copymsg arg port.lp_grp mrh
      promisc_path ps [] (by simp)
    rw [← hport] at this
    exact this
  refine ⟨_, aggr_recv_path_cb_lacp fuel copymsg h arg port mrh mp loopback promisc_path ps
    hmode hc hfuel, fun e he => (hkind e he).1, fun e he hd => ((hkind e he).2 hd).2, ?_, ?_,
    hfilter, ?_, _, aggr_recv_path_cb_lacp fuel copymsg h arg _ mrh mp loopback promisc_path ps
      hopen_mode hc hfuel, hmap, ?_⟩
  · intro hp e he
    cases hd : e.is_delivery
    · rfl
    · have := ((hkind e he).2 hd).1
      rw [hp] at this
      cases this
  · rw [chain_discarded_scan, hgate]
    simp
  · intro run hrun
    have hmem := (List.mem_filter.mp hrun).1
    have hall := (List.mem_filter.mp hrun).2
    apply isMaximalDataRun_of_mem_splitBy _ ps.length ps (le_refl _) run hmem
    intro q hq
    have hq2 : q ∈ run := List.mem_of_mem_head? hq
    have := List.all_eq_true.mp hall q hq2
    simpa [is_data] using this
  · -- the deliveries of data runs with the collector enabled carry the same runs
    have h1 : ∀ tr1 : List Call,
        ((tr1.map (discard_data_run (fun p => classify (h p)))).filter
          Call.is_freemsgchain).map Call.frames =
        (tr1.filter (fun e => (e.is_delivery &&
            e.frames.all (is_data (fun p => classify (h p)))) || e.is_freemsgchain)).map
          Call.frames := by
      intro tr1
      induction tr1 with
      | nil => rfl
      | cons e es ih =>
        simp only [List.map_cons, List.filter_cons]
        by_cases hd : (e.is_delivery && e.frames.all (is_data (fun p => classify (h p)))) = true
        · have k1 : discard_data_run (fun p => classify (h p)) e = Call.freemsgchain e.frames := by
            unfold discard_data_run
            rw [if_pos hd]
          rw [k1, hd]
          simp only [Call.is_freemsgchain, Bool.true_or, if_true, List.map_cons, ih]
          rfl
        · have k1 : discard_data_run (fun p => classify (h p)) e = e := by
            unfold discard_data_run
            rw [if_neg hd]
          have hd2 : (e.is_delivery &&
              e.frames.all (is_data (fun p => classify (h p)))) = false := by
            simpa using hd
          rw [k1, hd2]
          cases hf : e.is_freemsgchain <;>
            simp only [Bool.false_eq_true, if_false, if_true, Bool.or_self, Bool.false_or,
              List.map_cons, ih]
    have h2 : ∀ e ∈ scan (fun p => classify (h p)) copymsg arg
        { lp_grp := port.lp_grp, lp_collector_enabled := true } mrh promisc_path [] ps,
        e.is_freemsgchain = false := by
      intro e he
      rcases mem_scan _ copymsg arg _ mrh promisc_path ps [] e he with
        ⟨run, _, _, h3⟩ | ⟨f, _, _, h3⟩ | ⟨f, _, _, h3⟩
      · cases promisc_path <;> cases mrh <;>
          simp [run_calls] at h3 <;> subst h3 <;> rfl
      · exact (lacp_calls_kind copymsg arg _ promisc_path f e h3).2.2.2.1
      · subst h3; rfl
    have h3 := congrArg (List.map Call.frames) hfilter
    rw [hmap, h1] at h3
    rw [List.map_map] at h3
    have h4 : (fun run => (Call.freemsgchain run).frames) = (fun run : List Nat => run) := rfl
    have h5 : (Call.frames ∘ Call.freemsgchain) = (fun run : List Nat => run) := rfl
    rw [h5, List.map_id'] at h3
    rw [← h3]
    congr 1
    apply List.filter_congr
    intro e he
    rw [h2 e he]
    simp

/-- C5 amended, on the scenario chain, normal path: no delivery call, and the
runs `[1, 2]`, `[4]`, `[6]` go to `freemsgchain` one by one. -/
theorem C5_gate_closed_discards_runs_witness :
    IsChain scenario_heap 1 [1, 2, 3, 4, 5, 6] ∧
    ∃ tr, aggr_recv_path_cb 6 (fun p => p + 1000) scenario_heap 50 (lacp_port false) none 1
        false false = .ok tr ∧
      (∀ e ∈ tr, e.is_delivery = false) ∧ chain_discarded tr = [1, 2, 4, 6] ∧
      tr.filter Call.is_freemsgchain =
        [Call.freemsgchain [1, 2], Call.freemsgchain [4], Call.freemsgchain [6]] := by
  refine ⟨by decide, ?_⟩
  obtain ⟨tr, h1, _, _, h4, h5, h6, _⟩ :=
    C5_gate_closed_discards_runs 6 (fun p => p + 1000) scenario_heap 50 (lacp_port false) none 1
      false false [1, 2, 3, 4, 5, 6] (by decide) rfl (by decide) (by decide)
  have e1 : [1, 2, 3, 4, 5, 6].filter (is_data (fun p => classify (scenario_heap p))) =
      [1, 2, 4, 6] := by decide
  have e2 : (data_run_list (fun p => classify (scenario_heap p)) [1, 2, 3, 4, 5, 6]).map
      Call.freemsgchain =
      [Call.freemsgchain [1, 2], Call.freemsgchain [4], Call.freemsgchain [6]] := by decide
  exact ⟨tr, h1, h4 rfl, h5.trans e1, h6.trans e2⟩


end Aggr
